import Mathlib

/-!
# The specification-accumulation layer of `util/hb-subset.cc`

A shallow embedding of the option callbacks of the subsetter command line
(`parse_gids`, `parse_unicodes`, `parse_nameids`, `parse_name_languages`,
`parse_layout_features`, `parse_drop_tables`) together with the properties
they are checked against.

Conventions of the embedding.

* A C string is the list of the characters that precede its terminating NUL,
  one `Char` per byte; a `char *` into a string is the suffix that starts
  there, so `s++` is `List.tail` and `*s == 0` is `s = []`.
* `hb_codepoint_t` is a 32-bit unsigned integer: a `Nat` reduced `% 2 ^ 32`.
  `unsigned long` is 64 bits wide.
* A callback `gboolean f (name, arg, data, error)` becomes a function from
  `name`, `arg` and the `subset_main_t` behind `data` to a `Ret` holding the
  returned boolean, the error stored through `error` (if any) and the state
  the call leaves behind.  State is left behind on failure as well, since the
  callbacks mutate the sets in place.
* Loops are run on fuel; `none` is "out of fuel".  Every callback starts its
  loop with more fuel than the loop can use.
-/

namespace HbSubset

/-! ## Data model -/

/-- A C string: the characters before the terminating NUL. -/
abbrev CStr := List Char

/-- The library type `hb_set_t`: a finite set of `hb_codepoint_t` values. -/
abbrev hb_set_t := Finset Nat

/-- Conversion of an `unsigned long` to `hb_codepoint_t` (`uint32_t`). -/
def to_codepoint (v : Nat) : Nat := v % 2 ^ 32

/-- Modelled from the spec: `hb_set_add` is declared in the library headers,
not in this file; a SelectionSet is "a set of unsigned 32-bit integers" with
set semantics. -/
def hb_set_add (s : hb_set_t) (g : Nat) : hb_set_t := insert g s

/-- Modelled from the spec: `hb_set_del`, removal of one value. -/
def hb_set_del (s : hb_set_t) (g : Nat) : hb_set_t := s.erase g

/-- Modelled from the spec: `hb_set_add_range`, a Range is "a pair (start,
end), both inclusive", added in one step. -/
def hb_set_add_range (s : hb_set_t) (first last : Nat) : hb_set_t :=
  s ∪ Finset.Icc first last

/-- Modelled from the spec: `hb_set_del_range`, removal of an inclusive range. -/
def hb_set_del_range (s : hb_set_t) (first last : Nat) : hb_set_t :=
  s \ Finset.Icc first last

/-- Modelled from the spec: `hb_set_clear`, "clear this field's set". -/
def hb_set_clear (_s : hb_set_t) : hb_set_t := ∅

/-- The selection sets and the flag word behind `hb_subset_input_t`. -/
structure hb_subset_input_t where
  glyphs : hb_set_t
  unicodes : hb_set_t
  name_ids : hb_set_t
  name_languages : hb_set_t
  layout_features : hb_set_t
  drop_tables : hb_set_t
  flags : Nat

instance : DecidableEq hb_subset_input_t := fun a b =>
  decidable_of_iff
    (a.glyphs = b.glyphs ∧ a.unicodes = b.unicodes ∧ a.name_ids = b.name_ids ∧
      a.name_languages = b.name_languages ∧ a.layout_features = b.layout_features ∧
      a.drop_tables = b.drop_tables ∧ a.flags = b.flags)
    (by cases a; cases b; simp)

/-- The fields of `subset_main_t` that the callbacks read or write;
`glyph_names = none` is the null `GString *`, `font_file = none` the null
`char *` inherited from `face_options_t`. -/
structure subset_main_t where
  input : hb_subset_input_t
  all_unicodes : Bool
  glyph_names : Option CStr
  font_file : Option CStr

instance : DecidableEq subset_main_t := fun a b =>
  decidable_of_iff
    (a.input = b.input ∧ a.all_unicodes = b.all_unicodes ∧ a.glyph_names = b.glyph_names ∧
      a.font_file = b.font_file)
    (by cases a; cases b; simp)

/-- The errors raised through `g_set_error`: one constructor per format
string, carrying the arguments of the format. -/
inductive GError where
  /-- Message "Failed parsing glyph-index at: '%s'". -/
  | glyph_index_at (s : CStr)
  /-- Message "Invalid gid-index range %u-%u". -/
  | invalid_gid_range (start_code end_code : Nat)
  /-- Message "Failed parsing Unicode value at: '%s'". -/
  | unicode_at (s : CStr)
  /-- Message "Failed parsing nameID value at: '%s'". -/
  | nameid_at (s : CStr)
  /-- Message "Failed parsing name-language code at: '%s'". -/
  | name_language_at (s : CStr)
  /-- Message "Failed parsing table tag value at: '%s'". -/
  | table_tag_at (s : CStr)
  /-- Message "Failed parsing glyph name: '%s'". -/
  | glyph_name_at (s : CStr)
  /-- Message "Failed opening file ...", with the file name. -/
  | file_open (arg : CStr)
  /-- Message "Failed reading file ...", with the file name. -/
  | file_read (arg : CStr)
deriving DecidableEq

/-- What a call leaves behind: the returned `gboolean`, the error stored
through the `GError **` (if any), and the state. -/
structure Ret (σ : Type) where
  ret : Bool
  error : Option GError
  state : σ

instance {σ : Type} [DecidableEq σ] : DecidableEq (Ret σ) := fun a b =>
  decidable_of_iff (a.ret = b.ret ∧ a.error = b.error ∧ a.state = b.state)
    (by cases a; cases b; simp)

/-- The result of a callback on `subset_main_t`. -/
abbrev Outcome := Ret subset_main_t

/-- Put a set-level result back into the state it was taken from. -/
def Ret.lift {σ τ : Type} (put : σ → τ) (r : Ret σ) : Ret τ :=
  { ret := r.ret, error := r.error, state := put r.state }

/-! ## `strtoul` -/

/-- Largest `unsigned long` (64 bits). -/
def ULONG_MAX : Nat := 2 ^ 64 - 1

/-- The C function `isspace` in the "C" locale. -/
def isspace (c : Char) : Bool :=
  c = ' ' || c = '\t' || c = '\n' || c = '\x0b' || c = '\x0c' || c = '\r'

/-- Value of a character as a digit or letter, as `strtoul` reads it. -/
def digit_value (c : Char) : Option Nat :=
  let n := c.toNat
  if 48 ≤ n ∧ n ≤ 57 then some (n - 48)         -- '0' .. '9'
  else if 97 ≤ n ∧ n ≤ 122 then some (n - 87)   -- 'a' .. 'z'
  else if 65 ≤ n ∧ n ≤ 90 then some (n - 55)    -- 'A' .. 'Z'
  else none

/-- A digit of the given base. -/
def digit_in (base : Nat) (c : Char) : Option Nat :=
  match digit_value c with
  | some d => if d < base then some d else none
  | none => none

/-- The longest run of digits of `base` at the head of the string, read as a
number on top of `acc`, and what follows it. -/
def strtoul_digits (base : Nat) : CStr → Nat → Nat × CStr
  | [], acc => (acc, [])
  | c :: cs, acc =>
    match digit_in base c with
    | some d => strtoul_digits base cs (acc * base + d)
    | none => (acc, c :: cs)

/-- The optional sign of `strtoul`: whether it is a minus, and the rest. -/
def strtoul_sign (s : CStr) : Bool × CStr :=
  match s with
  | c :: t => if c = '-' then (true, t) else if c = '+' then (false, t) else (false, s)
  | [] => (false, s)

/-- The optional `0x` / `0X` of base 16, taken only in front of a hex digit. -/
def strtoul_radix (base : Nat) (s : CStr) : CStr :=
  match s with
  | z :: x :: h :: t =>
    if base = 16 ∧ z = '0' ∧ (x = 'x' ∨ x = 'X') ∧ (digit_in 16 h).isSome then h :: t else s
  | _ => s

/-- What `strtoul (nptr, &endptr, base)` hands back: the value, the end
pointer, and whether it set `errno` to `ERANGE`. -/
structure strtoul_t where
  value : Nat
  endptr : CStr
  erange : Bool
deriving DecidableEq

/-- The C function `strtoul`: white space, an optional sign, an optional
radix mark, then digits.  Without digits nothing is converted: the value is
0 and the end pointer is `nptr`.  A magnitude above `ULONG_MAX` gives
`ULONG_MAX` and `ERANGE`; a minus sign negates in `unsigned long`. -/
def strtoul (nptr : CStr) (base : Nat) : strtoul_t :=
  let sg := strtoul_sign (nptr.dropWhile isspace)
  let s := strtoul_radix base sg.2
  match s with
  | [] => { value := 0, endptr := nptr, erange := false }
  | c :: _ =>
    if (digit_in base c).isNone then { value := 0, endptr := nptr, erange := false }
    else
      let r := strtoul_digits base s 0
      if r.1 > ULONG_MAX then { value := ULONG_MAX, endptr := r.2, erange := true }
      else { value := if sg.1 then (2 ^ 64 - r.1) % 2 ^ 64 else r.1, endptr := r.2, erange := false }

/-- The test `strchr (set, c)` for a character `c` other than NUL. -/
def strchr (set : CStr) (c : Char) : Bool := set.contains c

/-! ## `parse_gids` -/

/-- The loop of `parse_gids` (lines 130-170) on the glyph-ID set. -/
def parse_gids_loop : Nat → CStr → hb_set_t → Option (Ret hb_set_t)
  | 0, _, _ => none
  | fuel + 1, s, gids =>
    if s = [] then some { ret := true, error := none, state := gids }
    else
      let s := s.dropWhile (strchr ", ".toList)
      if s = [] then some { ret := true, error := none, state := gids }
      else
        let r := strtoul s 10
        let errno := r.erange
        let p := r.endptr
        let start_code := to_codepoint r.value
        if s.head? = some '-' ∨ errno ∨ s.length = p.length then
          some { ret := false, error := some (.glyph_index_at s), state := gids }
        else if p.head? = some '-' then
          let s := p.tail
          let r := strtoul s 10
          let errno := errno || r.erange
          let p := r.endptr
          let end_code := to_codepoint r.value
          if s.head? = some '-' ∨ errno ∨ s.length = p.length then
            some { ret := false, error := some (.glyph_index_at s), state := gids }
          else if end_code < start_code then
            some { ret := false, error := some (.invalid_gid_range start_code end_code),
                   state := gids }
          else parse_gids_loop fuel p (hb_set_add_range gids start_code end_code)
        else parse_gids_loop fuel p (hb_set_add gids start_code)

/-- Store a glyph-ID set into the state. -/
def put_glyphs (m : subset_main_t) (g : hb_set_t) : subset_main_t :=
  { m with input := { m.input with glyphs := g } }

/-- The callback `parse_gids` (lines 118-173); `name` is unused. -/
def parse_gids (_name arg : CStr) (m : subset_main_t) : Option Outcome :=
  (parse_gids_loop (arg.length + 1) arg m.input.glyphs).map (Ret.lift (put_glyphs m))

/-! ## `parse_unicodes` -/

/-- The macro `DELIMITERS` of `parse_unicodes` (line 240). -/
def DELIMITERS : CStr := "<+>\x7b\x7d,;&#\\xXuUnNiI\n\t\x0b\x0c\r ".toList

/-- The loop of `parse_unicodes` (lines 238-258) on the Unicode set. -/
def parse_unicodes_loop : Nat → CStr → hb_set_t → Option (Ret hb_set_t)
  | 0, _, _ => none
  | fuel + 1, s, codepoints =>
    if s = [] then some { ret := true, error := none, state := codepoints }
    else
      let s := s.dropWhile (strchr DELIMITERS)
      if s = [] then some { ret := true, error := none, state := codepoints }
      else
        let r := strtoul s 16
        let errno := r.erange
        let p := r.endptr
        let u := to_codepoint r.value
        if errno ∨ s.length = p.length then
          some { ret := false, error := some (.unicode_at s), state := codepoints }
        else parse_unicodes_loop fuel p (hb_set_add codepoints u)

/-- Store a Unicode set into the state. -/
def put_unicodes (m : subset_main_t) (u : hb_set_t) : subset_main_t :=
  { m with input := { m.input with unicodes := u } }

/-- The callback `parse_unicodes` (lines 218-261); `name` is unused. -/
def parse_unicodes (_name arg : CStr) (m : subset_main_t) : Option Outcome :=
  if arg = "*".toList then
    some { ret := true, error := none, state := { m with all_unicodes := true } }
  else
    (parse_unicodes_loop (arg.length + 1) arg m.input.unicodes).map (Ret.lift (put_unicodes m))

/-! ## `parse_nameids` and `parse_name_languages` -/

/-- The loop shared, statement for statement, by `parse_nameids` (lines
289-313) and `parse_name_languages` (lines 344-368); the two differ in the
set they work on and in the error they raise, `mk_error`.
`last_name_char` is `none` for an empty name. -/
def parse_ids_loop (mk_error : CStr → GError) (last_name_char : Option Char) :
    Nat → CStr → hb_set_t → Option (Ret hb_set_t)
  | 0, _, _ => none
  | fuel + 1, s, ids =>
    if s = [] then some { ret := true, error := none, state := ids }
    else
      let s := s.dropWhile (strchr ", ".toList)
      if s = [] then some { ret := true, error := none, state := ids }
      else
        let r := strtoul s 10
        let errno := r.erange
        let p := r.endptr
        let u := to_codepoint r.value
        if errno ∨ s.length = p.length then
          some { ret := false, error := some (mk_error s), state := ids }
        else if last_name_char ≠ some '-' then
          parse_ids_loop mk_error last_name_char fuel p (hb_set_add ids u)
        else
          parse_ids_loop mk_error last_name_char fuel p (hb_set_del ids u)

/-- Store a name-ID set into the state. -/
def put_name_ids (m : subset_main_t) (s : hb_set_t) : subset_main_t :=
  { m with input := { m.input with name_ids := s } }

/-- The callback `parse_nameids` (lines 263-316). -/
def parse_nameids (name arg : CStr) (m : subset_main_t) : Option Outcome :=
  let last_name_char := name.getLast?
  let name_ids :=
    if last_name_char ≠ some '+' ∧ last_name_char ≠ some '-' then hb_set_clear m.input.name_ids
    else m.input.name_ids
  if arg = "*".toList then
    if last_name_char = some '-' then
      some { ret := true, error := none,
             state := put_name_ids m (hb_set_del_range name_ids 0 0x7FFF) }
    else
      some { ret := true, error := none,
             state := put_name_ids m (hb_set_add_range name_ids 0 0x7FFF) }
  else
    (parse_ids_loop .nameid_at last_name_char (arg.length + 1) arg name_ids).map
      (Ret.lift (put_name_ids m))

/-- Modelled from the spec: `hb_tag_from_string` is library code, not in this
file; a token of 1 to 4 bytes is packed "big-endian left-justified,
space-padded, into a 32-bit tag code". -/
def hb_tag_from_string (s : CStr) : Nat :=
  let byte (i : Nat) : Nat := ((s.get? i).map (fun c => c.toNat % 256)).getD 32
  byte 0 * 2 ^ 24 + byte 1 * 2 ^ 16 + byte 2 * 2 ^ 8 + byte 3

/-- The C function `strtok` on the text still to be scanned: `none` when only
delimiters are left, otherwise the token and the text kept for the next
call (what follows the delimiter that ended the token). -/
def strtok (s delim : CStr) : Option (CStr × CStr) :=
  let s := s.dropWhile (strchr delim)
  if s = [] then none
  else some (s.takeWhile (fun c => !strchr delim c),
             (s.dropWhile (fun c => !strchr delim c)).tail)

/-- The loop shared, statement for statement, by `parse_layout_features`
(lines 416-434) and `parse_drop_tables` (lines 453-471).  The second
argument is the result of the last `strtok` call. -/
def parse_tags_loop (last_name_char : Option Char) :
    Nat → Option (CStr × CStr) → hb_set_t → Option (Ret hb_set_t)
  | _, none, tags => some { ret := true, error := none, state := tags }
  | 0, some _, _ => none
  | fuel + 1, some (s, saved), tags =>
    if s.length > 4 then
      some { ret := false, error := some (.table_tag_at s), state := tags }
    else
      let tag := hb_tag_from_string s
      if last_name_char ≠ some '-' then
        parse_tags_loop last_name_char fuel (strtok saved ", ".toList) (hb_set_add tags tag)
      else
        parse_tags_loop last_name_char fuel (strtok saved ", ".toList) (hb_set_del tags tag)

/-- Store a layout-feature set into the state. -/
def put_layout_features (m : subset_main_t) (s : hb_set_t) : subset_main_t :=
  { m with input := { m.input with layout_features := s } }

/-- Store a drop-table set into the state. -/
def put_drop_tables (m : subset_main_t) (s : hb_set_t) : subset_main_t :=
  { m with input := { m.input with drop_tables := s } }

/-- Complement of a 32-bit unsigned word, the operator `~`. -/
def not32 (x : Nat) : Nat := 0xFFFFFFFF ^^^ (x % 2 ^ 32)

/-- The callback `parse_layout_features` (lines 388-437).  The constant
`HB_SUBSET_FLAGS_RETAIN_ALL_FEATURES` is declared in the library header, not
in this file: it is the parameter `RETAIN_ALL_FEATURES`. -/
def parse_layout_features (RETAIN_ALL_FEATURES : Nat) (name arg : CStr) (m : subset_main_t) :
    Option Outcome :=
  let last_name_char := name.getLast?
  let layout_features :=
    if last_name_char ≠ some '+' ∧ last_name_char ≠ some '-' then
      hb_set_clear m.input.layout_features
    else m.input.layout_features
  if arg = "*".toList then
    if last_name_char = some '-' then
      some { ret := true, error := none,
             state := { m with input := { m.input with
                          layout_features := hb_set_clear layout_features,
                          flags := m.input.flags &&& not32 RETAIN_ALL_FEATURES } } }
    else
      some { ret := true, error := none,
             state := { m with input := { m.input with
                          layout_features := layout_features,
                          flags := m.input.flags ||| RETAIN_ALL_FEATURES } } }
  else
    (parse_tags_loop last_name_char (arg.length + 1) (strtok arg ", ".toList)
      layout_features).map (Ret.lift (put_layout_features m))

/-- The callback `parse_drop_tables` (lines 439-474). -/
def parse_drop_tables (name arg : CStr) (m : subset_main_t) : Option Outcome :=
  let last_name_char := name.getLast?
  let drop_tables :=
    if last_name_char ≠ some '+' ∧ last_name_char ≠ some '-' then
      hb_set_clear m.input.drop_tables
    else m.input.drop_tables
  (parse_tags_loop last_name_char (arg.length + 1) (strtok arg ", ".toList)
    drop_tables).map (Ret.lift (put_drop_tables m))

/-! ## The texts the properties speak about -/

/-- A decimal digit, '0' .. '9'. -/
def is_digit (c : Char) : Prop := 48 ≤ c.toNat ∧ c.toNat ≤ 57

instance : DecidablePred is_digit := fun c =>
  inferInstanceAs (Decidable (48 ≤ c.toNat ∧ c.toNat ≤ 57))

/-- A decimal numeral: a non-empty string of decimal digits. -/
def numeral (ds : CStr) : Prop := ds ≠ [] ∧ ∀ c ∈ ds, is_digit c

instance : DecidablePred numeral := fun ds =>
  inferInstanceAs (Decidable (ds ≠ [] ∧ ∀ c ∈ ds, is_digit c))

/-- The number a string of decimal digits denotes. -/
def dec_value (ds : CStr) : Nat := ds.foldl (fun acc c => acc * 10 + (c.toNat - 48)) 0

/-- A run of the list delimiters ',' and ' '. -/
def delim_run (s : CStr) : Prop := ∀ c ∈ s, c = ',' ∨ c = ' '

instance : DecidablePred delim_run := fun s =>
  inferInstanceAs (Decidable (∀ c ∈ s, c = ',' ∨ c = ' '))

/-- A list written out: every item preceded by its separator. -/
def joined : List (CStr × CStr) → CStr
  | [] => []
  | (sep, text) :: rest => sep ++ text ++ joined rest

/-- Separators of a written-out list: runs of ',' and ' ', non-empty between
two items; the run before the first item may be empty. -/
def separators_ok (seps : List CStr) : Prop :=
  (∀ s ∈ seps, delim_run s) ∧ ∀ s ∈ seps.tail, s ≠ []

instance : DecidablePred separators_ok := fun seps =>
  inferInstanceAs (Decidable ((∀ s ∈ seps, delim_run s) ∧ ∀ s ∈ seps.tail, s ≠ []))

/-- What stops a decimal numeral: the end of the string or a character that
is not a decimal digit. -/
def stops_numeral (rest : CStr) : Prop := ∀ c ∈ rest.head?, digit_in 10 c = none

/-- One item of a glyph-index list: a single value or an inclusive range,
each number given by its digits. -/
inductive GidItem where
  | single (a : CStr)
  | range (b c : CStr)
deriving DecidableEq

/-- How an item is written. -/
def GidItem.text : GidItem → CStr
  | .single a => a
  | .range b c => b ++ '-' :: c

/-- A valid item: decimal numerals below `2 ^ 32`, a range in order. -/
def GidItem.valid : GidItem → Prop
  | .single a => numeral a ∧ dec_value a < 2 ^ 32
  | .range b c => numeral b ∧ numeral c ∧ dec_value c < 2 ^ 32 ∧ dec_value b ≤ dec_value c

instance : DecidablePred GidItem.valid
  | .single a => inferInstanceAs (Decidable (numeral a ∧ dec_value a < 2 ^ 32))
  | .range b c =>
    inferInstanceAs
      (Decidable (numeral b ∧ numeral c ∧ dec_value c < 2 ^ 32 ∧ dec_value b ≤ dec_value c))

/-- The set an item denotes. -/
def GidItem.denote : GidItem → Finset Nat
  | .single a => {dec_value a}
  | .range b c => Finset.Icc (dec_value b) (dec_value c)

/-- The union of the sets the items denote. -/
def denote_all : List GidItem → Finset Nat
  | [] => ∅
  | item :: rest => item.denote ∪ denote_all rest

/-- The text that follows an item: nothing, or something that starts with a
delimiter. -/
def at_delim (rest : CStr) : Prop := ∀ c ∈ rest.head?, c = ',' ∨ c = ' '

/-- The written form of a glyph-index list: separator and item, in turn. -/
def gid_parts (parts : List (CStr × GidItem)) : List (CStr × CStr) :=
  parts.map (fun p => (p.1, p.2.text))

/-- A state with every set empty, no flag set and nothing pending, to try
the callbacks on. -/
def blank_main : subset_main_t :=
  { input := { glyphs := ∅, unicodes := ∅, name_ids := ∅, name_languages := ∅,
               layout_features := ∅, drop_tables := ∅, flags := 0 },
    all_unicodes := false, glyph_names := none, font_file := none }

/-- A state with something in every set and flag bits 0 and 7 set, to try
the callbacks on. -/
def sample_main : subset_main_t :=
  { input := { glyphs := {3}, unicodes := {0x41}, name_ids := {7, 40000},
               name_languages := {0x409, 0x6000}, layout_features := {1, 2},
               drop_tables := {1, 2}, flags := 129 },
    all_unicodes := false, glyph_names := none, font_file := none }

/-- The set of the numbers of a written-out list of decimal numerals. -/
def numbers_of (parts : List (CStr × CStr)) : Finset Nat :=
  (parts.map (fun p => dec_value p.2)).toFinset

/-- What the loop of `parse_nameids` does to the set for one number. -/
def apply_id (last_name_char : Option Char) (ids : hb_set_t) (u : Nat) : hb_set_t :=
  if last_name_char ≠ some '-' then hb_set_add ids u else hb_set_del ids u

/-- Everything but the layout-feature set and the flag word is the same in
the two states. -/
def same_but_layout_features (a b : subset_main_t) : Prop :=
  a.input.glyphs = b.input.glyphs ∧ a.input.unicodes = b.input.unicodes
    ∧ a.input.name_ids = b.input.name_ids ∧ a.input.name_languages = b.input.name_languages
    ∧ a.input.drop_tables = b.input.drop_tables ∧ a.all_unicodes = b.all_unicodes
    ∧ a.glyph_names = b.glyph_names ∧ a.font_file = b.font_file

instance : DecidableRel same_but_layout_features := fun a b =>
  inferInstanceAs (Decidable
    (a.input.glyphs = b.input.glyphs ∧ a.input.unicodes = b.input.unicodes
      ∧ a.input.name_ids = b.input.name_ids ∧ a.input.name_languages = b.input.name_languages
      ∧ a.input.drop_tables = b.input.drop_tables ∧ a.all_unicodes = b.all_unicodes
      ∧ a.glyph_names = b.glyph_names ∧ a.font_file = b.font_file))

/-- The tokens of a text for a set of delimiters: the non-empty pieces that
the delimiters cut it into. -/
def tokens_with (delim s : CStr) : List CStr :=
  (s.splitOnP (strchr delim)).filter (fun t => !t.isEmpty)

/-- The comma/space-separated tokens of a value. -/
def tokens (s : CStr) : List CStr := tokens_with ", ".toList s

/-- A token that a tag can be made of: 1 to 4 bytes, no delimiter among them. -/
def tag_token (t : CStr) : Prop :=
  1 ≤ t.length ∧ t.length ≤ 4 ∧ ∀ c ∈ t, ¬ (c = ',' ∨ c = ' ')

instance : DecidablePred tag_token := fun t =>
  inferInstanceAs (Decidable (1 ≤ t.length ∧ t.length ≤ 4 ∧ ∀ c ∈ t, ¬ (c = ',' ∨ c = ' ')))

/-- A token is too long for a tag: more than 4 bytes. -/
def too_long (t : CStr) : Bool := decide (4 < t.length)

/-- The tags of a list of tokens. -/
def tags_of (ts : List CStr) : Finset Nat := (ts.map hb_tag_from_string).toFinset

/-- What the tag loop does with a list of tokens, one after the other. -/
def apply_tags (last_name_char : Option Char) : List CStr → hb_set_t → Ret hb_set_t
  | [], tags => { ret := true, error := none, state := tags }
  | t :: ts, tags =>
    if t.length > 4 then { ret := false, error := some (.table_tag_at t), state := tags }
    else if last_name_char ≠ some '-' then
      apply_tags last_name_char ts (hb_set_add tags (hb_tag_from_string t))
    else
      apply_tags last_name_char ts (hb_set_del tags (hb_tag_from_string t))

/-! ## Glyph names: `parse_glyphs` and `post_parse` -/

/-- The callback `parse_glyphs` (lines 175-191): the value is appended to the
pending buffer, after a space when the buffer exists already. -/
def parse_glyphs (_name arg : CStr) (m : subset_main_t) : Option Outcome :=
  some { ret := true, error := none,
         state := { m with glyph_names := some (match m.glyph_names with
                                                | none => arg
                                                | some names => names ++ ' ' :: arg) } }

/-- What `post_parse` needs of the loaded face: the codepoints it maps and
its glyph names.  The face is library data, not in this file. -/
structure hb_face_t where
  unicodes : hb_set_t
  glyph_from_name : CStr → Option Nat

/-- Modelled from the spec: `hb_face_collect_unicodes` is library code, not
in this file; "at finalize, union in every codepoint the loaded face actually
maps". -/
def hb_face_collect_unicodes (face : hb_face_t) (out : hb_set_t) : hb_set_t :=
  out ∪ face.unicodes

/-- The library call `hb_font_get_glyph_from_name (font, p, -1, &gid)`: the
name is the C string at `p`, which ends at the first NUL. -/
def hb_font_get_glyph_from_name (face : hb_face_t) (p : CStr) : Option Nat :=
  face.glyph_from_name (p.takeWhile (fun c => c ≠ '\x00'))

/-- Where the loop of `post_parse` stands: the error raised (if any), the
glyph-ID set, and the bytes of the buffer as the loop has left them. -/
structure names_t where
  error : Option GError
  gids : hb_set_t
  buffer : CStr

/-- The loop of `post_parse` (lines 668-692).  `s` holds the bytes from `p`
to `p_end`, `before` the bytes in front of `p`; the loop writes a NUL over
the delimiter that ends a token. -/
def post_parse_loop (face : hb_face_t) : Nat → CStr → CStr → hb_set_t → Option names_t
  | 0, _, _, _ => none
  | fuel + 1, before, s, gids =>
    if s = [] then some { error := none, gids := gids, buffer := before }
    else
      let skipped := s.takeWhile (fun c => c = ' ' ∨ c = ',')
      let p := s.dropWhile (fun c => c = ' ' ∨ c = ',')
      let token := p.takeWhile (fun c => c ≠ ' ' ∧ c ≠ ',')
      let end_ := p.dropWhile (fun c => c ≠ ' ' ∧ c ≠ ',')
      let written := if end_ = [] then [] else ['\x00']
      let before := before ++ skipped ++ token ++ written
      if token ≠ [] then
        match hb_font_get_glyph_from_name face token with
        | none =>
          some { error := some (.glyph_name_at (token.takeWhile (fun c => c ≠ '\x00'))),
                 gids := gids, buffer := before ++ end_.tail }
        | some gid => post_parse_loop face fuel before end_.tail (hb_set_add gids gid)
      else post_parse_loop face fuel before end_.tail gids

/-- What `post_parse`, a `void` function, leaves behind: the error stored
through the `GError **` (if any) and the state. -/
structure Post where
  error : Option GError
  state : subset_main_t

instance : DecidableEq Post := fun a b =>
  decidable_of_iff (a.error = b.error ∧ a.state = b.state) (by cases a; cases b; simp)

/-- The first step of `post_parse` (lines 653-658): the face-bound wildcard. -/
def expand_all_unicodes (face : hb_face_t) (m : subset_main_t) : subset_main_t :=
  if m.all_unicodes then
    { m with input := { m.input with
               unicodes := hb_face_collect_unicodes face m.input.unicodes },
             all_unicodes := false }
  else m

/-- The method `subset_main_t::post_parse` (lines 648-698) for the face of
`face_options_t`.  On a failed lookup it returns at once: the buffer stays
pending and the glyph indices added so far stay in the set. -/
def post_parse (face : hb_face_t) (m : subset_main_t) : Option Post :=
  let m := expand_all_unicodes face m
  match m.glyph_names with
  | none => some { error := none, state := m }
  | some names =>
    match post_parse_loop face (names.length + 1) [] names m.input.glyphs with
    | none => none
    | some r =>
      match r.error with
      | some e =>
        some { error := some e,
               state := { put_glyphs m r.gids with glyph_names := some r.buffer } }
      | none =>
        some { error := none, state := { put_glyphs m r.gids with glyph_names := none } }

/-- What `post_parse` does with the tokens of the buffer, one after the
other: the lookup of each, stopping at the first that fails. -/
def resolve_names (face : hb_face_t) : List CStr → hb_set_t → Option GError × hb_set_t
  | [], gids => (none, gids)
  | t :: ts, gids =>
    match hb_font_get_glyph_from_name face t with
    | none => (some (.glyph_name_at (t.takeWhile (fun c => c ≠ '\x00'))), gids)
    | some gid => resolve_names face ts (hb_set_add gids gid)

/-- The glyph indices of the tokens that the face resolves. -/
def glyphs_of (face : hb_face_t) (ts : List CStr) : Finset Nat :=
  (ts.filterMap face.glyph_from_name).toFinset

/-- Callbacks applied to a list of values, one after the other, each on the
state the one before left. -/
def apply_each (callback : CStr → subset_main_t → Option Outcome) :
    List CStr → subset_main_t → Option subset_main_t
  | [], m => some m
  | v :: vs, m =>
    match callback v m with
    | none => none
    | some r => apply_each callback vs r.state

/-- A face that knows the glyph names "a" (glyph 5) and "bb" (glyph 6) and
maps the codepoints 0x41 and 0x42, to try `post_parse` on. -/
def sample_face : hb_face_t :=
  { unicodes := {0x41, 0x42},
    glyph_from_name := fun n =>
      if n = "a".toList then some 5 else if n = "bb".toList then some 6 else none }

/-! ## Codepoint lists -/

/-- A hexadecimal digit, in either case. -/
def is_hex_digit (c : Char) : Prop :=
  (48 ≤ c.toNat ∧ c.toNat ≤ 57) ∨ (97 ≤ c.toNat ∧ c.toNat ≤ 102)
    ∨ (65 ≤ c.toNat ∧ c.toNat ≤ 70)

instance : DecidablePred is_hex_digit := fun c =>
  inferInstanceAs (Decidable ((48 ≤ c.toNat ∧ c.toNat ≤ 57) ∨ (97 ≤ c.toNat ∧ c.toNat ≤ 102)
    ∨ (65 ≤ c.toNat ∧ c.toNat ≤ 70)))

/-- The value of a hexadecimal digit. -/
def hex_digit_value (c : Char) : Nat :=
  if c.toNat ≤ 57 then c.toNat - 48 else if 97 ≤ c.toNat then c.toNat - 87 else c.toNat - 55

/-- The number a string of hexadecimal digits denotes. -/
def hex_value (ds : CStr) : Nat := ds.foldl (fun acc c => acc * 16 + hex_digit_value c) 0

/-- A hexadecimal numeral: a non-empty string of hexadecimal digits. -/
def hex_numeral (ds : CStr) : Prop := ds ≠ [] ∧ ∀ c ∈ ds, is_hex_digit c

instance : DecidablePred hex_numeral := fun ds =>
  inferInstanceAs (Decidable (ds ≠ [] ∧ ∀ c ∈ ds, is_hex_digit c))

/-- How a codepoint is written: bare hex digits, or the digits after "U+" or
after "0x". -/
inductive Written where
  | plain
  | u_plus
  | zero_x
deriving DecidableEq

/-- A codepoint as it stands in a list: the way it is written and its digits. -/
structure CodepointItem where
  written : Written
  digits : CStr
deriving DecidableEq

/-- The part of an item in front of what `strtoul` reads. -/
def CodepointItem.lead (item : CodepointItem) : CStr :=
  match item.written with
  | .u_plus => "U+".toList
  | _ => []

/-- The part of an item that `strtoul` reads. -/
def CodepointItem.number (item : CodepointItem) : CStr :=
  match item.written with
  | .zero_x => '0' :: 'x' :: item.digits
  | _ => item.digits

/-- How an item is written out. -/
def CodepointItem.text (item : CodepointItem) : CStr := item.lead ++ item.number

/-- A valid item: a hexadecimal numeral below `2 ^ 32`. -/
def CodepointItem.valid (item : CodepointItem) : Prop :=
  hex_numeral item.digits ∧ hex_value item.digits < 2 ^ 32

instance : DecidablePred CodepointItem.valid := fun item =>
  inferInstanceAs (Decidable (hex_numeral item.digits ∧ hex_value item.digits < 2 ^ 32))

/-- The written form of a codepoint list: separator and item, in turn. -/
def codepoint_parts (parts : List (CStr × CodepointItem)) : List (CStr × CStr) :=
  parts.map (fun p => (p.1, p.2.text))

/-- The set of the codepoints of a list. -/
def codepoints_of (parts : List (CStr × CodepointItem)) : Finset Nat :=
  (parts.map (fun p => hex_value p.2.digits)).toFinset

/-! ## Text: `parse_text` and `collect_rest` -/

/-- The byte at `p[i]` as an `unsigned char`; past the end of the string it
is the terminating NUL. -/
def byte_at (p : CStr) (i : Nat) : Nat :=
  match p.get? i with
  | some c => c.toNat % 256
  | none => 0

/-- The GLib macro `UTF8_COMPUTE`: mask and length of a sequence by its first
byte, `none` for length -1. -/
def UTF8_COMPUTE (c : Nat) : Option (Nat × Nat) :=
  if c < 128 then some (0x7f, 1)
  else if c &&& 0xe0 = 0xc0 then some (0x1f, 2)
  else if c &&& 0xf0 = 0xe0 then some (0x0f, 3)
  else if c &&& 0xf8 = 0xf0 then some (0x07, 4)
  else if c &&& 0xfc = 0xf8 then some (0x03, 5)
  else if c &&& 0xfe = 0xfc then some (0x01, 6)
  else none

/-- The loop of the GLib macro `UTF8_GET` from `count` on, with `todo` bytes
to go: a byte that is not a continuation byte makes the result -1. -/
def UTF8_GET (p : CStr) : Nat → Nat → Nat → Nat
  | 0, _, result => result
  | todo + 1, count, result =>
    if byte_at p count &&& 0xc0 ≠ 0x80 then 0xFFFFFFFF
    else UTF8_GET p todo (count + 1) ((result <<< 6) ||| (byte_at p count &&& 0x3f))

/-- The GLib function `g_utf8_get_char`, which decodes without validating. -/
def g_utf8_get_char (p : CStr) : Nat :=
  match UTF8_COMPUTE (byte_at p 0) with
  | none => 0xFFFFFFFF
  | some (mask, len) => UTF8_GET p (len - 1) 1 (byte_at p 0 &&& mask)

/-- The GLib function `g_utf8_find_next_char (p, nullptr)`: one byte on, then
past the continuation bytes. -/
def g_utf8_find_next_char (p : CStr) : CStr :=
  p.tail.dropWhile (fun c => c.toNat % 256 &&& 0xc0 = 0x80)

/-- The loop of `parse_text` (lines 208-214) on the Unicode set. -/
def parse_text_loop : Nat → CStr → hb_set_t → Option hb_set_t
  | 0, _, _ => none
  | fuel + 1, c, codepoints =>
    if c = [] then some codepoints
    else parse_text_loop fuel (g_utf8_find_next_char c)
      (hb_set_add codepoints (to_codepoint (g_utf8_get_char c)))

/-- The callback `parse_text` (lines 193-216); `name` is unused. -/
def parse_text (_name arg : CStr) (m : subset_main_t) : Option Outcome :=
  if arg = "*".toList then
    some { ret := true, error := none, state := { m with all_unicodes := true } }
  else
    (parse_text_loop (arg.length + 1) arg m.input.unicodes).map
      (fun codepoints => { ret := true, error := none, state := put_unicodes m codepoints })

/-- The callback `subset_main_t::collect_rest` (lines 541-557): the first
call stores the font path, every later one is handed to `parse_text` and
returns true whatever `parse_text` returned. -/
def collect_rest (name arg : CStr) (m : subset_main_t) : Option Outcome :=
  match m.font_file with
  | none => some { ret := true, error := none, state := { m with font_file := some arg } }
  | some _ =>
    (parse_text name arg m).map (fun r => { ret := true, error := r.error, state := r.state })

/-! ## Batch files: `parse_file_for` -/

/-- A stream open for reading: the bytes not read yet and the end-of-file
indicator. -/
structure FILE where
  rest : CStr
  eof : Bool
deriving DecidableEq

/-- What `fgets` takes from the stream while the buffer has `room` for more:
the characters, up to and with a newline; what is left of the stream; and
whether the read ran into the end of the file. -/
def fgets_read : Nat → CStr → CStr × CStr × Bool
  | 0, s => ([], s, false)
  | _ + 1, [] => ([], [], true)
  | room + 1, c :: s =>
    if c = '\n' then ([c], s, false)
    else ((c :: (fgets_read room s).1), (fgets_read room s).2.1, (fgets_read room s).2.2)

/-- The C function `fgets (buf, n, fp)`: at most `n - 1` characters; `none` is
the null pointer, returned when the end of the file comes before any
character. -/
def fgets (n : Nat) (fp : FILE) : Option CStr × FILE :=
  let r := fgets_read (n - 1) fp.rest
  if r.1 = [] ∧ r.2.2 = true then (none, { rest := r.2.1, eof := true })
  else (some r.1, { rest := r.2.1, eof := fp.eof || r.2.2 })

/-- The C string that starts at a buffer: the bytes in front of the first
NUL, `strlen` of them. -/
def c_str (bytes : CStr) : CStr := bytes.takeWhile (fun c => c ≠ '\x00')

/-- The inner loop of `parse_file_for` (lines 502-512): chunks are appended to
`gs` until one ends in a newline or `fgets` returns null. -/
def read_line (BUFSIZ : Nat) : Nat → FILE → CStr → Option (CStr × FILE)
  | 0, _, _ => none
  | fuel + 1, fp, gs =>
    match fgets BUFSIZ fp with
    | (none, fp) => some (gs, fp)
    | (some buf, fp) =>
      let bytes := c_str buf
      if bytes.getLast? = some '\n' then some (gs ++ bytes.dropLast, fp)
      else read_line BUFSIZ fuel fp (gs ++ bytes)

/-- The loop of `parse_file_for` (lines 498-534).  Reads do not fail in this
model, so the `ferror` branch is never taken.  The value returned by the line
parser is not looked at; the loop is left when the parser has stored an error
or the end of the file has been seen, and the function then returns true. -/
def parse_file_loop {σ : Type} (parse_line : CStr → CStr → σ → Option (Ret σ))
    (allow_comments : Bool) (BUFSIZ : Nat) (name : CStr) : Nat → FILE → σ → Option (Ret σ)
  | 0, _, _ => none
  | fuel + 1, fp, data =>
    match read_line BUFSIZ (fp.rest.length + 1) fp [] with
    | none => none
    | some (gs, fp) =>
      let str := c_str gs
      let str := if allow_comments then str.takeWhile (fun c => c ≠ '#') else str
      match parse_line name str data with
      | none => none
      | some r =>
        if r.error.isSome then some { ret := true, error := r.error, state := r.state }
        else if fp.eof then some { ret := true, error := none, state := r.state }
        else parse_file_loop parse_line allow_comments BUFSIZ name fuel fp r.state

/-- The callback template `parse_file_for` (lines 476-539); its template
argument, the line parser, is `parse_line` here.  `fopen` gives the content
of the file of a name, `none` when it cannot be opened; `stdin` is what
standard input holds; `BUFSIZ` is the macro of `stdio.h`. -/
def parse_file_for {σ : Type} (parse_line : CStr → CStr → σ → Option (Ret σ))
    (allow_comments : Bool) (BUFSIZ : Nat) (fopen : CStr → Option CStr) (stdin : CStr)
    (name arg : CStr) (data : σ) : Option (Ret σ) :=
  match (if arg ≠ "-".toList then fopen arg else some stdin) with
  | none => some { ret := false, error := some (.file_open arg), state := data }
  | some content =>
    parse_file_loop parse_line allow_comments BUFSIZ name (content.length + 1)
      { rest := content, eof := false } data

/-- The lines of a file content: the pieces between the newlines. -/
def file_lines (content : CStr) : List CStr := content.splitOnP (fun c => c == '\n')

/-- A line without its comment: what stands in front of the first '#'. -/
def strip_comment (line : CStr) : CStr := line.takeWhile (fun c => c ≠ '#')

/-- A line parser applied to lines in turn, each on the state the one before
left, until one stores an error; the whole returns true. -/
def run_lines {σ : Type} (parse_line : CStr → σ → Option (Ret σ)) :
    List CStr → σ → Option (Ret σ)
  | [], data => some { ret := true, error := none, state := data }
  | line :: lines, data =>
    match parse_line line data with
    | none => none
    | some r =>
      if r.error.isSome then some { ret := true, error := r.error, state := r.state }
      else run_lines parse_line lines r.state

/-- A line parser that only records the line it is handed. -/
def record_line (_name arg : CStr) (log : List CStr) : Option (Ret (List CStr)) :=
  some { ret := true, error := none, state := log ++ [arg] }

/-- What of a line the line parser is handed: the line without its comment
when comments are allowed, the whole line otherwise. -/
def handed (allow_comments : Bool) (line : CStr) : CStr :=
  if allow_comments then strip_comment line else line

/-- A text is a valid glyph-index list that denotes the set `V`. -/
def denotes_gids (s : CStr) (V : Finset Nat) : Prop :=
  ∃ (parts : List (CStr × GidItem)) (trail : CStr),
    s = joined (gid_parts parts) ++ trail ∧ separators_ok (parts.map Prod.fst)
      ∧ delim_run trail ∧ (∀ p ∈ parts, p.2.valid) ∧ V = denote_all (parts.map Prod.snd)

/-- A text is a valid glyph-index list. -/
def is_gid_list (s : CStr) : Prop := ∃ V, denotes_gids s V

/-- The file of the example: two lists and a comment line. -/
def sample_gids_file : CStr := "10,20\n# comment\n30-31\n".toList

/-! ## UTF-8 text -/

/-- The UTF-8 encoding of one Unicode scalar value: one to four bytes. -/
def utf8_encode_char (c : Char) : CStr :=
  if c.toNat < 0x80 then [c]
  else if c.toNat < 0x800 then
    [Char.ofNat (0xC0 + c.toNat / 64), Char.ofNat (0x80 + c.toNat % 64)]
  else if c.toNat < 0x10000 then
    [Char.ofNat (0xE0 + c.toNat / 4096), Char.ofNat (0x80 + c.toNat / 64 % 64),
      Char.ofNat (0x80 + c.toNat % 64)]
  else
    [Char.ofNat (0xF0 + c.toNat / 262144), Char.ofNat (0x80 + c.toNat / 4096 % 64),
      Char.ofNat (0x80 + c.toNat / 64 % 64), Char.ofNat (0x80 + c.toNat % 64)]

/-- The UTF-8 encoding of a text, a sequence of Unicode scalar values. -/
def utf8_encode (text : List Char) : CStr := text.flatMap utf8_encode_char

/-- The set of the Unicode scalar values of a text. -/
def scalars (text : List Char) : Finset Nat := (text.map Char.toNat).toFinset

/-- A text of two lines with a character of two bytes, a '#' and a "*". -/
def sample_text : List Char := "é#b\n*c".toList

/-! ## Glyph indices beyond 32 bits -/

/-- An item whose numbers fit a 64-bit `unsigned long`: decimal numerals below
`2 ^ 64`, and for a range the end not below the start once both are reduced
modulo `2 ^ 32`. -/
def GidItem.fits : GidItem → Prop
  | .single a => numeral a ∧ dec_value a < 2 ^ 64
  | .range b c => numeral b ∧ numeral c ∧ dec_value b < 2 ^ 64 ∧ dec_value c < 2 ^ 64
      ∧ dec_value b % 2 ^ 32 ≤ dec_value c % 2 ^ 32

instance : DecidablePred GidItem.fits
  | .single a => inferInstanceAs (Decidable (numeral a ∧ dec_value a < 2 ^ 64))
  | .range b c =>
    inferInstanceAs
      (Decidable (numeral b ∧ numeral c ∧ dec_value b < 2 ^ 64 ∧ dec_value c < 2 ^ 64
        ∧ dec_value b % 2 ^ 32 ≤ dec_value c % 2 ^ 32))

/-- The set of an item with every number reduced modulo `2 ^ 32`. -/
def GidItem.wrapped : GidItem → Finset Nat
  | .single a => {dec_value a % 2 ^ 32}
  | .range b c => Finset.Icc (dec_value b % 2 ^ 32) (dec_value c % 2 ^ 32)

/-- The union of the reduced sets of the items. -/
def wrapped_all : List GidItem → Finset Nat
  | [] => ∅
  | item :: rest => item.wrapped ∪ wrapped_all rest

/-! ## Characters and `strtoul` -/

theorem digit_in_ten {c : Char} (h : is_digit c) : digit_in 10 c = some (c.toNat - 48) := by
  obtain ⟨h1, h2⟩ := h
  have : c.toNat - 48 < 10 := by omega
  simp [digit_in, digit_value, h1, h2, this]

theorem digit_ne {c d : Char} (h : is_digit c) (hd : ¬ is_digit d) : c ≠ d := by
  rintro rfl
  exact hd h

theorem digit_not_space {c : Char} (h : is_digit c) : isspace c = false := by
  have h1 := digit_ne h (d := ' ') (by decide)
  have h2 := digit_ne h (d := '\t') (by decide)
  have h3 := digit_ne h (d := '\n') (by decide)
  have h4 := digit_ne h (d := '\x0b') (by decide)
  have h5 := digit_ne h (d := '\x0c') (by decide)
  have h6 := digit_ne h (d := '\r') (by decide)
  simp [isspace, h1, h2, h3, h4, h5, h6]

theorem strtoul_radix_ten (s : CStr) : strtoul_radix 10 s = s := by
  unfold strtoul_radix
  split <;> simp

theorem strtoul_digits_append (ds rest : CStr) (acc : Nat) (hds : ∀ c ∈ ds, is_digit c)
    (hrest : stops_numeral rest) :
    strtoul_digits 10 (ds ++ rest) acc
      = (ds.foldl (fun acc c => acc * 10 + (c.toNat - 48)) acc, rest) := by
  induction ds generalizing acc with
  | nil =>
    cases rest with
    | nil => simp [strtoul_digits]
    | cons c cs =>
      have := hrest c (by simp)
      simp [strtoul_digits, this]
  | cons d ds ih =>
    have hd := digit_in_ten (hds d (by simp))
    simp only [List.cons_append, strtoul_digits, hd, List.foldl_cons]
    exact ih _ (fun c hc => hds c (by simp [hc]))

theorem strtoul_numeral (ds rest : CStr) (hds : numeral ds) (hv : dec_value ds ≤ ULONG_MAX)
    (hrest : stops_numeral rest) :
    strtoul (ds ++ rest) 10 = { value := dec_value ds, endptr := rest, erange := false } := by
  obtain ⟨hne, hall⟩ := hds
  cases ds with
  | nil => exact absurd rfl hne
  | cons d ds =>
    have hd := hall d (by simp)
    have hsp := digit_not_space hd
    have hm := digit_ne hd (d := '-') (by decide)
    have hp := digit_ne hd (d := '+') (by decide)
    have hdig := digit_in_ten hd
    have hrun := strtoul_digits_append (d :: ds) rest 0 hall hrest
    have hv2 : ¬ ((d :: ds).foldl (fun acc c => acc * 10 + (c.toNat - 48)) 0 > ULONG_MAX) := by
      simpa [dec_value] using hv
    simp only [List.cons_append] at hrun
    simp [strtoul, List.dropWhile, hsp, strtoul_sign, hm, hp, strtoul_radix_ten, hdig, hrun,
      dec_value]
    simpa [dec_value] using hv

theorem strchr_delim (c : Char) : strchr ", ".toList c = true ↔ (c = ',' ∨ c = ' ') := by
  have : ", ".toList = [',', ' '] := rfl
  simp [strchr, this]

theorem delim_not_digit {c : Char} (h : c = ',' ∨ c = ' ') : digit_in 10 c = none := by
  rcases h with rfl | rfl <;> decide

theorem at_delim_stops {rest : CStr} (h : at_delim rest) : stops_numeral rest :=
  fun c hc => delim_not_digit (h c hc)

theorem at_delim_not_minus {rest : CStr} (h : at_delim rest) : rest.head? ≠ some '-' := by
  intro hm
  have := h _ hm
  revert this
  decide

theorem digit_not_delim {c : Char} (h : is_digit c) : strchr ", ".toList c = false := by
  have h1 := digit_ne h (d := ',') (by decide)
  have h2 := digit_ne h (d := ' ') (by decide)
  have := strchr_delim c
  simp [h1, h2] at this
  simpa using this

theorem dropWhile_delim_run (sep rest : CStr) (hsep : delim_run sep)
    (hrest : ∀ c ∈ rest.head?, strchr ", ".toList c = false) :
    (sep ++ rest).dropWhile (strchr ", ".toList) = rest := by
  induction sep with
  | nil =>
    cases rest with
    | nil => rfl
    | cons c cs =>
      have h := hrest c (by simp)
      simp only [List.nil_append, List.dropWhile, h]
  | cons d ds ih =>
    have hd : strchr ", ".toList d = true := (strchr_delim d).2 (hsep d (by simp))
    simp only [List.cons_append, List.dropWhile, hd]
    exact ih (fun c hc => hsep c (by simp [hc]))

theorem numeral_head {ds : CStr} (h : numeral ds) : ∃ d t, ds = d :: t ∧ is_digit d := by
  obtain ⟨hne, hall⟩ := h
  cases ds with
  | nil => exact absurd rfl hne
  | cons d t => exact ⟨d, t, rfl, hall d (by simp)⟩

theorem numeral_head_not_minus {ds : CStr} (h : numeral ds) : ds.head? ≠ some '-' := by
  obtain ⟨d, t, rfl, hd⟩ := numeral_head h
  simp only [List.head?_cons, ne_eq, Option.some.injEq]
  exact digit_ne hd (by decide)

theorem GidItem.text_head {item : GidItem} (h : item.valid) :
    ∃ d t, item.text = d :: t ∧ is_digit d := by
  cases item with
  | single a =>
    exact numeral_head h.1
  | range b c =>
    obtain ⟨d, t, rfl, hd⟩ := numeral_head h.1
    exact ⟨d, t ++ '-' :: c, by simp [GidItem.text], hd⟩

theorem to_codepoint_small {v : Nat} (h : v < 2 ^ 32) : to_codepoint v = v :=
  Nat.mod_eq_of_lt h

theorem le_ulong {v : Nat} (h : v < 2 ^ 32) : v ≤ ULONG_MAX := by
  unfold ULONG_MAX
  omega

/-- One turn of the `parse_gids` loop over a valid item. -/
theorem parse_gids_loop_item (fuel : Nat) (sep rest : CStr) (item : GidItem) (gids : hb_set_t)
    (hsep : delim_run sep) (hitem : item.valid) (hrest : at_delim rest) :
    parse_gids_loop (fuel + 1) (sep ++ (item.text ++ rest)) gids
      = parse_gids_loop fuel rest (gids ∪ item.denote) := by
  obtain ⟨d, t, htext, hd⟩ := GidItem.text_head hitem
  have hskip : (sep ++ (item.text ++ rest)).dropWhile (strchr ", ".toList) = item.text ++ rest :=
    dropWhile_delim_run sep _ hsep (by
      intro c hc
      simp [htext] at hc
      subst hc
      exact digit_not_delim hd)
  have hne : sep ++ (item.text ++ rest) ≠ [] := by simp [htext]
  have hne2 : item.text ++ rest ≠ [] := by simp [htext]
  have hhead : (item.text ++ rest).head? ≠ some '-' := by
    simp only [htext, List.cons_append, List.head?_cons, ne_eq, Option.some.injEq]
    exact digit_ne hd (by decide)
  rw [parse_gids_loop]
  simp only [hne, hskip, hne2, if_false]
  cases item with
  | single a =>
    obtain ⟨ha, hv⟩ := hitem
    have hs := strtoul_numeral a rest ha (le_ulong hv) (at_delim_stops hrest)
    simp only [GidItem.text] at hs hhead ⊢
    have hlen : ¬ (a ++ rest).length = rest.length := by
      have : a.length ≠ 0 := by simpa using ha.1
      simp [this]
    have hden : gids ∪ {dec_value a} = insert (dec_value a) gids := by
      rw [Finset.union_comm]
      rfl
    simp [hs, numeral_head_not_minus ha, ha.1, at_delim_not_minus hrest, to_codepoint_small hv,
      hb_set_add, GidItem.denote, hden]
  | range b c =>
    obtain ⟨hb, hc, hvc, hle⟩ := hitem
    have hvb : dec_value b < 2 ^ 32 := lt_of_le_of_lt hle hvc
    have hstop : stops_numeral ('-' :: (c ++ rest)) := fun x hx => by
      simp at hx
      subst hx
      decide
    have hs1 := strtoul_numeral b ('-' :: (c ++ rest)) hb (le_ulong hvb) hstop
    have hs2 := strtoul_numeral c rest hc (le_ulong hvc) (at_delim_stops hrest)
    have htext2 : (GidItem.range b c).text ++ rest = b ++ '-' :: (c ++ rest) := by
      simp [GidItem.text]
    rw [htext2] at hhead ⊢
    obtain ⟨d2, t2, hc2, hd2⟩ := numeral_head hc
    have hhead2 : (c ++ rest).head? ≠ some '-' := by
      simp only [hc2, List.cons_append, List.head?_cons, ne_eq, Option.some.injEq]
      exact digit_ne hd2 (by decide)
    have hlen1 : ¬ (b ++ '-' :: (c ++ rest)).length = ('-' :: (c ++ rest)).length := by
      have : b.length ≠ 0 := by simpa using hb.1
      simp [this]
    have hlen2 : ¬ (c ++ rest).length = rest.length := by
      have : c.length ≠ 0 := by simpa using hc.1
      simp [this]
    simp [hs1, hs2, numeral_head_not_minus hb, numeral_head_not_minus hc, hb.1, hc.1,
      to_codepoint_small hvb, to_codepoint_small hvc, Nat.not_lt.2 hle, hb_set_add_range,
      GidItem.denote]

theorem not_digit_stops {rest : CStr} (h : ∀ c ∈ rest.head?, ¬ is_digit c) :
    stops_numeral rest := by
  intro c hc
  have hnd := h c hc
  unfold is_digit at hnd
  unfold digit_in digit_value
  simp only [if_neg hnd]
  by_cases h2 : 97 ≤ c.toNat ∧ c.toNat ≤ 122
  · have : ¬ (c.toNat - 87 < 10) := by omega
    simp [h2, this]
  · by_cases h3 : 65 ≤ c.toNat ∧ c.toNat ≤ 90
    · have : ¬ (c.toNat - 55 < 10) := by omega
      simp [h2, h3, this]
    · simp [h2, h3]

theorem joined_at_delim (parts : List (CStr × CStr)) (tail : CStr)
    (hrun : ∀ p ∈ parts, delim_run p.1) (hne : ∀ p ∈ parts, p.1 ≠ []) (htail : at_delim tail) :
    at_delim (joined parts ++ tail) := by
  cases parts with
  | nil => simpa [joined] using htail
  | cons p ps =>
    obtain ⟨sep, text⟩ := p
    have h1 : sep ≠ [] := hne (sep, text) (by simp)
    have h2 : delim_run sep := hrun (sep, text) (by simp)
    cases sep with
    | nil => exact absurd rfl h1
    | cons d ds =>
      intro c hc
      simp only [joined, List.cons_append, List.head?_cons, Option.mem_def,
        Option.some.injEq] at hc
      subst hc
      exact h2 _ (by simp)

theorem delim_run_at_delim {s : CStr} (h : delim_run s) : at_delim s := by
  intro c hc
  cases s with
  | nil => simp at hc
  | cons d ds =>
    simp only [List.head?_cons, Option.mem_def, Option.some.injEq] at hc
    subst hc
    exact h _ (by simp)

/-- The `parse_gids` loop over a run of valid items. -/
theorem parse_gids_loop_items (parts : List (CStr × GidItem)) (fuel : Nat) (tail : CStr)
    (gids : hb_set_t) (hsep : separators_ok (parts.map Prod.fst))
    (hvalid : ∀ p ∈ parts, p.2.valid) (htail : at_delim tail) :
    parse_gids_loop (parts.length + fuel) (joined (gid_parts parts) ++ tail) gids
      = parse_gids_loop fuel tail (gids ∪ denote_all (parts.map Prod.snd)) := by
  induction parts generalizing gids with
  | nil => simp [gid_parts, joined, denote_all]
  | cons p ps ih =>
    obtain ⟨sep, item⟩ := p
    obtain ⟨hrun, hne⟩ := hsep
    have hrun_ps : ∀ q ∈ gid_parts ps, delim_run q.1 := by
      intro q hq
      simp only [gid_parts, List.mem_map] at hq
      obtain ⟨q0, hq0, rfl⟩ := hq
      exact hrun q0.1 (by simp only [List.map_cons, List.mem_cons, List.mem_map]; right; exact ⟨q0, hq0, rfl⟩)
    have hne_ps : ∀ q ∈ gid_parts ps, q.1 ≠ [] := by
      intro q hq
      simp only [gid_parts, List.mem_map] at hq
      obtain ⟨q0, hq0, rfl⟩ := hq
      exact hne q0.1 (by simp only [List.map_cons, List.tail_cons, List.mem_map]; exact ⟨q0, hq0, rfl⟩)
    have hrest : at_delim (joined (gid_parts ps) ++ tail) :=
      joined_at_delim _ _ hrun_ps hne_ps htail
    have hsep_ps : separators_ok (ps.map Prod.fst) := by
      refine ⟨fun s hs => hrun s (by simp only [List.map_cons, List.mem_cons]; right; exact hs),
        fun s hs => hne s ?_⟩
      simp only [List.map_cons, List.tail_cons]
      cases ps with
      | nil => simp at hs
      | cons q qs =>
        simp only [List.map_cons, List.tail_cons] at hs
        simp [hs]
    have htext : joined (gid_parts ((sep, item) :: ps)) ++ tail
        = sep ++ (item.text ++ (joined (gid_parts ps) ++ tail)) := by
      simp [gid_parts, joined]
    have hfuel : ((sep, item) :: ps).length + fuel = (ps.length + fuel) + 1 := by
      simp only [List.length_cons]
      omega
    rw [htext, hfuel,
      parse_gids_loop_item _ sep _ item gids (hrun sep (List.mem_cons_self _ _))
        (hvalid (sep, item) (List.mem_cons_self _ _)) hrest,
      ih _ hsep_ps (fun q hq => hvalid q (List.mem_cons_of_mem _ hq))]
    simp [denote_all, Finset.union_assoc]

/-- The `parse_gids` loop stops cleanly on a run of delimiters. -/
theorem parse_gids_loop_trail (fuel : Nat) (trail : CStr) (gids : hb_set_t)
    (htrail : delim_run trail) :
    parse_gids_loop (fuel + 1) trail gids = some { ret := true, error := none, state := gids } := by
  have h : trail.dropWhile (strchr ", ".toList) = [] := by
    have := dropWhile_delim_run trail [] htrail (by simp)
    simpa using this
  rw [parse_gids_loop]
  by_cases ht : trail = []
  · simp only [ht, if_true]
  · simp only [ht, h, if_false, if_true]

theorem joined_length (parts : List (CStr × GidItem)) (hvalid : ∀ p ∈ parts, p.2.valid) :
    parts.length ≤ (joined (gid_parts parts)).length := by
  induction parts with
  | nil => simp
  | cons p ps ih =>
    obtain ⟨sep, item⟩ := p
    obtain ⟨d, t, htext, -⟩ := GidItem.text_head (hvalid (sep, item) (List.mem_cons_self _ _))
    have := ih (fun q hq => hvalid q (List.mem_cons_of_mem _ hq))
    simp only [gid_parts, List.map_cons, joined, List.length_append, htext,
      List.length_cons] at this ⊢
    omega

/-- The callback `parse_gids` on a well-formed list: it succeeds and adds
the union of the items to whatever the set held. -/
theorem parse_gids_joined (name : CStr) (parts : List (CStr × GidItem)) (trail : CStr)
    (m : subset_main_t) (hsep : separators_ok (parts.map Prod.fst)) (htrail : delim_run trail)
    (hvalid : ∀ p ∈ parts, p.2.valid) :
    parse_gids name (joined (gid_parts parts) ++ trail) m
      = some { ret := true, error := none,
               state := put_glyphs m (m.input.glyphs ∪ denote_all (parts.map Prod.snd)) } := by
  have hlen := joined_length parts hvalid
  obtain ⟨k, hk⟩ : ∃ k, (joined (gid_parts parts) ++ trail).length + 1 = parts.length + (k + 1) :=
    ⟨(joined (gid_parts parts) ++ trail).length - parts.length, by
      simp only [List.length_append]
      omega⟩
  unfold parse_gids
  rw [hk, parse_gids_loop_items parts (k + 1) trail _ hsep hvalid (delim_run_at_delim htrail),
    parse_gids_loop_trail k trail _ htrail]
  rfl


/-- The `parse_gids` loop on a token that starts with '-'. -/
theorem parse_gids_loop_minus (fuel : Nat) (sep rest : CStr) (gids : hb_set_t)
    (hsep : delim_run sep) :
    parse_gids_loop (fuel + 1) (sep ++ '-' :: rest) gids
      = some { ret := false, error := some (.glyph_index_at ('-' :: rest)), state := gids } := by
  have hskip : (sep ++ '-' :: rest).dropWhile (strchr ", ".toList) = '-' :: rest :=
    dropWhile_delim_run sep _ hsep (by
      intro c hc
      simp only [List.head?_cons, Option.mem_def, Option.some.injEq] at hc
      subst hc
      decide)
  have hne : sep ++ '-' :: rest ≠ [] := by simp
  rw [parse_gids_loop]
  simp only [hne, hskip, if_false]
  simp

/-- The `parse_gids` loop on a range whose end precedes its start. -/
theorem parse_gids_loop_bad_range (fuel : Nat) (sep b c suffix : CStr) (gids : hb_set_t)
    (hsep : delim_run sep) (hb : numeral b) (hc : numeral c)
    (hlt : dec_value c < dec_value b) (hvb : dec_value b < 2 ^ 32)
    (hsuffix : ∀ x ∈ suffix.head?, ¬ is_digit x) :
    parse_gids_loop (fuel + 1) (sep ++ (b ++ '-' :: (c ++ suffix))) gids
      = some { ret := false, error := some (.invalid_gid_range (dec_value b) (dec_value c)),
               state := gids } := by
  obtain ⟨d, t, hbt, hd⟩ := numeral_head hb
  have hvc : dec_value c < 2 ^ 32 := lt_trans hlt hvb
  have hskip : (sep ++ (b ++ '-' :: (c ++ suffix))).dropWhile (strchr ", ".toList)
      = b ++ '-' :: (c ++ suffix) :=
    dropWhile_delim_run sep _ hsep (by
      intro x hx
      simp only [hbt, List.cons_append, List.head?_cons, Option.mem_def,
        Option.some.injEq] at hx
      subst hx
      exact digit_not_delim hd)
  have hne : sep ++ (b ++ '-' :: (c ++ suffix)) ≠ [] := by simp
  have hne2 : b ++ '-' :: (c ++ suffix) ≠ [] := by simp
  have hstop : stops_numeral ('-' :: (c ++ suffix)) := fun x hx => by
    simp only [List.head?_cons, Option.mem_def, Option.some.injEq] at hx
    subst hx
    decide
  have hs1 := strtoul_numeral b ('-' :: (c ++ suffix)) hb (le_ulong hvb) hstop
  have hs2 := strtoul_numeral c suffix hc (le_ulong hvc) (not_digit_stops hsuffix)
  rw [parse_gids_loop]
  simp only [hne, hskip, hne2, if_false]
  simp [hs1, hs2, numeral_head_not_minus hb, numeral_head_not_minus hc, hb.1, hc.1,
    to_codepoint_small hvb, to_codepoint_small hvc, hlt]

/-- The text after the valid items of a list that goes wrong: a separator,
needed when items precede it, and then anything. -/
theorem at_delim_after (parts : List (CStr × GidItem)) (sep rest : CStr)
    (hsep : delim_run sep) (hne : parts = [] ∨ sep ≠ []) (hparts : parts ≠ []) :
    at_delim (sep ++ rest) := by
  rcases hne with h | h
  · exact absurd h hparts
  · cases sep with
    | nil => exact absurd rfl h
    | cons d ds =>
      intro c hc
      simp only [List.cons_append, List.head?_cons, Option.mem_def, Option.some.injEq] at hc
      subst hc
      exact hsep _ (by simp)

/-- The `parse_gids` loop over valid items followed by any text that is set
off by a separator: the items are applied and the loop goes on at that text. -/
theorem parse_gids_loop_leading_items (parts : List (CStr × GidItem)) (fuel : Nat) (sep rest : CStr)
    (gids : hb_set_t) (hseps : separators_ok (parts.map Prod.fst))
    (hvalid : ∀ p ∈ parts, p.2.valid) (hsep : delim_run sep) (hne : parts = [] ∨ sep ≠ []) :
    parse_gids_loop (parts.length + fuel) (joined (gid_parts parts) ++ (sep ++ rest)) gids
      = parse_gids_loop fuel (sep ++ rest) (gids ∪ denote_all (parts.map Prod.snd)) := by
  by_cases hparts : parts = []
  · subst hparts
    simp [gid_parts, joined, denote_all]
  · exact parse_gids_loop_items parts fuel _ gids hseps hvalid
      (at_delim_after parts sep rest hsep hne hparts)

theorem fuel_split (parts : List (CStr × GidItem)) (tail : CStr)
    (hvalid : ∀ p ∈ parts, p.2.valid) :
    ∃ k, (joined (gid_parts parts) ++ tail).length + 1 = parts.length + (k + 1) :=
  ⟨(joined (gid_parts parts) ++ tail).length - parts.length, by
    have := joined_length parts hvalid
    simp only [List.length_append]
    omega⟩

/-! ## The glyph-ID directive -/

theorem mem_denote_all (items : List GidItem) (g : Nat) :
    g ∈ denote_all items ↔ ∃ item ∈ items, g ∈ item.denote := by
  induction items with
  | nil => simp [denote_all]
  | cons x xs ih =>
    simp only [denote_all, Finset.mem_union, ih, List.mem_cons, exists_eq_or_imp]

/-- C1: glyph-ID list parsing equals the mathematical union.  For every list
of items, each a single value or an inclusive range in order, all numbers
decimal numerals below `2 ^ 32`, written out with any non-empty runs of ','
and ' ' between the items and optional runs before and after, `parse_gids`
on an empty glyph-ID set succeeds, and the glyph-ID set of the state it
returns is exactly the union of the sets the items denote: a glyph index is
in it if and only if some item denotes it.  No other field of the state
changes, and any other choice of separators gives the same result. -/
theorem parse_gids_union (name : CStr) (parts : List (CStr × GidItem)) (trail : CStr)
    (m : subset_main_t) (hsep : separators_ok (parts.map Prod.fst)) (htrail : delim_run trail)
    (hvalid : ∀ p ∈ parts, p.2.valid) (hempty : m.input.glyphs = ∅) :
    (∃ r, parse_gids name (joined (gid_parts parts) ++ trail) m = some r
        ∧ r.ret = true ∧ r.error = none
        ∧ r.state.input.glyphs = denote_all (parts.map Prod.snd)
        ∧ (∀ g, g ∈ r.state.input.glyphs ↔ ∃ p ∈ parts, g ∈ p.2.denote)
        ∧ r.state = { m with input := { m.input with glyphs := r.state.input.glyphs } })
      ∧ ∀ (parts2 : List (CStr × GidItem)) (trail2 : CStr),
          separators_ok (parts2.map Prod.fst) → delim_run trail2 →
          parts2.map Prod.snd = parts.map Prod.snd →
          parse_gids name (joined (gid_parts parts2) ++ trail2) m
            = parse_gids name (joined (gid_parts parts) ++ trail) m := by
  have key : ∀ (ps : List (CStr × GidItem)) (tr : CStr), separators_ok (ps.map Prod.fst) →
      delim_run tr → ps.map Prod.snd = parts.map Prod.snd →
      parse_gids name (joined (gid_parts ps) ++ tr) m
        = some { ret := true, error := none,
                 state := put_glyphs m (denote_all (parts.map Prod.snd)) } := by
    intro ps tr h1 h2 h3
    have hv : ∀ p ∈ ps, p.2.valid := by
      intro p hp
      have hmem : p.2 ∈ parts.map Prod.snd := h3 ▸ List.mem_map_of_mem Prod.snd hp
      obtain ⟨q, hq, hqp⟩ := List.mem_map.1 hmem
      exact hqp ▸ hvalid q hq
    rw [parse_gids_joined name ps tr m h1 h2 hv, hempty, h3]
    simp
  refine ⟨⟨_, key parts trail hsep htrail rfl, rfl, rfl, rfl, fun g => ?_, rfl⟩,
    fun parts2 trail2 h1 h2 h3 => ?_⟩
  · show g ∈ denote_all (parts.map Prod.snd) ↔ _
    rw [mem_denote_all]
    constructor
    · rintro ⟨item, hitem, hg⟩
      obtain ⟨p, hp, rfl⟩ := List.mem_map.1 hitem
      exact ⟨p, hp, hg⟩
    · rintro ⟨p, hp, hg⟩
      exact ⟨p.2, List.mem_map_of_mem Prod.snd hp, hg⟩
  · rw [key parts2 trail2 h1 h2 h3, key parts trail hsep htrail rfl]

/-- Witness of C1: the value "10, 20-22,,5 " on the blank state leaves the
glyph-ID set 5, 10, 20, 21, 22, and so do the same items written
"10 20-22 5". -/
theorem parse_gids_union_witness :
    separators_ok ([("".toList, GidItem.single "10".toList),
        (", ".toList, GidItem.range "20".toList "22".toList),
        (",,".toList, GidItem.single "5".toList)].map Prod.fst)
      ∧ delim_run " ".toList
      ∧ (∀ p ∈ [("".toList, GidItem.single "10".toList),
          (", ".toList, GidItem.range "20".toList "22".toList),
          (",,".toList, GidItem.single "5".toList)], p.2.valid)
      ∧ blank_main.input.glyphs = ∅
      ∧ (∃ r ∈ parse_gids "gids".toList "10, 20-22,,5 ".toList blank_main,
          r.ret = true ∧ r.error = none ∧ r.state.input.glyphs = {5, 10, 20, 21, 22}
            ∧ r.state.input.unicodes = ∅ ∧ r.state.input.name_ids = ∅)
      ∧ (∃ r ∈ parse_gids "gids".toList "10 20-22 5".toList blank_main,
          r.ret = true ∧ r.error = none ∧ r.state.input.glyphs = {5, 10, 20, 21, 22})
      ∧ (∃ r, parse_gids "gids".toList "10, 20-22,,5 ".toList blank_main = some r
          ∧ r.ret = true ∧ r.error = none
          ∧ r.state.input.glyphs = {10} ∪ (Finset.Icc 20 22 ∪ ({5} ∪ ∅))
          ∧ (∀ g, g ∈ r.state.input.glyphs ↔
              ∃ p ∈ [("".toList, GidItem.single "10".toList),
                (", ".toList, GidItem.range "20".toList "22".toList),
                (",,".toList, GidItem.single "5".toList)], g ∈ p.2.denote)
          ∧ r.state
              = { blank_main with
                  input := { blank_main.input with glyphs := r.state.input.glyphs } })
      ∧ parse_gids "gids".toList "10 20-22 5".toList blank_main
          = parse_gids "gids".toList "10, 20-22,,5 ".toList blank_main :=
  ⟨by decide, by decide, by decide, rfl, by decide, by decide,
    (parse_gids_union "gids".toList
      [("".toList, GidItem.single "10".toList),
        (", ".toList, GidItem.range "20".toList "22".toList),
        (",,".toList, GidItem.single "5".toList)]
      " ".toList blank_main (by decide) (by decide) (by decide) rfl).1,
    (parse_gids_union "gids".toList
      [("".toList, GidItem.single "10".toList),
        (", ".toList, GidItem.range "20".toList "22".toList),
        (",,".toList, GidItem.single "5".toList)]
      " ".toList blank_main (by decide) (by decide) (by decide) rfl).2
      [("".toList, GidItem.single "10".toList),
        (" ".toList, GidItem.range "20".toList "22".toList),
        (" ".toList, GidItem.single "5".toList)]
      "".toList (by decide) (by decide) rfl⟩

/-- C3, as the code has it: the glyph-ID directive never clears.  For every
prior glyph-ID set and every valid glyph-index list, `parse_gids` succeeds
and leaves the prior set united with the set the list denotes, whatever the
directive name; every prior element survives. -/
theorem parse_gids_adds_to_prior (name : CStr) (parts : List (CStr × GidItem)) (trail : CStr)
    (m : subset_main_t) (hsep : separators_ok (parts.map Prod.fst)) (htrail : delim_run trail)
    (hvalid : ∀ p ∈ parts, p.2.valid) :
    ∃ r, parse_gids name (joined (gid_parts parts) ++ trail) m = some r
      ∧ r.ret = true ∧ r.error = none
      ∧ r.state = put_glyphs m (m.input.glyphs ∪ denote_all (parts.map Prod.snd))
      ∧ ∀ g ∈ m.input.glyphs, g ∈ r.state.input.glyphs := by
  refine ⟨_, parse_gids_joined name parts trail m hsep htrail hvalid, rfl, rfl, rfl, ?_⟩
  intro g hg
  simp [put_glyphs, hg]

/-- Witness of C3 as amended: "12,45-50" on a set that holds 1. -/
theorem parse_gids_adds_to_prior_witness :
    separators_ok ([("".toList, GidItem.single "12".toList),
        (",".toList, GidItem.range "45".toList "50".toList)].map Prod.fst)
      ∧ delim_run "".toList
      ∧ (∀ p ∈ [("".toList, GidItem.single "12".toList),
          (",".toList, GidItem.range "45".toList "50".toList)], p.2.valid)
      ∧ ∃ r, parse_gids "gids".toList "12,45-50".toList (put_glyphs blank_main {1}) = some r
          ∧ r.ret = true ∧ r.error = none
          ∧ r.state = put_glyphs (put_glyphs blank_main {1})
              ((put_glyphs blank_main {1}).input.glyphs ∪ ({12} ∪ (Finset.Icc 45 50 ∪ ∅)))
          ∧ ∀ g ∈ (put_glyphs blank_main {1}).input.glyphs, g ∈ r.state.input.glyphs :=
  ⟨by decide, by decide, by decide,
    parse_gids_adds_to_prior "gids".toList
      [("".toList, GidItem.single "12".toList),
        (",".toList, GidItem.range "45".toList "50".toList)]
      "".toList (put_glyphs blank_main {1}) (by decide) (by decide) (by decide)⟩

/-- C3 as stated fails: the directive "gids" with value "2" on a glyph-ID set
that holds 1 leaves the set 1, 2 and not the set 2. -/
theorem parse_gids_keeps_prior :
    ∃ r ∈ parse_gids "gids".toList "2".toList (put_glyphs blank_main {1}),
      r.ret = true ∧ r.state.input.glyphs = {1, 2} ∧ r.state.input.glyphs ≠ {2} := by
  decide


/-- C6, as the code has it: glyph-ID parsing is fail-fast.  After a valid
glyph-index list prefix and a separator, a range whose end is below its start
(both decimal numerals, the start below `2 ^ 32`), followed by any text that
does not begin with a decimal digit, fails with the invalid-range error; a
token that begins with '-', followed by any text, fails with the
malformed-number error.  In both cases the glyph-ID set is the prior set
united with the set of the prefix: the offending item and all later text are
not applied. -/
theorem parse_gids_fail_fast (name : CStr) (parts : List (CStr × GidItem)) (sep : CStr)
    (m : subset_main_t) (hseps : separators_ok (parts.map Prod.fst))
    (hvalid : ∀ p ∈ parts, p.2.valid) (hsep : delim_run sep) (hne : parts = [] ∨ sep ≠ []) :
    (∀ b c suffix : CStr, numeral b → numeral c → dec_value c < dec_value b →
        dec_value b < 2 ^ 32 → (∀ x ∈ suffix.head?, ¬ is_digit x) →
        parse_gids name (joined (gid_parts parts) ++ (sep ++ (b ++ '-' :: (c ++ suffix)))) m
          = some { ret := false,
                   error := some (.invalid_gid_range (dec_value b) (dec_value c)),
                   state := put_glyphs m (m.input.glyphs ∪ denote_all (parts.map Prod.snd)) })
      ∧ ∀ rest : CStr,
        parse_gids name (joined (gid_parts parts) ++ (sep ++ '-' :: rest)) m
          = some { ret := false, error := some (.glyph_index_at ('-' :: rest)),
                   state := put_glyphs m (m.input.glyphs ∪ denote_all (parts.map Prod.snd)) } := by
  constructor
  · intro b c suffix hb hc hlt hvb hsuffix
    obtain ⟨k, hk⟩ := fuel_split parts (sep ++ (b ++ '-' :: (c ++ suffix))) hvalid
    unfold parse_gids
    rw [hk, parse_gids_loop_leading_items parts (k + 1) sep _ _ hseps hvalid hsep hne,
      parse_gids_loop_bad_range k sep b c suffix _ hsep hb hc hlt hvb hsuffix]
    rfl
  · intro rest
    obtain ⟨k, hk⟩ := fuel_split parts (sep ++ '-' :: rest) hvalid
    unfold parse_gids
    rw [hk, parse_gids_loop_leading_items parts (k + 1) sep _ _ hseps hvalid hsep hne,
      parse_gids_loop_minus k sep rest _ hsep]
    rfl

/-- Witness of C6 as amended: "1,50-10,7" and "1,-5 7" on a set that holds 3. -/
theorem parse_gids_fail_fast_witness :
    separators_ok ([("".toList, GidItem.single "1".toList)].map Prod.fst)
      ∧ (∀ p ∈ [("".toList, GidItem.single "1".toList)], p.2.valid)
      ∧ delim_run ",".toList
      ∧ ([("".toList, GidItem.single "1".toList)] = [] ∨ ",".toList ≠ [])
      ∧ numeral "50".toList ∧ numeral "10".toList
      ∧ dec_value "10".toList < dec_value "50".toList ∧ dec_value "50".toList < 2 ^ 32
      ∧ (∀ x ∈ ",7".toList.head?, ¬ is_digit x)
      ∧ parse_gids "gids".toList "1,50-10,7".toList (put_glyphs blank_main {3})
          = some { ret := false, error := some (.invalid_gid_range 50 10),
                   state := put_glyphs (put_glyphs blank_main {3}) ({3} ∪ ({1} ∪ ∅)) }
      ∧ parse_gids "gids".toList "1,-5 7".toList (put_glyphs blank_main {3})
          = some { ret := false, error := some (.glyph_index_at "-5 7".toList),
                   state := put_glyphs (put_glyphs blank_main {3}) ({3} ∪ ({1} ∪ ∅)) } :=
  ⟨by decide, by decide, by decide, by decide, by decide, by decide, by decide, by decide,
    by decide,
    (parse_gids_fail_fast "gids".toList [("".toList, GidItem.single "1".toList)] ",".toList
      (put_glyphs blank_main {3}) (by decide) (by decide) (by decide) (by decide)).1
      "50".toList "10".toList ",7".toList (by decide) (by decide) (by decide) (by decide)
      (by decide),
    (parse_gids_fail_fast "gids".toList [("".toList, GidItem.single "1".toList)] ",".toList
      (put_glyphs blank_main {3}) (by decide) (by decide) (by decide) (by decide)).2
      "5 7".toList⟩

/-- C6 as stated fails: the range "50-10" followed by the text "0" is the
value "50-100", which is accepted, and the range "4294967296-5", whose end is
below its start, is accepted as well, the start being reduced to 0. -/
theorem parse_gids_bad_range_accepted :
    (∃ r ∈ parse_gids "gids".toList ("50-10".toList ++ "0".toList) blank_main,
        r.ret = true ∧ r.error = none ∧ 100 ∈ r.state.input.glyphs)
      ∧ ∃ r ∈ parse_gids "gids".toList "4294967296-5".toList blank_main,
        r.ret = true ∧ r.error = none ∧ r.state.input.glyphs = {0, 1, 2, 3, 4, 5} := by
  constructor <;> decide


/-! ## The name-ID directive -/

/-- One turn of the `parse_nameids` loop over a decimal numeral. -/
theorem parse_ids_loop_item (mk_error : CStr → GError) (last : Option Char) (fuel : Nat)
    (sep ds rest : CStr) (ids : hb_set_t) (hsep : delim_run sep) (hds : numeral ds)
    (hv : dec_value ds < 2 ^ 32) (hrest : at_delim rest) :
    parse_ids_loop mk_error last (fuel + 1) (sep ++ (ds ++ rest)) ids
      = parse_ids_loop mk_error last fuel rest (apply_id last ids (dec_value ds)) := by
  obtain ⟨d, t, hdt, hd⟩ := numeral_head hds
  have hskip : (sep ++ (ds ++ rest)).dropWhile (strchr ", ".toList) = ds ++ rest :=
    dropWhile_delim_run sep _ hsep (by
      intro x hx
      simp only [hdt, List.cons_append, List.head?_cons, Option.mem_def,
        Option.some.injEq] at hx
      subst hx
      exact digit_not_delim hd)
  have hne : sep ++ (ds ++ rest) ≠ [] := by simp [hds.1]
  have hne2 : ds ++ rest ≠ [] := by simp [hds.1]
  have hs := strtoul_numeral ds rest hds (le_ulong hv) (at_delim_stops hrest)
  rw [parse_ids_loop]
  simp only [hne, hskip, hne2, if_false]
  by_cases hl : last = some '-'
  · simp [hs, hds.1, to_codepoint_small hv, apply_id, hl]
  · simp [hs, hds.1, to_codepoint_small hv, apply_id, hl]

theorem separators_ok_tail {sep : CStr} {seps : List CStr} (h : separators_ok (sep :: seps)) :
    separators_ok seps ∧ ∀ s ∈ seps, s ≠ [] := by
  obtain ⟨hrun, hne⟩ := h
  refine ⟨⟨fun s hs => hrun s (List.mem_cons_of_mem _ hs), fun s hs => hne s ?_⟩,
    fun s hs => hne s hs⟩
  cases seps with
  | nil => simp at hs
  | cons q qs => exact List.mem_cons_of_mem _ hs

/-- The `parse_nameids` loop over a run of decimal numerals. -/
theorem parse_ids_loop_items (mk_error : CStr → GError) (last : Option Char)
    (parts : List (CStr × CStr)) (fuel : Nat) (tail : CStr) (ids : hb_set_t)
    (hsep : separators_ok (parts.map Prod.fst))
    (hvalid : ∀ p ∈ parts, numeral p.2 ∧ dec_value p.2 < 2 ^ 32) (htail : at_delim tail) :
    parse_ids_loop mk_error last (parts.length + fuel) (joined parts ++ tail) ids
      = parse_ids_loop mk_error last fuel tail
          (parts.foldl (fun acc p => apply_id last acc (dec_value p.2)) ids) := by
  induction parts generalizing ids with
  | nil => simp [joined]
  | cons p ps ih =>
    obtain ⟨sep, ds⟩ := p
    obtain ⟨hsep_ps, hne_ps⟩ := separators_ok_tail hsep
    have hrest : at_delim (joined ps ++ tail) :=
      joined_at_delim _ _
        (fun q hq => hsep_ps.1 q.1 (List.mem_map_of_mem Prod.fst hq))
        (fun q hq => hne_ps q.1 (List.mem_map_of_mem Prod.fst hq)) htail
    have htext : joined ((sep, ds) :: ps) ++ tail = sep ++ (ds ++ (joined ps ++ tail)) := by
      simp [joined]
    have hfuel : ((sep, ds) :: ps).length + fuel = (ps.length + fuel) + 1 := by
      simp only [List.length_cons]
      omega
    have hp := hvalid (sep, ds) (List.mem_cons_self _ _)
    rw [htext, hfuel,
      parse_ids_loop_item mk_error last _ sep ds _ ids (hsep.1 sep (List.mem_cons_self _ _))
        hp.1 hp.2 hrest,
      ih _ hsep_ps (fun q hq => hvalid q (List.mem_cons_of_mem _ hq))]
    rfl

/-- The `parse_nameids` loop stops cleanly on a run of delimiters. -/
theorem parse_ids_loop_trail (mk_error : CStr → GError) (last : Option Char) (fuel : Nat)
    (trail : CStr) (ids : hb_set_t) (htrail : delim_run trail) :
    parse_ids_loop mk_error last (fuel + 1) trail ids
      = some { ret := true, error := none, state := ids } := by
  have h : trail.dropWhile (strchr ", ".toList) = [] := by
    have := dropWhile_delim_run trail [] htrail (by simp)
    simpa using this
  rw [parse_ids_loop]
  by_cases ht : trail = []
  · simp only [ht, if_true]
  · simp only [ht, h, if_false, if_true]

theorem foldl_add_ids (last : Option Char) (hl : last ≠ some '-') (parts : List (CStr × CStr))
    (ids : hb_set_t) :
    parts.foldl (fun acc p => apply_id last acc (dec_value p.2)) ids
      = ids ∪ numbers_of parts := by
  induction parts generalizing ids with
  | nil => simp [numbers_of]
  | cons p ps ih =>
    rw [List.foldl_cons, ih]
    ext x
    simp [apply_id, hl, hb_set_add, numbers_of, or_assoc]

theorem foldl_del_ids (parts : List (CStr × CStr)) (ids : hb_set_t) :
    parts.foldl (fun acc p => apply_id (some '-') acc (dec_value p.2)) ids
      = ids \ numbers_of parts := by
  induction parts generalizing ids with
  | nil => simp [numbers_of]
  | cons p ps ih =>
    rw [List.foldl_cons, ih]
    ext x
    simp [apply_id, hb_set_del, numbers_of]
    tauto

theorem joined_length_le (parts : List (CStr × CStr)) (h : ∀ p ∈ parts, p.2 ≠ []) :
    parts.length ≤ (joined parts).length := by
  induction parts with
  | nil => simp
  | cons p ps ih =>
    obtain ⟨sep, text⟩ := p
    have h1 : text.length ≠ 0 := by
      simpa using h (sep, text) (List.mem_cons_self _ _)
    have := ih (fun q hq => h q (List.mem_cons_of_mem _ hq))
    simp only [joined, List.length_append, List.length_cons] at this ⊢
    omega

/-- A list of decimal numerals, written out, is not the wildcard. -/
theorem joined_numerals_ne_star (parts : List (CStr × CStr)) (trail : CStr)
    (hsep : separators_ok (parts.map Prod.fst)) (htrail : delim_run trail)
    (hvalid : ∀ p ∈ parts, numeral p.2 ∧ dec_value p.2 < 2 ^ 32) :
    joined parts ++ trail ≠ "*".toList := by
  have hall : ∀ (ps : List (CStr × CStr)), (∀ p ∈ ps, delim_run p.1 ∧ numeral p.2) →
      ∀ c ∈ joined ps ++ trail, c ≠ '*' := by
    intro ps
    induction ps with
    | nil =>
      intro _ c hc
      simp only [joined, List.nil_append] at hc
      rcases htrail c hc with rfl | rfl <;> decide
    | cons p ps ih =>
      obtain ⟨sep, ds⟩ := p
      intro hps c hc
      simp only [joined, List.append_assoc, List.mem_append] at hc
      rcases hc with hc | hc | hc
      · rcases (hps (sep, ds) (List.mem_cons_self _ _)).1 c hc with rfl | rfl <;> decide
      · exact digit_ne ((hps (sep, ds) (List.mem_cons_self _ _)).2.2 c hc) (by decide)
      · exact ih (fun q hq => hps q (List.mem_cons_of_mem _ hq)) c
          (by simp only [List.mem_append]; exact hc)
  intro heq
  have hstar : '*' ∈ joined parts ++ trail := by
    rw [heq]
    decide
  exact hall parts
    (fun p hp => ⟨hsep.1 p.1 (List.mem_map_of_mem Prod.fst hp), (hvalid p hp).1⟩) _ hstar rfl

/-- The name-ID loop, started by `parse_nameids`, on a well-formed list of
decimal numerals. -/
theorem parse_ids_loop_joined (mk_error : CStr → GError) (last : Option Char)
    (parts : List (CStr × CStr)) (trail : CStr) (ids : hb_set_t)
    (hsep : separators_ok (parts.map Prod.fst)) (htrail : delim_run trail)
    (hvalid : ∀ p ∈ parts, numeral p.2 ∧ dec_value p.2 < 2 ^ 32) :
    parse_ids_loop mk_error last ((joined parts ++ trail).length + 1) (joined parts ++ trail) ids
      = some { ret := true, error := none,
               state := parts.foldl (fun acc p => apply_id last acc (dec_value p.2)) ids } := by
  have hlen := joined_length_le parts (fun p hp => (hvalid p hp).1.1)
  obtain ⟨k, hk⟩ : ∃ k, (joined parts ++ trail).length + 1 = parts.length + (k + 1) :=
    ⟨(joined parts ++ trail).length - parts.length, by
      simp only [List.length_append]
      omega⟩
  rw [hk, parse_ids_loop_items mk_error last parts (k + 1) trail ids hsep hvalid
      (delim_run_at_delim htrail),
    parse_ids_loop_trail mk_error last k trail _ htrail]

/-- C2: the name-ID directive obeys the three modifier modes.  For every
prior name-ID set and every value that is a list of decimal numerals below
`2 ^ 32` separated by ',' and ' ', `parse_nameids` succeeds, and the name-ID
set of the state it returns is the set of the listed numbers when the name
ends in neither '+' nor '-', the prior set united with it when the name ends
in '+', and the prior set minus it when the name ends in '-'; only the last
character of the name selects the mode, and no other field of the state
changes. -/
theorem parse_nameids_modes (name : CStr) (parts : List (CStr × CStr)) (trail : CStr)
    (m : subset_main_t) (hsep : separators_ok (parts.map Prod.fst)) (htrail : delim_run trail)
    (hvalid : ∀ p ∈ parts, numeral p.2 ∧ dec_value p.2 < 2 ^ 32) :
    ∃ r, parse_nameids name (joined parts ++ trail) m = some r
      ∧ r.ret = true ∧ r.error = none
      ∧ (name.getLast? ≠ some '+' → name.getLast? ≠ some '-' →
          r.state.input.name_ids = numbers_of parts)
      ∧ (name.getLast? = some '+' →
          r.state.input.name_ids = m.input.name_ids ∪ numbers_of parts)
      ∧ (name.getLast? = some '-' →
          r.state.input.name_ids = m.input.name_ids \ numbers_of parts)
      ∧ (∀ g, g ∈ numbers_of parts ↔ ∃ p ∈ parts, g = dec_value p.2)
      ∧ r.state = { m with input := { m.input with name_ids := r.state.input.name_ids } } := by
  have hstar := joined_numerals_ne_star parts trail hsep htrail hvalid
  have hnum : ∀ g, g ∈ numbers_of parts ↔ ∃ p ∈ parts, g = dec_value p.2 := by
    intro g
    simp only [numbers_of, List.mem_toFinset, List.mem_map]
    constructor
    · rintro ⟨p, hp, rfl⟩
      exact ⟨p, hp, rfl⟩
    · rintro ⟨p, hp, rfl⟩
      exact ⟨p, hp, rfl⟩
  by_cases hp : name.getLast? = some '+'
  · have h2 : name.getLast? ≠ some '-' := by
      rw [hp]
      decide
    have hrun : parse_nameids name (joined parts ++ trail) m
        = some { ret := true, error := none,
                 state := put_name_ids m (m.input.name_ids ∪ numbers_of parts) } := by
      unfold parse_nameids
      simp only [hp, hstar, ne_eq, not_true_eq_false, false_and, if_false]
      rw [parse_ids_loop_joined _ _ parts trail _ hsep htrail hvalid,
        foldl_add_ids _ (by decide)]
      simp [Ret.lift]
    exact ⟨_, hrun, rfl, rfl, fun h => absurd hp h, fun _ => rfl, fun h => absurd h h2, hnum,
      rfl⟩
  · by_cases hm : name.getLast? = some '-'
    · have hrun : parse_nameids name (joined parts ++ trail) m
          = some { ret := true, error := none,
                   state := put_name_ids m (m.input.name_ids \ numbers_of parts) } := by
        unfold parse_nameids
        simp only [hm, hstar, ne_eq, not_true_eq_false, and_false, if_false]
        rw [parse_ids_loop_joined _ _ parts trail _ hsep htrail hvalid, foldl_del_ids]
        simp [Ret.lift]
      exact ⟨_, hrun, rfl, rfl, fun _ h => absurd hm h, fun h => absurd h hp, fun _ => rfl,
        hnum, rfl⟩
    · have hrun : parse_nameids name (joined parts ++ trail) m
          = some { ret := true, error := none, state := put_name_ids m (numbers_of parts) } := by
        unfold parse_nameids
        simp only [hp, hm, hstar, ne_eq, not_false_eq_true, and_self, if_true, if_false]
        rw [parse_ids_loop_joined _ _ parts trail _ hsep htrail hvalid, foldl_add_ids _ hm]
        simp [Ret.lift, hb_set_clear]
      exact ⟨_, hrun, rfl, rfl, fun _ _ => rfl, fun h => absurd h hp, fun h => absurd h hm,
        hnum, rfl⟩

/-- Witness of C2: the value "7, 4" under the names "name-IDs", "name-IDs+"
and "name-IDs-" on the sample state, whose name-ID set holds 7 and 40000,
leaves the sets 4, 7, then 4, 7, 40000, then 40000; the other sets stay. -/
theorem parse_nameids_modes_witness :
    separators_ok ([("".toList, "7".toList), (", ".toList, "4".toList)].map Prod.fst)
      ∧ delim_run "".toList
      ∧ (∀ p ∈ [("".toList, "7".toList), (", ".toList, "4".toList)],
          numeral p.2 ∧ dec_value p.2 < 2 ^ 32)
      ∧ sample_main.input.name_ids = {7, 40000}
      ∧ (∃ r ∈ parse_nameids "name-IDs".toList "7, 4".toList sample_main,
          r.ret = true ∧ r.error = none ∧ r.state.input.name_ids = {4, 7}
            ∧ r.state.input.glyphs = {3} ∧ r.state.input.name_languages = {0x409, 0x6000})
      ∧ (∃ r ∈ parse_nameids "name-IDs+".toList "7, 4".toList sample_main,
          r.ret = true ∧ r.error = none ∧ r.state.input.name_ids = {4, 7, 40000})
      ∧ (∃ r ∈ parse_nameids "name-IDs-".toList "7, 4".toList sample_main,
          r.ret = true ∧ r.error = none ∧ r.state.input.name_ids = {40000})
      ∧ ∃ r, parse_nameids "name-IDs-".toList "7, 4".toList sample_main = some r
          ∧ r.ret = true ∧ r.error = none
          ∧ ("name-IDs-".toList.getLast? ≠ some '+' → "name-IDs-".toList.getLast? ≠ some '-' →
              r.state.input.name_ids
                = numbers_of [("".toList, "7".toList), (", ".toList, "4".toList)])
          ∧ ("name-IDs-".toList.getLast? = some '+' →
              r.state.input.name_ids = sample_main.input.name_ids
                ∪ numbers_of [("".toList, "7".toList), (", ".toList, "4".toList)])
          ∧ ("name-IDs-".toList.getLast? = some '-' →
              r.state.input.name_ids = sample_main.input.name_ids
                \ numbers_of [("".toList, "7".toList), (", ".toList, "4".toList)])
          ∧ (∀ g, g ∈ numbers_of [("".toList, "7".toList), (", ".toList, "4".toList)] ↔
              ∃ p ∈ [("".toList, "7".toList), (", ".toList, "4".toList)], g = dec_value p.2)
          ∧ r.state = { sample_main with
              input := { sample_main.input with name_ids := r.state.input.name_ids } } :=
  ⟨by decide, by decide, by decide, by decide, by decide, by decide, by decide,
    parse_nameids_modes "name-IDs-".toList [("".toList, "7".toList), (", ".toList, "4".toList)]
      "".toList sample_main (by decide) (by decide) (by decide)⟩


/-- C5 at its failing input: the name-ID directive accepts values that begin
with '-'.  On "-5" and on "1,-5" `parse_nameids` succeeds, raises no error and
adds 4294967291, the negation of 5 reduced to 32 bits. -/
theorem parse_nameids_accepts_minus :
    (∃ r ∈ parse_nameids "name-IDs".toList "-5".toList blank_main,
        r.ret = true ∧ r.error = none ∧ r.state.input.name_ids = {4294967291})
      ∧ ∃ r ∈ parse_nameids "name-IDs+".toList "1,-5".toList blank_main,
        r.ret = true ∧ r.error = none ∧ r.state.input.name_ids = {1, 4294967291} := by
  constructor <;> decide

/-! ## The Unicode directive -/

/-- C4 at its failing input: the Unicode directive has no ranges.  On "41-5A"
`parse_unicodes` succeeds and adds 0x41 and 0xFFFFFFA6 (the text "-5A" read as
a negative number and reduced to 32 bits); no codepoint of 0x42 .. 0x5A is
added. -/
theorem parse_unicodes_no_range :
    ∃ r ∈ parse_unicodes "unicodes".toList "41-5A".toList blank_main,
      r.ret = true ∧ r.error = none ∧ r.state.input.unicodes = {0x41, 0xFFFFFFA6}
        ∧ ∀ u ∈ Finset.Icc 0x42 0x5A, u ∉ r.state.input.unicodes := by
  decide

/-! ## Wildcards -/

theorem testBit_set_flag (flags F i : Nat) :
    (flags ||| F).testBit i = (flags.testBit i || F.testBit i) :=
  Nat.testBit_lor flags F i

theorem testBit_clear_flag (flags F i : Nat) :
    (flags &&& not32 F).testBit i
      = (flags.testBit i && (decide (i < 32) && !F.testBit i)) := by
  have h : (0xFFFFFFFF : Nat) = 2 ^ 32 - 1 := by norm_num
  rw [Nat.testBit_land, not32, Nat.testBit_xor, h, Nat.testBit_two_pow_sub_one,
    Nat.testBit_mod_two_pow]
  by_cases hi : i < 32 <;> simp [hi]

theorem parse_layout_features_star_plus (F : Nat) (name : CStr) (m : subset_main_t)
    (h : name.getLast? = some '+') :
    parse_layout_features F name "*".toList m
      = some { ret := true, error := none,
               state := { m with input := { m.input with
                            layout_features := m.input.layout_features,
                            flags := m.input.flags ||| F } } } := by
  simp [parse_layout_features, h]

theorem parse_layout_features_star_plain (F : Nat) (name : CStr) (m : subset_main_t)
    (h1 : name.getLast? ≠ some '+') (h2 : name.getLast? ≠ some '-') :
    parse_layout_features F name "*".toList m
      = some { ret := true, error := none,
               state := { m with input := { m.input with
                            layout_features := ∅,
                            flags := m.input.flags ||| F } } } := by
  simp [parse_layout_features, h1, h2, hb_set_clear]

theorem parse_layout_features_star_minus (F : Nat) (name : CStr) (m : subset_main_t)
    (h : name.getLast? = some '-') :
    parse_layout_features F name "*".toList m
      = some { ret := true, error := none,
               state := { m with input := { m.input with
                            layout_features := ∅,
                            flags := m.input.flags &&& not32 F } } } := by
  simp [parse_layout_features, h, hb_set_clear]

/-- C10: the layout-feature wildcard toggles a flag instead of enumerating
tags.  With the value "*", `parse_layout_features` succeeds; under a name
ending in '+' it sets the retain-all-features flag and leaves the tag set as
it was, under a name without suffix it sets the flag and leaves the tag set
empty, under a name ending in '-' it clears the flag and leaves the tag set
empty.  Every other bit of the 32-bit flag word and every other field of the
state is unchanged. -/
theorem layout_features_wildcard (RETAIN_ALL_FEATURES : Nat) (name : CStr)
    (m : subset_main_t) :
    (name.getLast? = some '+' →
        ∃ r, parse_layout_features RETAIN_ALL_FEATURES name "*".toList m = some r
          ∧ r.ret = true ∧ r.error = none
          ∧ r.state.input.layout_features = m.input.layout_features
          ∧ (∀ i, RETAIN_ALL_FEATURES.testBit i = true → r.state.input.flags.testBit i = true)
          ∧ (∀ i < 32, RETAIN_ALL_FEATURES.testBit i = false →
              r.state.input.flags.testBit i = m.input.flags.testBit i)
          ∧ same_but_layout_features r.state m)
      ∧ (name.getLast? ≠ some '+' → name.getLast? ≠ some '-' →
        ∃ r, parse_layout_features RETAIN_ALL_FEATURES name "*".toList m = some r
          ∧ r.ret = true ∧ r.error = none
          ∧ r.state.input.layout_features = ∅
          ∧ (∀ i, RETAIN_ALL_FEATURES.testBit i = true → r.state.input.flags.testBit i = true)
          ∧ (∀ i < 32, RETAIN_ALL_FEATURES.testBit i = false →
              r.state.input.flags.testBit i = m.input.flags.testBit i)
          ∧ same_but_layout_features r.state m)
      ∧ (name.getLast? = some '-' →
        ∃ r, parse_layout_features RETAIN_ALL_FEATURES name "*".toList m = some r
          ∧ r.ret = true ∧ r.error = none
          ∧ r.state.input.layout_features = ∅
          ∧ (∀ i, RETAIN_ALL_FEATURES.testBit i = true → r.state.input.flags.testBit i = false)
          ∧ (∀ i < 32, RETAIN_ALL_FEATURES.testBit i = false →
              r.state.input.flags.testBit i = m.input.flags.testBit i)
          ∧ same_but_layout_features r.state m) := by
  refine ⟨fun h => ?_, fun h1 h2 => ?_, fun h => ?_⟩
  · refine ⟨_, parse_layout_features_star_plus _ name m h, rfl, rfl, rfl, ?_, ?_, ?_⟩
    · intro i hi
      simp [testBit_set_flag, hi]
    · intro i _ hi
      simp [testBit_set_flag, hi]
    · simp [same_but_layout_features]
  · refine ⟨_, parse_layout_features_star_plain _ name m h1 h2, rfl, rfl, rfl, ?_, ?_, ?_⟩
    · intro i hi
      simp [testBit_set_flag, hi]
    · intro i _ hi
      simp [testBit_set_flag, hi]
    · simp [same_but_layout_features]
  · refine ⟨_, parse_layout_features_star_minus _ name m h, rfl, rfl, rfl, ?_, ?_, ?_⟩
    · intro i hi
      show (m.input.flags &&& not32 RETAIN_ALL_FEATURES).testBit i = false
      rw [testBit_clear_flag, hi]
      simp
    · intro i hlt hi
      show (m.input.flags &&& not32 RETAIN_ALL_FEATURES).testBit i = m.input.flags.testBit i
      rw [testBit_clear_flag, hi]
      simp [hlt]
    · simp [same_but_layout_features]


/-- Witness of C10: the three registered names, the flag at bit 7, on the
sample state, whose flag word has bits 0 and 7 set. -/
theorem layout_features_wildcard_witness :
    "layout-features+".toList.getLast? = some '+'
      ∧ "layout-features".toList.getLast? ≠ some '+'
      ∧ "layout-features".toList.getLast? ≠ some '-'
      ∧ "layout-features-".toList.getLast? = some '-'
      ∧ (∃ r, parse_layout_features 128 "layout-features+".toList "*".toList sample_main
              = some r
          ∧ r.ret = true ∧ r.error = none
          ∧ r.state.input.layout_features = sample_main.input.layout_features
          ∧ (∀ i, Nat.testBit 128 i = true → r.state.input.flags.testBit i = true)
          ∧ (∀ i < 32, Nat.testBit 128 i = false →
              r.state.input.flags.testBit i = sample_main.input.flags.testBit i)
          ∧ same_but_layout_features r.state sample_main)
      ∧ (∃ r, parse_layout_features 128 "layout-features".toList "*".toList sample_main
              = some r
          ∧ r.ret = true ∧ r.error = none
          ∧ r.state.input.layout_features = ∅
          ∧ (∀ i, Nat.testBit 128 i = true → r.state.input.flags.testBit i = true)
          ∧ (∀ i < 32, Nat.testBit 128 i = false →
              r.state.input.flags.testBit i = sample_main.input.flags.testBit i)
          ∧ same_but_layout_features r.state sample_main)
      ∧ (∃ r, parse_layout_features 128 "layout-features-".toList "*".toList sample_main
              = some r
          ∧ r.ret = true ∧ r.error = none
          ∧ r.state.input.layout_features = ∅
          ∧ (∀ i, Nat.testBit 128 i = true → r.state.input.flags.testBit i = false)
          ∧ (∀ i < 32, Nat.testBit 128 i = false →
              r.state.input.flags.testBit i = sample_main.input.flags.testBit i)
          ∧ same_but_layout_features r.state sample_main) :=
  ⟨by decide, by decide, by decide, by decide,
    (layout_features_wildcard 128 "layout-features+".toList sample_main).1 (by decide),
    (layout_features_wildcard 128 "layout-features".toList sample_main).2.1 (by decide)
      (by decide),
    (layout_features_wildcard 128 "layout-features-".toList sample_main).2.2 (by decide)⟩

/-! ## Tokens and `strtok` -/

theorem tokens_with_nil (delim : CStr) : tokens_with delim [] = [] := by
  simp [tokens_with, List.splitOnP_nil]

theorem tokens_with_cons_delim (delim : CStr) (d : Char) (s : CStr)
    (hd : strchr delim d = true) : tokens_with delim (d :: s) = tokens_with delim s := by
  simp [tokens_with, List.splitOnP_cons, hd]

theorem tokens_with_dropWhile (delim s : CStr) :
    tokens_with delim (s.dropWhile (strchr delim)) = tokens_with delim s := by
  induction s with
  | nil => rfl
  | cons c cs ih =>
    by_cases hc : strchr delim c = true
    · rw [List.dropWhile_cons_of_pos hc, ih, tokens_with_cons_delim delim c cs hc]
    · rw [List.dropWhile_cons_of_neg hc]

/-- A word, free of delimiters and followed by a delimiter or by nothing, is
the first token. -/
theorem tokens_with_word (delim w rest : CStr) (hw : w ≠ [])
    (hfree : ∀ c ∈ w, ¬ strchr delim c = true)
    (hrest : ∀ c ∈ rest.head?, strchr delim c = true) :
    tokens_with delim (w ++ rest) = w :: tokens_with delim rest := by
  have hne : w.isEmpty = false := by
    cases w with
    | nil => exact absurd rfl hw
    | cons _ _ => rfl
  cases rest with
  | nil =>
    simp [tokens_with, List.splitOnP_eq_single _ _ hfree, List.splitOnP_nil, hne]
  | cons d as =>
    have hd : strchr delim d = true := hrest d (by simp)
    rw [tokens_with_cons_delim delim d as hd]
    simp [tokens_with, List.splitOnP_first _ _ hfree d hd as, hne]

theorem strtok_none (s delim : CStr) (h : strtok s delim = none) : tokens_with delim s = [] := by
  unfold strtok at h
  by_cases hs : s.dropWhile (strchr delim) = []
  · rw [← tokens_with_dropWhile, hs, tokens_with_nil]
  · simp only [hs, if_false] at h
    exact absurd h (by simp)

theorem strtok_some (s delim tok saved : CStr) (h : strtok s delim = some (tok, saved)) :
    tokens_with delim s = tok :: tokens_with delim saved ∧ saved.length < s.length := by
  unfold strtok at h
  by_cases hs : s.dropWhile (strchr delim) = []
  · simp only [hs, if_true] at h
    exact absurd h (by simp)
  · simp only [hs, if_false, Option.some.injEq, Prod.mk.injEq] at h
    obtain ⟨htok, hsaved⟩ := h
    have hsplit := List.takeWhile_append_dropWhile (fun c => !strchr delim c)
      (s.dropWhile (strchr delim))
    rw [htok] at hsplit
    have hfree : ∀ c ∈ tok, ¬ strchr delim c = true := by
      intro c hc
      rw [← htok] at hc
      have := List.mem_takeWhile_imp hc
      simpa using this
    have htokne : tok ≠ [] := by
      intro hnil
      have hhead := List.head?_dropWhile_not (strchr delim) s
      cases hdw : s.dropWhile (strchr delim) with
      | nil => exact hs hdw
      | cons c cs =>
        rw [hdw] at hhead htok
        simp only [List.head?_cons] at hhead
        rw [List.takeWhile_cons_of_pos (by simp [hhead])] at htok
        rw [hnil] at htok
        exact absurd htok (by simp)
    have hrest : ∀ c ∈ ((s.dropWhile (strchr delim)).dropWhile
        (fun c => !strchr delim c)).head?, strchr delim c = true := by
      intro c hc
      have hhead := List.head?_dropWhile_not (fun c => !strchr delim c)
        (s.dropWhile (strchr delim))
      rw [Option.mem_def] at hc
      rw [hc] at hhead
      simpa using hhead
    have hlen1 : (s.dropWhile (strchr delim)).length ≤ s.length :=
      (List.dropWhile_sublist _).length_le
    have hlen2 := congrArg List.length hsplit
    have htoklen : tok.length ≠ 0 := by simpa using htokne
    constructor
    · rw [← tokens_with_dropWhile, ← hsplit, tokens_with_word delim tok _ htokne hfree hrest,
        ← hsaved]
      congr 1
      cases hdw : (s.dropWhile (strchr delim)).dropWhile (fun c => !strchr delim c) with
      | nil => rfl
      | cons d as =>
        rw [hdw] at hrest
        exact tokens_with_cons_delim delim d as (hrest d (by simp))
    · rw [← hsaved]
      simp only [List.length_append, List.length_tail] at hlen2 ⊢
      omega

theorem tokens_eq_with (s : CStr) : tokens s = tokens_with ", ".toList s := rfl

/-- The tag loop does to the set what `apply_tags` does with the tokens of
the text, given fuel beyond the length of the text. -/
theorem parse_tags_loop_tokens (last : Option Char) (fuel : Nat) (s : CStr) (tags : hb_set_t)
    (hfuel : s.length < fuel) :
    parse_tags_loop last fuel (strtok s ", ".toList) tags
      = some (apply_tags last (tokens s) tags) := by
  induction fuel generalizing s tags with
  | zero => exact absurd hfuel (Nat.not_lt_zero _)
  | succ f ih =>
    cases hst : strtok s ", ".toList with
    | none =>
      rw [tokens_eq_with, strtok_none s _ hst]
      rfl
    | some p =>
      obtain ⟨tok, saved⟩ := p
      obtain ⟨htok, hlen⟩ := strtok_some s _ tok saved hst
      rw [tokens_eq_with, htok, parse_tags_loop]
      have hf : saved.length < f := by omega
      by_cases hlong : tok.length > 4
      · simp only [hlong, if_true, apply_tags]
      · by_cases hl : last ≠ some '-'
        · simp only [hlong, if_false, apply_tags]
          rw [if_pos hl, if_pos hl]
          exact ih saved _ hf
        · simp only [hlong, if_false, apply_tags]
          rw [if_neg hl, if_neg hl]
          exact ih saved _ hf


/-- The tokens of a written-out list are its items. -/
theorem tokens_joined (parts : List (CStr × CStr)) (trail : CStr)
    (hsep : separators_ok (parts.map Prod.fst)) (htrail : delim_run trail)
    (hwords : ∀ p ∈ parts, p.2 ≠ [] ∧ ∀ c ∈ p.2, ¬ (c = ',' ∨ c = ' ')) :
    tokens (joined parts ++ trail) = parts.map Prod.snd := by
  have hrun : ∀ (sep rest : CStr), delim_run sep → tokens (sep ++ rest) = tokens rest := by
    intro sep rest hs
    induction sep with
    | nil => rfl
    | cons d ds ih =>
      rw [List.cons_append, tokens_eq_with,
        tokens_with_cons_delim _ d _ ((strchr_delim d).2 (hs d (List.mem_cons_self _ _))),
        ← tokens_eq_with]
      exact ih (fun c hc => hs c (List.mem_cons_of_mem _ hc))
  induction parts with
  | nil =>
    have := hrun trail [] htrail
    simpa [joined, tokens_eq_with, tokens_with_nil] using this
  | cons p ps ih =>
    obtain ⟨sep, w⟩ := p
    obtain ⟨hsep_ps, hne_ps⟩ := separators_ok_tail hsep
    have hw := hwords (sep, w) (List.mem_cons_self _ _)
    have hrest : at_delim (joined ps ++ trail) :=
      joined_at_delim _ _
        (fun q hq => hsep_ps.1 q.1 (List.mem_map_of_mem Prod.fst hq))
        (fun q hq => hne_ps q.1 (List.mem_map_of_mem Prod.fst hq))
        (delim_run_at_delim htrail)
    have htext : joined ((sep, w) :: ps) ++ trail = sep ++ (w ++ (joined ps ++ trail)) := by
      simp [joined]
    rw [htext, hrun sep _ (hsep.1 sep (List.mem_cons_self _ _)), tokens_eq_with,
      tokens_with_word _ w _ hw.1
        (fun c hc h => hw.2 c hc ((strchr_delim c).1 h))
        (fun c hc => (strchr_delim c).2 (hrest c hc)),
      ← tokens_eq_with, ih hsep_ps (fun q hq => hwords q (List.mem_cons_of_mem _ hq))]
    rfl

/-! ## Tag directives -/

theorem apply_tags_ret (last : Option Char) (ts : List CStr) (tags : hb_set_t) :
    (apply_tags last ts tags).ret = false ↔ ∃ t ∈ ts, 4 < t.length := by
  induction ts generalizing tags with
  | nil => simp [apply_tags]
  | cons t ts ih =>
    by_cases hlong : t.length > 4
    · simp only [apply_tags, hlong, if_true, true_iff]
      exact ⟨t, List.mem_cons_self _ _, hlong⟩
    · have hrec : ∀ tags2, (apply_tags last ts tags2).ret = false ↔ ∃ t ∈ ts, 4 < t.length :=
        fun tags2 => ih tags2
      have hcons : (∃ u ∈ t :: ts, 4 < u.length) ↔ ∃ u ∈ ts, 4 < u.length := by
        constructor
        · rintro ⟨u, hu, hlen⟩
          rcases List.mem_cons.1 hu with rfl | hu
          · exact absurd hlen hlong
          · exact ⟨u, hu, hlen⟩
        · rintro ⟨u, hu, hlen⟩
          exact ⟨u, List.mem_cons_of_mem _ hu, hlen⟩
      simp only [apply_tags, hlong, if_false]
      split
      · rw [hrec, hcons]
      · rw [hrec, hcons]

theorem apply_tags_error (last : Option Char) (ts : List CStr) (tags : hb_set_t) :
    (apply_tags last ts tags).error = (ts.find? too_long).map GError.table_tag_at := by
  induction ts generalizing tags with
  | nil => simp [apply_tags]
  | cons t ts ih =>
    by_cases hlong : t.length > 4
    · have h : too_long t = true := by simpa [too_long] using hlong
      simp [apply_tags, hlong, List.find?_cons, h]
    · have h : too_long t = false := by simpa [too_long] using hlong
      simp only [apply_tags, hlong, if_false, List.find?_cons, h]
      split
      · exact ih _
      · exact ih _

theorem apply_tags_add (last : Option Char) (hl : last ≠ some '-') (ts : List CStr)
    (tags : hb_set_t) (hshort : ∀ t ∈ ts, t.length ≤ 4) :
    apply_tags last ts tags = { ret := true, error := none, state := tags ∪ tags_of ts } := by
  induction ts generalizing tags with
  | nil => simp [apply_tags, tags_of]
  | cons t ts ih =>
    have hlong : ¬ t.length > 4 := by
      have := hshort t (List.mem_cons_self _ _)
      omega
    simp only [apply_tags, hlong, if_false]
    rw [if_pos hl, ih _ (fun u hu => hshort u (List.mem_cons_of_mem _ hu))]
    congr 1
    ext x
    simp [hb_set_add, tags_of, or_assoc]

/-- A tag directive stated on the tokens of its value. -/
theorem parse_drop_tables_tokens (name arg : CStr) (m : subset_main_t) :
    parse_drop_tables name arg m
      = some (Ret.lift (put_drop_tables m)
          (apply_tags name.getLast? (tokens arg)
            (if name.getLast? ≠ some '+' ∧ name.getLast? ≠ some '-' then
              hb_set_clear m.input.drop_tables else m.input.drop_tables))) := by
  unfold parse_drop_tables
  simp only [parse_tags_loop_tokens _ _ arg _ (Nat.lt_succ_self _), Option.map_some']

theorem parse_layout_features_tokens (F : Nat) (name arg : CStr) (m : subset_main_t)
    (harg : arg ≠ "*".toList) :
    parse_layout_features F name arg m
      = some (Ret.lift (put_layout_features m)
          (apply_tags name.getLast? (tokens arg)
            (if name.getLast? ≠ some '+' ∧ name.getLast? ≠ some '-' then
              hb_set_clear m.input.layout_features else m.input.layout_features))) := by
  unfold parse_layout_features
  simp only [harg, if_false, parse_tags_loop_tokens _ _ arg _ (Nat.lt_succ_self _),
    Option.map_some']


/-- C7: tag-list REPLACE followed by ADD yields the union of both tag lists.
For every prior drop-table set and all lists of tokens of 1 to 4 bytes,
written out with ',' and ' ' as separators, `parse_drop_tables` under a name
without suffix on the first list and then under a name ending in '+' on the
second both succeed; the drop-table set of the state is the tags of the first
list after the first call, whatever it held before, and exactly the tags of
the first list united with the tags of the second after the second call, a
tag being the token packed big-endian and padded with spaces.  No other field
of the state changes. -/
theorem drop_tables_replace_then_add (name1 name2 : CStr) (T U : List (CStr × CStr))
    (trailT trailU : CStr) (m : subset_main_t)
    (h1 : name1.getLast? ≠ some '+') (h1m : name1.getLast? ≠ some '-')
    (h2 : name2.getLast? = some '+')
    (hsepT : separators_ok (T.map Prod.fst)) (htrailT : delim_run trailT)
    (hsepU : separators_ok (U.map Prod.fst)) (htrailU : delim_run trailU)
    (hT : ∀ p ∈ T, tag_token p.2) (hU : ∀ p ∈ U, tag_token p.2) :
    ∃ r1 r2, parse_drop_tables name1 (joined T ++ trailT) m = some r1
      ∧ r1.ret = true ∧ r1.error = none
      ∧ r1.state.input.drop_tables = tags_of (T.map Prod.snd)
      ∧ parse_drop_tables name2 (joined U ++ trailU) r1.state = some r2
      ∧ r2.ret = true ∧ r2.error = none
      ∧ r2.state.input.drop_tables = tags_of (T.map Prod.snd) ∪ tags_of (U.map Prod.snd)
      ∧ (∀ g, g ∈ r2.state.input.drop_tables ↔ ∃ p ∈ T ++ U, g = hb_tag_from_string p.2)
      ∧ r2.state
          = { m with input := { m.input with drop_tables := r2.state.input.drop_tables } } := by
  have hword : ∀ (L : List (CStr × CStr)), (∀ p ∈ L, tag_token p.2) →
      ∀ p ∈ L, p.2 ≠ [] ∧ ∀ c ∈ p.2, ¬ (c = ',' ∨ c = ' ') := by
    intro L hL p hp
    obtain ⟨hlen, -, hfree⟩ := hL p hp
    refine ⟨?_, hfree⟩
    intro hnil
    rw [hnil] at hlen
    exact absurd hlen (by decide)
  have hshort : ∀ (L : List (CStr × CStr)), (∀ p ∈ L, tag_token p.2) →
      ∀ t ∈ L.map Prod.snd, t.length ≤ 4 := by
    intro L hL t ht
    obtain ⟨p, hp, rfl⟩ := List.mem_map.1 ht
    exact (hL p hp).2.1
  have htokT := tokens_joined T trailT hsepT htrailT (hword T hT)
  have htokU := tokens_joined U trailU hsepU htrailU (hword U hU)
  have h2m : name2.getLast? ≠ some '-' := by
    rw [h2]
    decide
  have hr1 : parse_drop_tables name1 (joined T ++ trailT) m
      = some { ret := true, error := none,
               state := put_drop_tables m (tags_of (T.map Prod.snd)) } := by
    rw [parse_drop_tables_tokens, htokT, apply_tags_add _ h1m _ _ (hshort T hT)]
    simp [Ret.lift, h1, h1m, hb_set_clear]
  have hr2 : parse_drop_tables name2 (joined U ++ trailU)
        (put_drop_tables m (tags_of (T.map Prod.snd)))
      = some { ret := true, error := none,
               state := put_drop_tables m
                 (tags_of (T.map Prod.snd) ∪ tags_of (U.map Prod.snd)) } := by
    rw [parse_drop_tables_tokens, htokU, apply_tags_add _ h2m _ _ (hshort U hU)]
    simp [Ret.lift, put_drop_tables, h2]
  refine ⟨_, _, hr1, rfl, rfl, rfl, hr2, rfl, rfl, rfl, fun g => ?_, rfl⟩
  show g ∈ tags_of (T.map Prod.snd) ∪ tags_of (U.map Prod.snd) ↔ _
  simp only [tags_of, Finset.mem_union, List.mem_toFinset, List.mem_map, List.mem_append]
  constructor
  · rintro (⟨t, ⟨p, hp, rfl⟩, rfl⟩ | ⟨t, ⟨p, hp, rfl⟩, rfl⟩)
    · exact ⟨p, Or.inl hp, rfl⟩
    · exact ⟨p, Or.inr hp, rfl⟩
  · rintro ⟨p, hp | hp, rfl⟩
    · exact Or.inl ⟨p.2, ⟨p, hp, rfl⟩, rfl⟩
    · exact Or.inr ⟨p.2, ⟨p, hp, rfl⟩, rfl⟩

/-- Witness of C7: "GSUB,kern" under "drop-tables", then "GPOS" under
"drop-tables+", on the sample state, whose drop-table set holds 1 and 2: the
set is the two tags after the first call and the three tags after the
second. -/
theorem drop_tables_replace_then_add_witness :
    "drop-tables".toList.getLast? ≠ some '+' ∧ "drop-tables".toList.getLast? ≠ some '-'
      ∧ "drop-tables+".toList.getLast? = some '+'
      ∧ separators_ok ([("".toList, "GSUB".toList), (",".toList, "kern".toList)].map Prod.fst)
      ∧ separators_ok ([("".toList, "GPOS".toList)].map Prod.fst)
      ∧ delim_run "".toList
      ∧ (∀ p ∈ [("".toList, "GSUB".toList), (",".toList, "kern".toList)], tag_token p.2)
      ∧ (∀ p ∈ [("".toList, "GPOS".toList)], tag_token p.2)
      ∧ sample_main.input.drop_tables = {1, 2}
      ∧ ({0x47535542, 0x6B65726E, 0x47504F53} : Finset Nat).card = 3
      ∧ (∃ r1 ∈ parse_drop_tables "drop-tables".toList "GSUB,kern".toList sample_main,
          r1.ret = true ∧ r1.error = none
            ∧ r1.state.input.drop_tables = {0x47535542, 0x6B65726E}
            ∧ ∃ r2 ∈ parse_drop_tables "drop-tables+".toList "GPOS".toList r1.state,
                r2.ret = true ∧ r2.error = none
                  ∧ r2.state.input.drop_tables = {0x47535542, 0x6B65726E, 0x47504F53}
                  ∧ r2.state.input.layout_features = {1, 2} ∧ r2.state.input.flags = 129)
      ∧ ∃ r1 r2, parse_drop_tables "drop-tables".toList "GSUB,kern".toList sample_main = some r1
          ∧ r1.ret = true ∧ r1.error = none
          ∧ r1.state.input.drop_tables
              = tags_of ([("".toList, "GSUB".toList), (",".toList, "kern".toList)].map Prod.snd)
          ∧ parse_drop_tables "drop-tables+".toList "GPOS".toList r1.state = some r2
          ∧ r2.ret = true ∧ r2.error = none
          ∧ r2.state.input.drop_tables
              = tags_of ([("".toList, "GSUB".toList), (",".toList, "kern".toList)].map Prod.snd)
                ∪ tags_of ([("".toList, "GPOS".toList)].map Prod.snd)
          ∧ (∀ g, g ∈ r2.state.input.drop_tables ↔
              ∃ p ∈ [("".toList, "GSUB".toList), (",".toList, "kern".toList)]
                  ++ [("".toList, "GPOS".toList)], g = hb_tag_from_string p.2)
          ∧ r2.state = { sample_main with
              input := { sample_main.input with
                drop_tables := r2.state.input.drop_tables } } :=
  ⟨by decide, by decide, by decide, by decide, by decide, by decide, by decide, by decide,
    by decide, by decide, by decide,
    drop_tables_replace_then_add "drop-tables".toList "drop-tables+".toList
      [("".toList, "GSUB".toList), (",".toList, "kern".toList)] [("".toList, "GPOS".toList)]
      "".toList "".toList sample_main
      (by decide) (by decide) (by decide) (by decide) (by decide) (by decide) (by decide)
      (by decide) (by decide)⟩

/-- C8: a tag directive fails if and only if some token is too long.  For
every name and value, `parse_drop_tables` returns failure exactly when some
comma/space-separated token of the value is longer than 4 bytes, and its
error is then the tag error naming the first such token (and there is no
error otherwise); `parse_layout_features` does the same on every value other
than the wildcard. -/
theorem tag_directive_fails_iff_too_long (RETAIN_ALL_FEATURES : Nat) (name arg : CStr)
    (m : subset_main_t) :
    (∃ r, parse_drop_tables name arg m = some r
        ∧ (r.ret = false ↔ ∃ t ∈ tokens arg, 4 < t.length)
        ∧ r.error = ((tokens arg).find? too_long).map GError.table_tag_at)
      ∧ (arg ≠ "*".toList →
        ∃ r, parse_layout_features RETAIN_ALL_FEATURES name arg m = some r
          ∧ (r.ret = false ↔ ∃ t ∈ tokens arg, 4 < t.length)
          ∧ r.error = ((tokens arg).find? too_long).map GError.table_tag_at) := by
  refine ⟨⟨_, parse_drop_tables_tokens name arg m, ?_, ?_⟩,
    fun harg => ⟨_, parse_layout_features_tokens _ name arg m harg, ?_, ?_⟩⟩
  · exact apply_tags_ret _ _ _
  · exact apply_tags_error _ _ _
  · exact apply_tags_ret _ _ _
  · exact apply_tags_error _ _ _

/-- Witness of C8: the value "GSUB,abcde kern,toolong" under
"layout-features"; the first token that is too long is "abcde". -/
theorem tag_directive_fails_iff_too_long_witness :
    "GSUB,abcde kern,toolong".toList ≠ "*".toList
      ∧ (tokens "GSUB,abcde kern,toolong".toList).find? too_long = some "abcde".toList
      ∧ ∃ r, parse_layout_features 128 "layout-features".toList
                "GSUB,abcde kern,toolong".toList blank_main = some r
          ∧ (r.ret = false ↔ ∃ t ∈ tokens "GSUB,abcde kern,toolong".toList, 4 < t.length)
          ∧ r.error = ((tokens "GSUB,abcde kern,toolong".toList).find? too_long).map
              GError.table_tag_at :=
  ⟨by decide, by decide,
    (tag_directive_fails_iff_too_long 128 "layout-features".toList
      "GSUB,abcde kern,toolong".toList blank_main).2 (by decide)⟩

/-! ## Glyph names -/

theorem is_delim_eq_strchr :
    (fun c : Char => decide (c = ' ' ∨ c = ',')) = strchr ", ".toList := by
  funext c
  rw [Bool.eq_iff_iff, decide_eq_true_iff, strchr_delim]
  exact Or.comm

theorem not_delim_eq_strchr :
    (fun c : Char => decide (c ≠ ' ' ∧ c ≠ ',')) = fun c => !strchr ", ".toList c := by
  funext c
  have h := strchr_delim c
  by_cases hc : strchr ", ".toList c = true
  · have := h.1 hc
    simp only [hc, Bool.not_true, decide_eq_false_iff_not, not_and_or, ne_eq, not_not]
    exact Or.comm.1 this
  · have hn : ¬ (c = ',' ∨ c = ' ') := fun hh => hc (h.2 hh)
    have hc2 : strchr ", ".toList c = false := by simpa using hc
    simp only [hc2, Bool.not_false, decide_eq_true_iff, ne_eq]
    exact ⟨fun h1 => hn (Or.inr h1), fun h1 => hn (Or.inl h1)⟩

/-- The loop of `post_parse` resolves the tokens of the buffer in order, given
fuel beyond the length of the text. -/
theorem post_parse_loop_tokens (face : hb_face_t) (fuel : Nat) (before s : CStr)
    (gids : hb_set_t) (hfuel : s.length < fuel) :
    ∃ r, post_parse_loop face fuel before s gids = some r
      ∧ r.error = (resolve_names face (tokens s) gids).1
      ∧ r.gids = (resolve_names face (tokens s) gids).2 := by
  induction fuel generalizing before s gids with
  | zero => exact absurd hfuel (Nat.not_lt_zero _)
  | succ f ih =>
    rw [post_parse_loop]
    by_cases hs : s = []
    · subst hs
      exact ⟨{ error := none, gids := gids, buffer := before }, by simp,
        by simp [tokens, tokens_with_nil, resolve_names],
        by simp [tokens, tokens_with_nil, resolve_names]⟩
    · have hpos : s.length ≠ 0 := by simpa using hs
      simp only [hs, if_false, is_delim_eq_strchr, not_delim_eq_strchr]
      cases hst : strtok s ", ".toList with
      | none =>
        have htok : tokens s = [] := strtok_none s _ hst
        have hp : s.dropWhile (strchr ", ".toList) = [] := by
          unfold strtok at hst
          by_contra hne
          simp only [hne, if_false] at hst
          exact absurd hst (by simp)
        simp only [hp, List.takeWhile_nil, List.dropWhile_nil, List.tail_nil, ne_eq,
          not_true_eq_false, if_false, if_true]
        obtain ⟨r, hr, he, hg⟩ := ih (before ++ s.takeWhile (strchr ", ".toList) ++ [] ++ []) []
          gids (by
            have : ([] : CStr).length = 0 := rfl
            omega)
        refine ⟨r, hr, ?_, ?_⟩
        · rw [he, htok]
          simp [tokens, tokens_with_nil]
        · rw [hg, htok]
          simp [tokens, tokens_with_nil]
      | some q =>
        obtain ⟨tok, saved⟩ := q
        obtain ⟨htok, hlen⟩ := strtok_some s _ tok saved hst
        have hst2 := hst
        unfold strtok at hst2
        by_cases hp : s.dropWhile (strchr ", ".toList) = []
        · simp only [hp, if_true] at hst2
          exact absurd hst2 (by simp)
        · simp only [hp, if_false, Option.some.injEq, Prod.mk.injEq] at hst2
          obtain ⟨h1, h2⟩ := hst2
          have htokne : tok ≠ [] := by
            intro hnil
            have := congrArg List.length htok
            rw [hnil] at htok
            have hmem : ([] : CStr) ∈ tokens_with ", ".toList s := by
              rw [htok]
              exact List.mem_cons_self _ _
            simp [tokens_with] at hmem
          rw [h1, h2]
          simp only [htokne, ne_eq, not_false_eq_true, if_true]
          have htoks : tokens s = tok :: tokens saved := htok
          cases hlook : hb_font_get_glyph_from_name face tok with
          | none =>
            exact ⟨_, rfl, by simp [htoks, resolve_names, hlook],
              by simp [htoks, resolve_names, hlook]⟩
          | some gid =>
            obtain ⟨r, hr, he, hg⟩ := ih
              (before ++ s.takeWhile (strchr ", ".toList) ++ tok ++
                (if (s.dropWhile (strchr ", ".toList)).dropWhile
                  (fun c => !strchr ", ".toList c) = [] then [] else ['\x00']))
              saved (hb_set_add gids gid) (by omega)
            refine ⟨r, hr, ?_, ?_⟩
            · rw [he, htoks]
              simp [resolve_names, hlook]
            · rw [hg, htoks]
              simp [resolve_names, hlook]

theorem mem_splitOnP_chars (p : Char → Bool) (s : CStr) :
    ∀ t ∈ s.splitOnP p, ∀ c ∈ t, c ∈ s := by
  induction s with
  | nil =>
    intro t ht c hc
    simp only [List.splitOnP_nil, List.mem_singleton] at ht
    rw [ht] at hc
    exact hc
  | cons x s ih =>
    intro t ht c hc
    rw [List.splitOnP_cons] at ht
    by_cases hx : p x = true
    · simp only [hx, if_true, List.mem_cons] at ht
      rcases ht with rfl | ht
      · simp at hc
      · exact List.mem_cons_of_mem _ (ih t ht c hc)
    · rw [if_neg hx] at ht
      cases hsp : s.splitOnP p with
      | nil => exact absurd hsp (List.splitOnP_ne_nil p s)
      | cons h tl =>
        rw [hsp] at ht ih
        rw [List.modifyHead_cons, List.mem_cons] at ht
        rcases ht with ht | ht
        · rw [ht, List.mem_cons] at hc
          rcases hc with hcx | hc
          · rw [hcx]
            exact List.mem_cons_self _ _
          · exact List.mem_cons_of_mem _ (ih h (List.mem_cons_self _ _) c hc)
        · exact List.mem_cons_of_mem _ (ih t (List.mem_cons_of_mem _ ht) c hc)

/-- The characters of a token are characters of the text. -/
theorem mem_tokens_chars (s t : CStr) (ht : t ∈ tokens s) : ∀ c ∈ t, c ∈ s := by
  simp only [tokens, tokens_with, List.mem_filter] at ht
  exact mem_splitOnP_chars _ s t ht.1

theorem splitOnP_append_delim (p : Char → Bool) (a b : CStr) (d : Char) (hd : p d = true) :
    (a ++ d :: b).splitOnP p = a.splitOnP p ++ b.splitOnP p := by
  induction a with
  | nil => simp [List.splitOnP_cons, hd, List.splitOnP_nil]
  | cons x a ih =>
    rw [List.cons_append, List.splitOnP_cons, List.splitOnP_cons, ih]
    by_cases hx : p x = true
    · simp [hx]
    · simp only [hx, if_false]
      cases hsp : a.splitOnP p with
      | nil => exact absurd hsp (List.splitOnP_ne_nil p a)
      | cons h tl => simp

/-- A delimiter between two texts keeps their tokens apart. -/
theorem tokens_append_delim (a b : CStr) (d : Char) (hd : strchr ", ".toList d = true) :
    tokens (a ++ d :: b) = tokens a ++ tokens b := by
  simp only [tokens, tokens_with, splitOnP_append_delim _ a b d hd, List.filter_append]

theorem intercalate_space_cons (v w : CStr) (rest : List CStr) :
    List.intercalate [' '] (v :: w :: rest) = v ++ ' ' :: List.intercalate [' '] (w :: rest) := by
  simp [List.intercalate, List.intersperse]

/-- The tokens of values joined by spaces are the tokens of the values. -/
theorem tokens_intercalate (vs : List CStr) :
    tokens (List.intercalate [' '] vs) = (vs.map tokens).flatten := by
  induction vs with
  | nil => simp [List.intercalate, tokens, tokens_with_nil]
  | cons v rest ih =>
    cases rest with
    | nil => simp [List.intercalate]
    | cons w rest =>
      rw [intercalate_space_cons, tokens_append_delim _ _ _ (by decide), ih]
      simp

theorem takeWhile_no_nul {t : CStr} (h : '\x00' ∉ t) :
    t.takeWhile (fun c => c ≠ '\x00') = t := by
  rw [List.takeWhile_eq_self_iff]
  intro c hc
  have : c ≠ '\x00' := fun hh => h (hh ▸ hc)
  simpa using this

/-- What `post_parse` does with tokens free of NUL: the error names the first
token the face does not know, and the glyphs of the tokens before it are in
the set. -/
theorem resolve_names_eq (face : hb_face_t) (ts : List CStr) (gids : hb_set_t)
    (hnul : ∀ t ∈ ts, '\x00' ∉ t) :
    resolve_names face ts gids
      = ((ts.find? (fun u => (face.glyph_from_name u).isNone)).map GError.glyph_name_at,
         gids ∪ glyphs_of face (ts.takeWhile (fun u => (face.glyph_from_name u).isSome))) := by
  induction ts generalizing gids with
  | nil => simp [resolve_names, glyphs_of]
  | cons t ts ih =>
    have ht := takeWhile_no_nul (hnul t (List.mem_cons_self _ _))
    have hrec := fun g => ih g (fun u hu => hnul u (List.mem_cons_of_mem _ hu))
    cases hlook : face.glyph_from_name t with
    | none =>
      simp only [resolve_names, hb_font_get_glyph_from_name, ht, hlook]
      simp [hlook, glyphs_of]
    | some gid =>
      simp only [resolve_names, hb_font_get_glyph_from_name, ht, hlook, hrec,
        List.find?_cons, Option.isNone_some, List.takeWhile_cons, Option.isSome_some, if_true,
        Prod.mk.injEq, true_and]
      ext x
      simp [hb_set_add, glyphs_of, List.filterMap_cons, hlook, or_assoc]

theorem post_parse_loop_names (face : hb_face_t) (names : CStr) (gids : hb_set_t)
    (hnul : '\x00' ∉ names) :
    ∃ r, post_parse_loop face (names.length + 1) [] names gids = some r
      ∧ r.error = ((tokens names).find? (fun u => (face.glyph_from_name u).isNone)).map
          GError.glyph_name_at
      ∧ r.gids = gids ∪ glyphs_of face
          ((tokens names).takeWhile (fun u => (face.glyph_from_name u).isSome)) := by
  obtain ⟨r, hr, he, hg⟩ :=
    post_parse_loop_tokens face (names.length + 1) [] names gids (Nat.lt_succ_self _)
  have hts : ∀ t ∈ tokens names, '\x00' ∉ t :=
    fun t ht hc => hnul (mem_tokens_chars names t ht _ hc)
  rw [resolve_names_eq face _ gids hts] at he hg
  exact ⟨r, hr, he, hg⟩

theorem expand_all_unicodes_frame (face : hb_face_t) (m : subset_main_t) :
    (expand_all_unicodes face m).glyph_names = m.glyph_names
      ∧ (expand_all_unicodes face m).input.glyphs = m.input.glyphs
      ∧ (expand_all_unicodes face m).all_unicodes = false := by
  unfold expand_all_unicodes
  by_cases h : m.all_unicodes = true
  · simp [h]
  · simp only [h, if_false]
    exact ⟨rfl, rfl, by simpa using h⟩

/-- The method `post_parse` on a pending buffer free of NUL: it returns, the
error names the first token the face does not know, the glyphs of the tokens
before it are added, and the buffer stays pending exactly when there is an
error. -/
theorem post_parse_names (face : hb_face_t) (m : subset_main_t) (names : CStr)
    (hnames : m.glyph_names = some names) (hnul : '\x00' ∉ names) :
    ∃ r, post_parse face m = some r
      ∧ r.error = ((tokens names).find? (fun u => (face.glyph_from_name u).isNone)).map
          GError.glyph_name_at
      ∧ r.state.input.glyphs = m.input.glyphs ∪ glyphs_of face
          ((tokens names).takeWhile (fun u => (face.glyph_from_name u).isSome))
      ∧ (r.error = none → r.state.glyph_names = none)
      ∧ (r.error ≠ none → r.state.glyph_names ≠ none) := by
  obtain ⟨hg, hgl, -⟩ := expand_all_unicodes_frame face m
  obtain ⟨l, hl, he, hgids⟩ :=
    post_parse_loop_names face names (expand_all_unicodes face m).input.glyphs hnul
  rw [hgl] at hgids
  unfold post_parse
  simp only [hg, hnames, hl]
  cases herr : l.error with
  | none =>
    refine ⟨_, rfl, ?_, ?_, fun _ => rfl, fun h => absurd rfl h⟩
    · rw [← he, herr]
    · simpa [put_glyphs] using hgids
  | some e =>
    refine ⟨_, rfl, ?_, ?_, fun h => ?_, fun _ => ?_⟩
    · rw [← he, herr]
    · simpa [put_glyphs] using hgids
    · simp at h
    · simp

/-- C11, as the code has it: a failed glyph-name resolution stops `post_parse`
at the first unresolved name.  For every pending buffer free of NUL and every
face that does not know some token of it, `post_parse` fails with the error
naming the first unresolved token; the glyph-ID set is then the prior set
united with the glyphs of the tokens in front of that token, no later token is
applied, and the buffer stays pending. -/
theorem post_parse_stops_at_unresolved (face : hb_face_t) (m : subset_main_t) (names : CStr)
    (hnames : m.glyph_names = some names) (hnul : '\x00' ∉ names)
    (hbad : ∃ t ∈ tokens names, face.glyph_from_name t = none) :
    ∃ r t, post_parse face m = some r
      ∧ (tokens names).find? (fun u => (face.glyph_from_name u).isNone) = some t
      ∧ r.error = some (.glyph_name_at t)
      ∧ r.state.input.glyphs = m.input.glyphs ∪ glyphs_of face
          ((tokens names).takeWhile (fun u => (face.glyph_from_name u).isSome))
      ∧ r.state.glyph_names ≠ none := by
  obtain ⟨r, hr, he, hg, -, hpending⟩ := post_parse_names face m names hnames hnul
  obtain ⟨t0, ht0, hnone⟩ := hbad
  cases hfind : (tokens names).find? (fun u => (face.glyph_from_name u).isNone) with
  | none =>
    have := List.find?_eq_none.1 hfind t0 ht0
    simp [hnone] at this
  | some t =>
    rw [hfind] at he
    exact ⟨r, t, hr, rfl, he, hg, hpending (by rw [he]; simp)⟩

/-- Witness of C11 as amended: the buffer "a zz bb" and the sample face, which
knows "a" and "bb" but not "zz". -/
theorem post_parse_stops_at_unresolved_witness :
    { blank_main with glyph_names := some "a zz bb".toList }.glyph_names
        = some "a zz bb".toList
      ∧ '\x00' ∉ "a zz bb".toList
      ∧ (∃ t ∈ tokens "a zz bb".toList, sample_face.glyph_from_name t = none)
      ∧ ∃ r t, post_parse sample_face { blank_main with glyph_names := some "a zz bb".toList }
            = some r
          ∧ (tokens "a zz bb".toList).find? (fun u => (sample_face.glyph_from_name u).isNone)
              = some t
          ∧ r.error = some (.glyph_name_at t)
          ∧ r.state.input.glyphs
              = { blank_main with glyph_names := some "a zz bb".toList }.input.glyphs
                ∪ glyphs_of sample_face ((tokens "a zz bb".toList).takeWhile
                    (fun u => (sample_face.glyph_from_name u).isSome))
          ∧ r.state.glyph_names ≠ none :=
  ⟨rfl, by decide, by decide,
    post_parse_stops_at_unresolved sample_face
      { blank_main with glyph_names := some "a zz bb".toList } "a zz bb".toList rfl
      (by decide) (by decide)⟩

/-- C11 as stated fails: on the buffer "a zz" the sample face resolves "a" to
glyph 5 and does not know "zz"; `post_parse` fails and glyph 5 is in the
glyph-ID set, which was empty before the call. -/
theorem post_parse_not_atomic :
    ∃ r ∈ post_parse sample_face { blank_main with glyph_names := some "a zz".toList },
      r.error = some (.glyph_name_at "zz".toList) ∧ r.state.input.glyphs = {5}
        ∧ r.state.input.glyphs ≠ blank_main.input.glyphs := by
  decide

theorem apply_each_parse_glyphs (name : CStr) (vs : List CStr) (m : subset_main_t)
    (names : CStr) (hnames : m.glyph_names = some names) :
    apply_each (parse_glyphs name) vs m
      = some { m with glyph_names := some (vs.foldl (fun acc v => acc ++ ' ' :: v) names) } := by
  induction vs generalizing m names with
  | nil =>
    cases m
    simp only at hnames
    simp [apply_each, hnames]
  | cons v vs ih =>
    simp only [apply_each, parse_glyphs, hnames]
    rw [ih _ (names ++ ' ' :: v) rfl]
    rfl

theorem foldl_space_eq_intercalate (v : CStr) (vs : List CStr) :
    vs.foldl (fun acc w => acc ++ ' ' :: w) v = List.intercalate [' '] (v :: vs) := by
  induction vs generalizing v with
  | nil => simp [List.intercalate]
  | cons w vs ih =>
    rw [List.foldl_cons, ih, intercalate_space_cons]
    cases vs with
    | nil => simp [List.intercalate]
    | cons x r =>
      rw [intercalate_space_cons, intercalate_space_cons]
      simp

theorem not_mem_intercalate_space (c : Char) (vs : List CStr) (hc : c ≠ ' ')
    (h : ∀ v ∈ vs, c ∉ v) : c ∉ List.intercalate [' '] vs := by
  induction vs with
  | nil => simp [List.intercalate]
  | cons v rest ih =>
    cases rest with
    | nil =>
      simpa [List.intercalate] using h v (List.mem_cons_self _ _)
    | cons w rest =>
      rw [intercalate_space_cons]
      intro hmem
      rcases List.mem_append.1 hmem with hm | hm
      · exact h v (List.mem_cons_self _ _) hm
      · rcases List.mem_cons.1 hm with hm | hm
        · exact hc hm
        · exact ih (fun u hu => h u (List.mem_cons_of_mem _ hu)) hm

/-- C12: glyph-name directives concatenate and resolve at finalize.  Starting
with no pending buffer, the glyph-name directive applied to the values
v1, ..., vn (n at least 1) leaves the buffer v1 ++ " " ++ ... ++ " " ++ vn and
changes nothing else; and for every face that knows every space/comma-separated
token of the values, `post_parse` then succeeds, the glyph-ID set becomes the
prior set united with the glyphs of those tokens, and the buffer is no longer
pending. -/
theorem glyph_names_concatenate_and_resolve (name : CStr) (vs : List CStr) (m : subset_main_t)
    (face : hb_face_t) (hnone : m.glyph_names = none) (hvs : vs ≠ [])
    (hnul : ∀ v ∈ vs, '\x00' ∉ v)
    (hres : ∀ v ∈ vs, ∀ t ∈ tokens v, (face.glyph_from_name t).isSome) :
    apply_each (parse_glyphs name) vs m
        = some { m with glyph_names := some (List.intercalate [' '] vs) }
      ∧ ∃ r, post_parse face { m with glyph_names := some (List.intercalate [' '] vs) } = some r
          ∧ r.error = none
          ∧ r.state.input.glyphs
              = m.input.glyphs ∪ glyphs_of face ((vs.map tokens).flatten)
          ∧ r.state.glyph_names = none := by
  cases vs with
  | nil => exact absurd rfl hvs
  | cons v rest =>
    constructor
    · simp only [apply_each, parse_glyphs, hnone]
      rw [apply_each_parse_glyphs name rest _ v rfl, foldl_space_eq_intercalate]
    · have hnul2 : '\x00' ∉ List.intercalate [' '] (v :: rest) :=
        not_mem_intercalate_space '\x00' (v :: rest) (by decide) hnul
      obtain ⟨r, hr, he, hg, hdone, -⟩ :=
        post_parse_names face { m with glyph_names := some (List.intercalate [' '] (v :: rest)) }
          _ rfl hnul2
      have hall : ∀ t ∈ tokens (List.intercalate [' '] (v :: rest)),
          (face.glyph_from_name t).isSome := by
        intro t ht
        rw [tokens_intercalate] at ht
        obtain ⟨l, hl, htl⟩ := List.mem_flatten.1 ht
        obtain ⟨v0, hv0, rfl⟩ := List.mem_map.1 hl
        exact hres v0 hv0 t htl
      have hfind : (tokens (List.intercalate [' '] (v :: rest))).find?
          (fun u => (face.glyph_from_name u).isNone) = none := by
        rw [List.find?_eq_none]
        intro t ht
        have := hall t ht
        simp only [Option.isNone_iff_eq_none]
        intro hh
        rw [hh] at this
        exact absurd this (by simp)
      have htake : (tokens (List.intercalate [' '] (v :: rest))).takeWhile
          (fun u => (face.glyph_from_name u).isSome)
            = tokens (List.intercalate [' '] (v :: rest)) := by
        rw [List.takeWhile_eq_self_iff]
        exact hall
      rw [hfind] at he
      rw [htake, tokens_intercalate] at hg
      exact ⟨r, hr, he, hg, hdone he⟩

/-- Witness of C12: the values "a" and "bb,a" with the sample face, on a
glyph-ID set that holds 3. -/
theorem glyph_names_concatenate_and_resolve_witness :
    (put_glyphs blank_main {3}).glyph_names = none
      ∧ ["a".toList, "bb,a".toList] ≠ []
      ∧ (∀ v ∈ ["a".toList, "bb,a".toList], '\x00' ∉ v)
      ∧ (∀ v ∈ ["a".toList, "bb,a".toList], ∀ t ∈ tokens v,
          (sample_face.glyph_from_name t).isSome)
      ∧ List.intercalate [' '] ["a".toList, "bb,a".toList] = "a bb,a".toList
      ∧ glyphs_of sample_face ((["a".toList, "bb,a".toList].map tokens).flatten) = {5, 6}
      ∧ apply_each (parse_glyphs "glyphs".toList) ["a".toList, "bb,a".toList]
            (put_glyphs blank_main {3})
          = some { put_glyphs blank_main {3} with
                   glyph_names := some (List.intercalate [' '] ["a".toList, "bb,a".toList]) }
      ∧ ∃ r, post_parse sample_face
              { put_glyphs blank_main {3} with
                glyph_names := some (List.intercalate [' '] ["a".toList, "bb,a".toList]) }
            = some r
          ∧ r.error = none
          ∧ r.state.input.glyphs
              = (put_glyphs blank_main {3}).input.glyphs
                ∪ glyphs_of sample_face ((["a".toList, "bb,a".toList].map tokens).flatten)
          ∧ r.state.glyph_names = none :=
  ⟨rfl, by decide, by decide, by decide, by decide, by decide,
    (glyph_names_concatenate_and_resolve "glyphs".toList ["a".toList, "bb,a".toList]
      (put_glyphs blank_main {3}) sample_face rfl (by decide) (by decide) (by decide)).1,
    (glyph_names_concatenate_and_resolve "glyphs".toList ["a".toList, "bb,a".toList]
      (put_glyphs blank_main {3}) sample_face rfl (by decide) (by decide) (by decide)).2⟩

/-- With no wildcard armed and no buffer pending `post_parse` does nothing. -/
theorem post_parse_nothing_pending (face : hb_face_t) (m : subset_main_t)
    (h1 : m.all_unicodes = false) (h2 : m.glyph_names = none) :
    post_parse face m = some { error := none, state := m } := by
  simp [post_parse, expand_all_unicodes, h1, h2]

/-- C13: finalize is idempotent once it has succeeded.  If `post_parse`
returns without an error, the face-bound wildcard is no longer armed and no
glyph-name buffer is pending, and `post_parse` called again, with any face,
returns without an error and leaves the state exactly as the first call left
it. -/
theorem post_parse_idempotent (face : hb_face_t) (m : subset_main_t) (r : Post)
    (h : post_parse face m = some r) (hok : r.error = none) :
    r.state.all_unicodes = false ∧ r.state.glyph_names = none
      ∧ ∀ face2 : hb_face_t, post_parse face2 r.state = some { error := none, state := r.state } := by
  obtain ⟨-, -, hall⟩ := expand_all_unicodes_frame face m
  have key : r.state.all_unicodes = false ∧ r.state.glyph_names = none := by
    unfold post_parse at h
    simp only at h
    cases hn : (expand_all_unicodes face m).glyph_names with
    | none =>
      rw [hn] at h
      simp only [Option.some.injEq] at h
      rw [← h]
      exact ⟨hall, hn⟩
    | some names =>
      rw [hn] at h
      simp only at h
      cases hl : post_parse_loop face (names.length + 1) [] names
          (expand_all_unicodes face m).input.glyphs with
      | none =>
        rw [hl] at h
        exact absurd h (by simp)
      | some l =>
        rw [hl] at h
        simp only at h
        cases he : l.error with
        | some e =>
          rw [he] at h
          simp only [Option.some.injEq] at h
          rw [← h] at hok
          exact absurd hok (by simp)
        | none =>
          rw [he] at h
          simp only [Option.some.injEq] at h
          rw [← h]
          exact ⟨hall, rfl⟩
  exact ⟨key.1, key.2, fun face2 => post_parse_nothing_pending face2 r.state key.1 key.2⟩

/-- Witness of C13: the wildcard armed and the buffer "a bb" pending, with the
sample face; the second call is made with a face that knows nothing. -/
theorem post_parse_idempotent_witness :
    ∃ r, post_parse sample_face
            { blank_main with all_unicodes := true, glyph_names := some "a bb".toList } = some r
      ∧ r.error = none
      ∧ r.state.input.glyphs = {5, 6} ∧ r.state.input.unicodes = {0x41, 0x42}
      ∧ r.state.all_unicodes = false ∧ r.state.glyph_names = none
      ∧ ∀ face2 : hb_face_t,
          post_parse face2 r.state = some { error := none, state := r.state } :=
  ⟨_, rfl, by decide, by decide, by decide,
    post_parse_idempotent sample_face
      { blank_main with all_unicodes := true, glyph_names := some "a bb".toList } _ rfl
      (by decide)⟩

/-! ## Explicit layout-feature lists -/

/-- C20: an explicit layout-feature list never touches the flags.  For every
name and every value other than the wildcard, `parse_layout_features` returns,
with success or failure, and leaves the flag word as it was; so the
retain-all-features flag set by a wildcard under a name that does not end in
'-' is still set after a later directive with an explicit list, also under a
name without suffix. -/
theorem layout_features_list_keeps_flags (RETAIN_ALL_FEATURES : Nat) (name arg : CStr)
    (m : subset_main_t) (harg : arg ≠ "*".toList) :
    (∃ r, parse_layout_features RETAIN_ALL_FEATURES name arg m = some r
        ∧ r.state.input.flags = m.input.flags)
      ∧ ∀ name0 : CStr, name0.getLast? ≠ some '-' →
        ∃ r0 r1, parse_layout_features RETAIN_ALL_FEATURES name0 "*".toList m = some r0
          ∧ parse_layout_features RETAIN_ALL_FEATURES name arg r0.state = some r1
          ∧ r1.state.input.flags = r0.state.input.flags
          ∧ ∀ i, RETAIN_ALL_FEATURES.testBit i = true →
              r1.state.input.flags.testBit i = true := by
  have key : ∀ m0 : subset_main_t,
      ∃ r, parse_layout_features RETAIN_ALL_FEATURES name arg m0 = some r
        ∧ r.state.input.flags = m0.input.flags :=
    fun m0 => ⟨_, parse_layout_features_tokens _ name arg m0 harg, rfl⟩
  refine ⟨key m, fun name0 h0 => ?_⟩
  by_cases hp : name0.getLast? = some '+'
  · obtain ⟨r1, hr1, hf1⟩ := key
      { m with input := { m.input with layout_features := m.input.layout_features,
                                       flags := m.input.flags ||| RETAIN_ALL_FEATURES } }
    refine ⟨_, r1, parse_layout_features_star_plus _ name0 m hp, hr1, hf1, fun i hi => ?_⟩
    rw [hf1]
    simp [testBit_set_flag, hi]
  · obtain ⟨r1, hr1, hf1⟩ := key
      { m with input := { m.input with layout_features := ∅,
                                       flags := m.input.flags ||| RETAIN_ALL_FEATURES } }
    refine ⟨_, r1, parse_layout_features_star_plain _ name0 m hp h0, hr1, hf1, fun i hi => ?_⟩
    rw [hf1]
    simp [testBit_set_flag, hi]

/-- Witness of C20: the list "liga,toolong,kern" (which fails) and the list
"liga" after a wildcard, under the name "layout-features", the flag at bit 7. -/
theorem layout_features_list_keeps_flags_witness :
    "liga,toolong,kern".toList ≠ "*".toList
      ∧ "layout-features".toList.getLast? ≠ some '-'
      ∧ (∃ r, parse_layout_features 128 "layout-features".toList "liga,toolong,kern".toList
              sample_main = some r
          ∧ r.state.input.flags = sample_main.input.flags)
      ∧ ∃ r0 r1, parse_layout_features 128 "layout-features".toList "*".toList blank_main
            = some r0
          ∧ parse_layout_features 128 "layout-features".toList "liga".toList r0.state = some r1
          ∧ r1.state.input.flags = r0.state.input.flags
          ∧ ∀ i, Nat.testBit 128 i = true → r1.state.input.flags.testBit i = true :=
  ⟨by decide, by decide,
    (layout_features_list_keeps_flags 128 "layout-features".toList
      "liga,toolong,kern".toList sample_main (by decide)).1,
    (layout_features_list_keeps_flags 128 "layout-features".toList "liga".toList blank_main
      (by decide)).2 "layout-features".toList (by decide)⟩

/-! ## The Unicode directive on hexadecimal lists -/

theorem digit_in_sixteen {c : Char} (h : is_hex_digit c) :
    digit_in 16 c = some (hex_digit_value c) := by
  unfold is_hex_digit at h
  unfold digit_in digit_value hex_digit_value
  simp only
  rcases h with h | h | h
  · have h1 : c.toNat - 48 < 16 := by omega
    simp [h, h1]
  · have h0 : ¬ (48 ≤ c.toNat ∧ c.toNat ≤ 57) := by omega
    have h1 : 97 ≤ c.toNat ∧ c.toNat ≤ 122 := by omega
    have h2 : c.toNat - 87 < 16 := by omega
    have h3 : ¬ c.toNat ≤ 57 := by omega
    simp [h0, h1, h2, h3, h.1]
  · have h0 : ¬ (48 ≤ c.toNat ∧ c.toNat ≤ 57) := by omega
    have h1 : ¬ (97 ≤ c.toNat ∧ c.toNat ≤ 122) := by omega
    have h2 : 65 ≤ c.toNat ∧ c.toNat ≤ 90 := by omega
    have h3 : c.toNat - 55 < 16 := by omega
    have h4 : ¬ c.toNat ≤ 57 := by omega
    have h5 : ¬ 97 ≤ c.toNat := by omega
    simp [h0, h1, h2, h3, h4, h5]

theorem hex_ne {c d : Char} (h : is_hex_digit c) (hd : ¬ is_hex_digit d) : c ≠ d := by
  rintro rfl
  exact hd h

theorem hex_not_space {c : Char} (h : is_hex_digit c) : isspace c = false := by
  have h1 := hex_ne h (d := ' ') (by decide)
  have h2 := hex_ne h (d := '\t') (by decide)
  have h3 := hex_ne h (d := '\n') (by decide)
  have h4 := hex_ne h (d := '\x0b') (by decide)
  have h5 := hex_ne h (d := '\x0c') (by decide)
  have h6 := hex_ne h (d := '\r') (by decide)
  simp [isspace, h1, h2, h3, h4, h5, h6]

theorem hex_not_delimiter {c : Char} (h : is_hex_digit c) : strchr DELIMITERS c = false := by
  have hall : ∀ d ∈ DELIMITERS, ¬ is_hex_digit d := by decide
  by_contra hc
  have hmem : c ∈ DELIMITERS := by
    have : strchr DELIMITERS c = true := by simpa using hc
    simpa [strchr] using this
  exact hall c hmem h

theorem delim_is_delimiter {c : Char} (h : c = ',' ∨ c = ' ') : strchr DELIMITERS c = true := by
  rcases h with rfl | rfl <;> decide

theorem delim_not_hex {c : Char} (h : c = ',' ∨ c = ' ') : digit_in 16 c = none := by
  rcases h with rfl | rfl <;> decide

/-- Skipping a run of characters that the predicate accepts. -/
theorem dropWhile_run (p : Char → Bool) (run rest : CStr) (hrun : ∀ c ∈ run, p c = true)
    (hrest : ∀ c ∈ rest.head?, p c = false) : (run ++ rest).dropWhile p = rest := by
  induction run with
  | nil =>
    cases rest with
    | nil => rfl
    | cons c cs =>
      have h := hrest c (by simp)
      simp only [List.nil_append, List.dropWhile, h]
  | cons d ds ih =>
    have hd : p d = true := hrun d (List.mem_cons_self _ _)
    simp only [List.cons_append, List.dropWhile, hd]
    exact ih (fun c hc => hrun c (List.mem_cons_of_mem _ hc))

theorem strtoul_digits_hex (ds rest : CStr) (acc : Nat) (hds : ∀ c ∈ ds, is_hex_digit c)
    (hrest : ∀ c ∈ rest.head?, digit_in 16 c = none) :
    strtoul_digits 16 (ds ++ rest) acc
      = (ds.foldl (fun acc c => acc * 16 + hex_digit_value c) acc, rest) := by
  induction ds generalizing acc with
  | nil =>
    cases rest with
    | nil => simp [strtoul_digits]
    | cons c cs =>
      have := hrest c (by simp)
      simp [strtoul_digits, this]
  | cons d ds ih =>
    have hd := digit_in_sixteen (hds d (List.mem_cons_self _ _))
    simp only [List.cons_append, strtoul_digits, hd, List.foldl_cons]
    exact ih _ (fun c hc => hds c (List.mem_cons_of_mem _ hc))

theorem strtoul_radix_keep (base : Nat) (s : CStr)
    (h : ∀ c ∈ s.tail.head?, c ≠ 'x' ∧ c ≠ 'X') : strtoul_radix base s = s := by
  unfold strtoul_radix
  split
  · rename_i z x hh t
    have := h x (by simp)
    simp [this.1, this.2]
  · rfl

/-- The function `strtoul` once the sign and the radix mark are dealt with:
no minus sign, a digit in front, and the run of digits within range. -/
theorem strtoul_of_digits (nptr : CStr) (base : Nat) (c : Char) (tl : CStr) (v : Nat)
    (rest : CStr)
    (hsign : (strtoul_sign (nptr.dropWhile isspace)).1 = false)
    (hs : strtoul_radix base (strtoul_sign (nptr.dropWhile isspace)).2 = c :: tl)
    (hdig : (digit_in base c).isNone = false)
    (hrun : strtoul_digits base (c :: tl) 0 = (v, rest)) (hv : ¬ v > ULONG_MAX) :
    strtoul nptr base = { value := v, endptr := rest, erange := false } := by
  unfold strtoul
  simp only [hs, hsign, hdig, hrun, hv, if_false, Bool.false_eq_true]

/-- The function `strtoul` in base 16 on the number part of a valid item. -/
theorem strtoul_hex_item (item : CodepointItem) (rest : CStr) (hitem : item.valid)
    (hrest : at_delim rest) :
    strtoul (item.number ++ rest) 16
      = { value := hex_value item.digits, endptr := rest, erange := false } := by
  obtain ⟨⟨hne, hall⟩, hv⟩ := hitem
  have hstop : ∀ c ∈ rest.head?, digit_in 16 c = none := fun c hc => delim_not_hex (hrest c hc)
  have hrun := strtoul_digits_hex item.digits rest 0 hall hstop
  have hle : ¬ (hex_value item.digits > ULONG_MAX) := by
    have := le_ulong hv
    omega
  cases hds : item.digits with
  | nil => exact absurd hds hne
  | cons d t =>
    have hd : is_hex_digit d := hall d (by rw [hds]; exact List.mem_cons_self _ _)
    have hsp := hex_not_space hd
    have hm := hex_ne hd (d := '-') (by decide)
    have hp := hex_ne hd (d := '+') (by decide)
    have hdig : (digit_in 16 d).isNone = false := by
      rw [digit_in_sixteen hd]
      rfl
    rw [hds] at hrun hle
    simp only [List.cons_append] at hrun
    by_cases hw : item.written = Written.zero_x
    · have hnum : item.number = '0' :: 'x' :: d :: t := by
        simp [CodepointItem.number, hw, hds]
      rw [hnum]
      have hdrop : ('0' :: 'x' :: d :: t ++ rest).dropWhile isspace
          = '0' :: 'x' :: d :: (t ++ rest) := by
        have hz : isspace '0' = false := by decide
        simp only [List.cons_append, List.dropWhile, hz]
        rfl
      have hsg : strtoul_sign ('0' :: 'x' :: d :: (t ++ rest))
          = (false, '0' :: 'x' :: d :: (t ++ rest)) := by
        have h0m : ('0' : Char) ≠ '-' := by decide
        have h0p : ('0' : Char) ≠ '+' := by decide
        simp only [strtoul_sign, h0m, h0p, if_false]
      have hrad : strtoul_radix 16 ('0' :: 'x' :: d :: (t ++ rest)) = d :: (t ++ rest) := by
        simp [strtoul_radix, digit_in_sixteen hd]
      exact strtoul_of_digits _ 16 d (t ++ rest) _ rest (by rw [hdrop, hsg])
        (by rw [hdrop, hsg]; exact hrad) hdig hrun hle
    · have hnum : item.number = d :: t := by
        cases hwr : item.written with
        | zero_x => exact absurd hwr hw
        | plain => simp [CodepointItem.number, hwr, hds]
        | u_plus => simp [CodepointItem.number, hwr, hds]
      rw [hnum]
      have hdrop : (d :: t ++ rest).dropWhile isspace = d :: (t ++ rest) := by
        simp only [List.cons_append, List.dropWhile, hsp]
        rfl
      have hsg : strtoul_sign (d :: (t ++ rest)) = (false, d :: (t ++ rest)) := by
        simp only [strtoul_sign, hm, hp, if_false]
      have hrad : strtoul_radix 16 (d :: (t ++ rest)) = d :: (t ++ rest) := by
        apply strtoul_radix_keep
        intro c hc
        cases t with
        | nil =>
          simp only [List.nil_append, List.tail_cons, Option.mem_def] at hc
          have hcd := hrest c hc
          rcases hcd with rfl | rfl <;> decide
        | cons e t2 =>
          simp only [List.cons_append, List.tail_cons, List.head?_cons, Option.mem_def,
            Option.some.injEq] at hc
          subst hc
          have he : is_hex_digit e := hall e (by rw [hds]; simp)
          exact ⟨hex_ne he (by decide), hex_ne he (by decide)⟩
      exact strtoul_of_digits _ 16 d (t ++ rest) _ rest (by rw [hdrop, hsg])
        (by rw [hdrop, hsg]; exact hrad) hdig hrun hle

theorem CodepointItem.number_head {item : CodepointItem} (h : item.valid) :
    ∃ d t, item.number = d :: t ∧ is_hex_digit d := by
  obtain ⟨⟨hne, hall⟩, -⟩ := h
  cases hds : item.digits with
  | nil => exact absurd hds hne
  | cons d t =>
    cases hw : item.written with
    | zero_x => exact ⟨'0', 'x' :: d :: t, by simp [CodepointItem.number, hw, hds], by decide⟩
    | plain =>
      exact ⟨d, t, by simp [CodepointItem.number, hw, hds],
        hall d (by rw [hds]; exact List.mem_cons_self _ _)⟩
    | u_plus =>
      exact ⟨d, t, by simp [CodepointItem.number, hw, hds],
        hall d (by rw [hds]; exact List.mem_cons_self _ _)⟩

theorem CodepointItem.lead_delimiters (item : CodepointItem) :
    ∀ c ∈ item.lead, strchr DELIMITERS c = true := by
  intro c hc
  cases hw : item.written with
  | u_plus =>
    simp only [CodepointItem.lead, hw] at hc
    have hl : "U+".toList = ['U', '+'] := rfl
    rw [hl] at hc
    simp only [List.mem_cons, List.mem_singleton, List.not_mem_nil, or_false] at hc
    rcases hc with rfl | rfl <;> decide
  | plain => simp [CodepointItem.lead, hw] at hc
  | zero_x => simp [CodepointItem.lead, hw] at hc

/-- One turn of the `parse_unicodes` loop over a valid item. -/
theorem parse_unicodes_loop_item (fuel : Nat) (sep rest : CStr) (item : CodepointItem)
    (codepoints : hb_set_t) (hsep : delim_run sep) (hitem : item.valid) (hrest : at_delim rest) :
    parse_unicodes_loop (fuel + 1) (sep ++ (item.text ++ rest)) codepoints
      = parse_unicodes_loop fuel rest (hb_set_add codepoints (hex_value item.digits)) := by
  obtain ⟨d, t, hnum, hd⟩ := CodepointItem.number_head hitem
  have htext : sep ++ (item.text ++ rest) = (sep ++ item.lead) ++ (item.number ++ rest) := by
    simp [CodepointItem.text]
  have hskip : (sep ++ (item.text ++ rest)).dropWhile (strchr DELIMITERS)
      = item.number ++ rest := by
    rw [htext]
    apply dropWhile_run
    · intro c hc
      rcases List.mem_append.1 hc with hc | hc
      · exact delim_is_delimiter (hsep c hc)
      · exact item.lead_delimiters c hc
    · intro c hc
      simp only [hnum, List.cons_append, List.head?_cons, Option.mem_def,
        Option.some.injEq] at hc
      subst hc
      exact hex_not_delimiter hd
  have hne : sep ++ (item.text ++ rest) ≠ [] := by
    rw [htext, hnum]
    simp
  have hne2 : item.number ++ rest ≠ [] := by
    rw [hnum]
    simp
  have hs := strtoul_hex_item item rest hitem hrest
  have hlen : ¬ (item.number ++ rest).length = rest.length := by
    rw [hnum]
    simp only [List.cons_append, List.length_cons, List.length_append]
    omega
  rw [parse_unicodes_loop]
  simp only [hne, hskip, hne2, if_false, hs, hlen, Bool.false_eq_true, or_self,
    to_codepoint_small hitem.2]

/-- The `parse_unicodes` loop over a run of valid items. -/
theorem parse_unicodes_loop_items (parts : List (CStr × CodepointItem)) (fuel : Nat)
    (tail : CStr) (codepoints : hb_set_t) (hsep : separators_ok (parts.map Prod.fst))
    (hvalid : ∀ p ∈ parts, p.2.valid) (htail : at_delim tail) :
    parse_unicodes_loop (parts.length + fuel) (joined (codepoint_parts parts) ++ tail) codepoints
      = parse_unicodes_loop fuel tail (codepoints ∪ codepoints_of parts) := by
  induction parts generalizing codepoints with
  | nil => simp [codepoint_parts, joined, codepoints_of]
  | cons p ps ih =>
    obtain ⟨sep, item⟩ := p
    obtain ⟨hsep_ps, hne_ps⟩ := separators_ok_tail hsep
    have hrest : at_delim (joined (codepoint_parts ps) ++ tail) :=
      joined_at_delim _ _
        (fun q hq => by
          simp only [codepoint_parts, List.mem_map] at hq
          obtain ⟨q0, hq0, rfl⟩ := hq
          exact hsep_ps.1 q0.1 (List.mem_map_of_mem Prod.fst hq0))
        (fun q hq => by
          simp only [codepoint_parts, List.mem_map] at hq
          obtain ⟨q0, hq0, rfl⟩ := hq
          exact hne_ps q0.1 (List.mem_map_of_mem Prod.fst hq0)) htail
    have htext : joined (codepoint_parts ((sep, item) :: ps)) ++ tail
        = sep ++ (item.text ++ (joined (codepoint_parts ps) ++ tail)) := by
      simp [codepoint_parts, joined]
    have hfuel : ((sep, item) :: ps).length + fuel = (ps.length + fuel) + 1 := by
      simp only [List.length_cons]
      omega
    rw [htext, hfuel,
      parse_unicodes_loop_item _ sep _ item codepoints (hsep.1 sep (List.mem_cons_self _ _))
        (hvalid (sep, item) (List.mem_cons_self _ _)) hrest,
      ih _ hsep_ps (fun q hq => hvalid q (List.mem_cons_of_mem _ hq))]
    congr 1
    ext x
    simp only [hb_set_add, codepoints_of, List.map_cons, List.toFinset_cons, Finset.mem_union,
      Finset.mem_insert]
    tauto

/-- The `parse_unicodes` loop stops cleanly on a run of ',' and ' '. -/
theorem parse_unicodes_loop_trail (fuel : Nat) (trail : CStr) (codepoints : hb_set_t)
    (htrail : delim_run trail) :
    parse_unicodes_loop (fuel + 1) trail codepoints
      = some { ret := true, error := none, state := codepoints } := by
  have h : trail.dropWhile (strchr DELIMITERS) = [] := by
    have := dropWhile_run (strchr DELIMITERS) trail []
      (fun c hc => delim_is_delimiter (htrail c hc)) (by simp)
    simpa using this
  rw [parse_unicodes_loop]
  by_cases ht : trail = []
  · simp only [ht, if_true]
  · simp only [ht, h, if_false, if_true]

theorem codepoint_text_ne_nil {item : CodepointItem} (h : item.valid) : item.text ≠ [] := by
  obtain ⟨d, t, hnum, -⟩ := CodepointItem.number_head h
  simp [CodepointItem.text, hnum]

/-- A written-out codepoint list has no '*' in it. -/
theorem codepoint_list_no_star (parts : List (CStr × CodepointItem)) (trail : CStr)
    (hsep : separators_ok (parts.map Prod.fst)) (htrail : delim_run trail)
    (hvalid : ∀ p ∈ parts, p.2.valid) :
    '*' ∉ joined (codepoint_parts parts) ++ trail := by
  have hitem : ∀ item : CodepointItem, item.valid → '*' ∉ item.text := by
    intro item hv hmem
    simp only [CodepointItem.text, List.mem_append] at hmem
    rcases hmem with hm | hm
    · have := item.lead_delimiters _ hm
      revert this
      decide
    · cases hw : item.written with
      | zero_x =>
        simp only [CodepointItem.number, hw, List.mem_cons] at hm
        rcases hm with hm | hm | hm
        · revert hm
          decide
        · revert hm
          decide
        · exact hex_ne (hv.1.2 _ hm) (by decide) rfl
      | plain =>
        simp only [CodepointItem.number, hw] at hm
        exact hex_ne (hv.1.2 _ hm) (by decide) rfl
      | u_plus =>
        simp only [CodepointItem.number, hw] at hm
        exact hex_ne (hv.1.2 _ hm) (by decide) rfl
  have hrun : ∀ run : CStr, delim_run run → '*' ∉ run := by
    intro run hr hmem
    rcases hr _ hmem with h | h <;> revert h <;> decide
  induction parts with
  | nil => simpa [codepoint_parts, joined] using hrun trail htrail
  | cons p ps ih =>
    obtain ⟨sep, item⟩ := p
    obtain ⟨hsep_ps, -⟩ := separators_ok_tail hsep
    intro hmem
    simp only [codepoint_parts, List.map_cons, joined, List.append_assoc,
      List.mem_append] at hmem
    rcases hmem with hm | hm | hm
    · exact hrun sep (hsep.1 sep (List.mem_cons_self _ _)) hm
    · exact hitem item (hvalid (sep, item) (List.mem_cons_self _ _)) hm
    · exact ih hsep_ps (fun q hq => hvalid q (List.mem_cons_of_mem _ hq))
        (by simp only [codepoint_parts, List.mem_append]; exact hm)

/-- C18: the Unicode directive tolerates copy-pasted codepoint notations.  For
every list of codepoints below `2 ^ 32`, each written as one or more hex
digits in either case, bare or after "U+" or after "0x", with non-empty runs
of ',' and ' ' between the items and optional runs before and after,
`parse_unicodes` succeeds and the Unicode set of the state it returns is
exactly the prior set united with the listed codepoints: a codepoint is in it
if and only if it was in the prior set or is the value of one of the items.
No other field of the state changes. -/
theorem parse_unicodes_notations (name : CStr) (parts : List (CStr × CodepointItem))
    (trail : CStr) (m : subset_main_t) (hsep : separators_ok (parts.map Prod.fst))
    (htrail : delim_run trail) (hvalid : ∀ p ∈ parts, p.2.valid) :
    ∃ r, parse_unicodes name (joined (codepoint_parts parts) ++ trail) m = some r
      ∧ r.ret = true ∧ r.error = none
      ∧ r.state.input.unicodes = m.input.unicodes ∪ codepoints_of parts
      ∧ (∀ g, g ∈ r.state.input.unicodes ↔
          g ∈ m.input.unicodes ∨ ∃ p ∈ parts, g = hex_value p.2.digits)
      ∧ r.state = { m with input := { m.input with unicodes := r.state.input.unicodes } } := by
  have hstar : joined (codepoint_parts parts) ++ trail ≠ "*".toList := by
    intro heq
    have := codepoint_list_no_star parts trail hsep htrail hvalid
    rw [heq] at this
    exact this (by decide)
  have hlen : parts.length ≤ (joined (codepoint_parts parts)).length :=
    le_trans (by simp [codepoint_parts])
      (joined_length_le (codepoint_parts parts) (fun p hp => by
        simp only [codepoint_parts, List.mem_map] at hp
        obtain ⟨q, hq, rfl⟩ := hp
        exact codepoint_text_ne_nil (hvalid q hq)))
  obtain ⟨k, hk⟩ : ∃ k, (joined (codepoint_parts parts) ++ trail).length + 1
      = parts.length + (k + 1) :=
    ⟨(joined (codepoint_parts parts) ++ trail).length - parts.length, by
      simp only [List.length_append]
      omega⟩
  have hrun : parse_unicodes name (joined (codepoint_parts parts) ++ trail) m
      = some { ret := true, error := none,
               state := put_unicodes m (m.input.unicodes ∪ codepoints_of parts) } := by
    unfold parse_unicodes
    rw [if_neg hstar, hk,
      parse_unicodes_loop_items parts (k + 1) trail _ hsep hvalid (delim_run_at_delim htrail),
      parse_unicodes_loop_trail k trail _ htrail]
    rfl
  refine ⟨_, hrun, rfl, rfl, rfl, fun g => ?_, rfl⟩
  show g ∈ m.input.unicodes ∪ codepoints_of parts ↔ _
  simp only [codepoints_of, Finset.mem_union, List.mem_toFinset, List.mem_map]
  constructor
  · rintro (h | ⟨p, hp, rfl⟩)
    · exact Or.inl h
    · exact Or.inr ⟨p, hp, rfl⟩
  · rintro (h | ⟨p, hp, rfl⟩)
    · exact Or.inl h
    · exact Or.inr ⟨p, hp, rfl⟩

/-- Witness of C18: the value "U+0042,0x43 44, U+1f600" on the sample state,
whose Unicode set holds 0x41, leaves the Unicode set 0x41, 0x42, 0x43, 0x44,
0x1F600 and the glyph-ID set as it was. -/
theorem parse_unicodes_notations_witness :
    separators_ok ([("".toList, CodepointItem.mk .u_plus "0042".toList),
        (",".toList, CodepointItem.mk .zero_x "43".toList),
        (" ".toList, CodepointItem.mk .plain "44".toList),
        (", ".toList, CodepointItem.mk .u_plus "1f600".toList)].map Prod.fst)
      ∧ delim_run "".toList
      ∧ (∀ p ∈ [("".toList, CodepointItem.mk .u_plus "0042".toList),
          (",".toList, CodepointItem.mk .zero_x "43".toList),
          (" ".toList, CodepointItem.mk .plain "44".toList),
          (", ".toList, CodepointItem.mk .u_plus "1f600".toList)], p.2.valid)
      ∧ sample_main.input.unicodes = {0x41}
      ∧ (∃ r ∈ parse_unicodes "unicodes".toList "U+0042,0x43 44, U+1f600".toList sample_main,
          r.ret = true ∧ r.error = none
            ∧ r.state.input.unicodes = {0x41, 0x42, 0x43, 0x44, 0x1F600}
            ∧ r.state.input.glyphs = {3} ∧ r.state.all_unicodes = false)
      ∧ ∃ r, parse_unicodes "unicodes".toList "U+0042,0x43 44, U+1f600".toList sample_main
            = some r
          ∧ r.ret = true ∧ r.error = none
          ∧ r.state.input.unicodes = sample_main.input.unicodes
              ∪ codepoints_of [("".toList, CodepointItem.mk .u_plus "0042".toList),
                  (",".toList, CodepointItem.mk .zero_x "43".toList),
                  (" ".toList, CodepointItem.mk .plain "44".toList),
                  (", ".toList, CodepointItem.mk .u_plus "1f600".toList)]
          ∧ (∀ g, g ∈ r.state.input.unicodes ↔
              g ∈ sample_main.input.unicodes
                ∨ ∃ p ∈ [("".toList, CodepointItem.mk .u_plus "0042".toList),
                    (",".toList, CodepointItem.mk .zero_x "43".toList),
                    (" ".toList, CodepointItem.mk .plain "44".toList),
                    (", ".toList, CodepointItem.mk .u_plus "1f600".toList)],
                  g = hex_value p.2.digits)
          ∧ r.state = { sample_main with
              input := { sample_main.input with unicodes := r.state.input.unicodes } } :=
  ⟨by decide, by decide, by decide, by decide, by decide,
    parse_unicodes_notations "unicodes".toList
      [("".toList, CodepointItem.mk .u_plus "0042".toList),
        (",".toList, CodepointItem.mk .zero_x "43".toList),
        (" ".toList, CodepointItem.mk .plain "44".toList),
        (", ".toList, CodepointItem.mk .u_plus "1f600".toList)]
      "".toList sample_main (by decide) (by decide) (by decide)⟩

/-! ## Batch files -/

theorem c_str_no_nul {s : CStr} (h : '\x00' ∉ s) : c_str s = s :=
  takeWhile_no_nul h

/-- What one `fgets` takes: the pieces make up the stream, and either the
chunk ends at a newline, or the buffer is full, or the file has ended. -/
theorem fgets_read_spec (room : Nat) (s : CStr) :
    (fgets_read room s).1 ++ (fgets_read room s).2.1 = s
      ∧ ((∃ pre, (fgets_read room s).1 = pre ++ ['\n'] ∧ '\n' ∉ pre
            ∧ (fgets_read room s).2.2 = false)
        ∨ ('\n' ∉ (fgets_read room s).1 ∧ (fgets_read room s).1.length = room
            ∧ (fgets_read room s).2.2 = false)
        ∨ ('\n' ∉ (fgets_read room s).1 ∧ (fgets_read room s).2.1 = []
            ∧ (fgets_read room s).2.2 = true)) := by
  induction room generalizing s with
  | zero => simp [fgets_read]
  | succ k ih =>
    cases s with
    | nil => simp [fgets_read]
    | cons c s =>
      by_cases hc : c = '\n'
      · subst hc
        refine ⟨by simp [fgets_read], Or.inl ⟨[], by simp [fgets_read], by simp, ?_⟩⟩
        simp [fgets_read]
      · obtain ⟨hcat, hcase⟩ := ih s
        have h1 : (fgets_read (k + 1) (c :: s)).1 = c :: (fgets_read k s).1 := by
          simp [fgets_read, hc]
        have h2 : (fgets_read (k + 1) (c :: s)).2.1 = (fgets_read k s).2.1 := by
          simp [fgets_read, hc]
        have h3 : (fgets_read (k + 1) (c :: s)).2.2 = (fgets_read k s).2.2 := by
          simp [fgets_read, hc]
        rw [h1, h2, h3]
        have hmem : ∀ l : CStr, '\n' ∉ l → '\n' ∉ c :: l := by
          intro l hl hm
          rcases List.mem_cons.1 hm with h | h
          · exact hc h.symm
          · exact hl h
        refine ⟨by rw [List.cons_append, hcat], ?_⟩
        rcases hcase with ⟨pre, hpre, hn, he⟩ | ⟨hn, hl, he⟩ | ⟨hn, hr, he⟩
        · exact Or.inl ⟨c :: pre, by rw [hpre]; rfl, hmem pre hn, he⟩
        · exact Or.inr (Or.inl ⟨hmem _ hn, by simp [hl], he⟩)
        · exact Or.inr (Or.inr ⟨hmem _ hn, hr, he⟩)

theorem takeWhile_not_newline_append (pre rest : CStr) (h : '\n' ∉ pre) :
    (pre ++ rest).takeWhile (fun c => c ≠ '\n') = pre ++ rest.takeWhile (fun c => c ≠ '\n') := by
  induction pre with
  | nil => rfl
  | cons c cs ih =>
    have hc : c ≠ '\n' := fun hh => h (hh ▸ List.mem_cons_self _ _)
    have hcs : '\n' ∉ cs := fun hh => h (List.mem_cons_of_mem _ hh)
    simp only [List.cons_append, List.takeWhile_cons, hc, ne_eq, not_false_eq_true,
      decide_True, if_true, ih hcs]

theorem dropWhile_not_newline_append (pre rest : CStr) (h : '\n' ∉ pre) :
    (pre ++ rest).dropWhile (fun c => c ≠ '\n') = rest.dropWhile (fun c => c ≠ '\n') := by
  induction pre with
  | nil => rfl
  | cons c cs ih =>
    have hc : c ≠ '\n' := fun hh => h (hh ▸ List.mem_cons_self _ _)
    have hcs : '\n' ∉ cs := fun hh => h (List.mem_cons_of_mem _ hh)
    simp only [List.cons_append, List.dropWhile_cons, hc, ne_eq, not_false_eq_true,
      decide_True, if_true, ih hcs]

theorem read_line_some (BUFSIZ fuel : Nat) (fp fp2 : FILE) (gs chunk : CStr)
    (h : fgets BUFSIZ fp = (some chunk, fp2)) :
    read_line BUFSIZ (fuel + 1) fp gs
      = if (c_str chunk).getLast? = some '\n' then some (gs ++ (c_str chunk).dropLast, fp2)
        else read_line BUFSIZ fuel fp2 (gs ++ c_str chunk) := by
  rw [read_line, h]

theorem read_line_none (BUFSIZ fuel : Nat) (fp fp2 : FILE) (gs : CStr)
    (h : fgets BUFSIZ fp = (none, fp2)) :
    read_line BUFSIZ (fuel + 1) fp gs = some (gs, fp2) := by
  rw [read_line, h]

theorem fgets_chunk (BUFSIZ : Nat) (rest : CStr) (eof : Bool)
    (h : (fgets_read (BUFSIZ - 1) rest).1 ≠ []) :
    fgets BUFSIZ { rest := rest, eof := eof }
      = (some (fgets_read (BUFSIZ - 1) rest).1,
          { rest := (fgets_read (BUFSIZ - 1) rest).2.1,
            eof := eof || (fgets_read (BUFSIZ - 1) rest).2.2 }) := by
  unfold fgets
  simp only
  rw [if_neg (fun hh => h hh.1)]

theorem fgets_at_end (BUFSIZ : Nat) (hbuf : 2 ≤ BUFSIZ) (eof : Bool) :
    fgets BUFSIZ { rest := [], eof := eof } = (none, { rest := [], eof := true }) := by
  obtain ⟨k, hk⟩ : ∃ k, BUFSIZ - 1 = k + 1 := ⟨BUFSIZ - 2, by omega⟩
  unfold fgets
  simp only [hk, fgets_read, and_self, if_true]

/-- The inner loop of `parse_file_for` delivers the rest of the current line,
whatever the size of the chunks: the text up to the next newline, the stream
after that newline, and the end-of-file indicator set exactly when no newline
was left. -/
theorem read_line_spec (BUFSIZ : Nat) (hbuf : 2 ≤ BUFSIZ) (fuel : Nat) (rest gs : CStr)
    (hnul : '\x00' ∉ rest) (hfuel : rest.length < fuel) :
    read_line BUFSIZ fuel { rest := rest, eof := false } gs
      = some (gs ++ rest.takeWhile (fun c => c ≠ '\n'),
          { rest := (rest.dropWhile (fun c => c ≠ '\n')).tail,
            eof := decide (rest.dropWhile (fun c => c ≠ '\n') = []) }) := by
  induction fuel generalizing rest gs with
  | zero => exact absurd hfuel (Nat.not_lt_zero _)
  | succ f ih =>
    by_cases hrnil : rest = []
    · subst hrnil
      rw [read_line_none _ _ _ _ _ (fgets_at_end BUFSIZ hbuf false)]
      simp
    · obtain ⟨hcat, hcase⟩ := fgets_read_spec (BUFSIZ - 1) rest
      have hchunk_nul : '\x00' ∉ (fgets_read (BUFSIZ - 1) rest).1 := by
        intro hmem
        apply hnul
        rw [← hcat]
        exact List.mem_append_left _ hmem
      have hrest_nul : '\x00' ∉ (fgets_read (BUFSIZ - 1) rest).2.1 := by
        intro hmem
        apply hnul
        rw [← hcat]
        exact List.mem_append_right _ hmem
      have hchunk : (fgets_read (BUFSIZ - 1) rest).1 ≠ [] := by
        rcases hcase with ⟨pre, hpre, -, -⟩ | ⟨-, hl, -⟩ | ⟨-, hr, -⟩
        · rw [hpre]
          simp
        · intro hnil
          rw [hnil] at hl
          simp only [List.length_nil] at hl
          omega
        · intro hnil
          rw [hnil, hr] at hcat
          exact hrnil hcat.symm
      rw [read_line_some _ _ _ _ _ _ (fgets_chunk BUFSIZ rest false hchunk),
        c_str_no_nul hchunk_nul]
      rcases hcase with ⟨pre, hpre, hn, he⟩ | ⟨hn, hl, he⟩ | ⟨hn, hr, he⟩
      · have hrest : rest = pre ++ '\n' :: (fgets_read (BUFSIZ - 1) rest).2.1 := by
          conv_lhs => rw [← hcat, hpre]
          simp
        have hlast : (fgets_read (BUFSIZ - 1) rest).1.getLast? = some '\n' := by
          rw [hpre]
          exact List.getLast?_concat _
        rw [if_pos hlast, he, hpre, List.dropLast_concat]
        conv_rhs => rw [hrest]
        rw [takeWhile_not_newline_append _ _ hn, dropWhile_not_newline_append _ _ hn]
        simp
      · have hlast : ¬ (fgets_read (BUFSIZ - 1) rest).1.getLast? = some '\n' :=
          fun hh => hn (List.mem_of_getLast?_eq_some hh)
        have hshort : (fgets_read (BUFSIZ - 1) rest).2.1.length < f := by
          have := congrArg List.length hcat
          have hpos : (fgets_read (BUFSIZ - 1) rest).1.length ≠ 0 := by simpa using hchunk
          simp only [List.length_append] at this
          omega
        rw [if_neg hlast, he]
        simp only [Bool.or_false]
        rw [ih _ _ hrest_nul hshort]
        conv_rhs => rw [← hcat]
        rw [takeWhile_not_newline_append _ _ hn, dropWhile_not_newline_append _ _ hn]
        simp
      · have hlast : ¬ (fgets_read (BUFSIZ - 1) rest).1.getLast? = some '\n' :=
          fun hh => hn (List.mem_of_getLast?_eq_some hh)
        have hrest : rest = (fgets_read (BUFSIZ - 1) rest).1 := by
          conv_lhs => rw [← hcat, hr]
          simp
        have hnl : '\n' ∉ rest := by
          rw [hrest]
          exact hn
        have htake : rest.takeWhile (fun c => c ≠ '\n') = rest := by
          rw [List.takeWhile_eq_self_iff]
          intro c hc
          have : c ≠ '\n' := fun hh => hnl (hh ▸ hc)
          simpa using this
        have hdrop : rest.dropWhile (fun c => c ≠ '\n') = [] := by
          rw [List.dropWhile_eq_nil_iff]
          intro c hc
          have : c ≠ '\n' := fun hh => hnl (hh ▸ hc)
          simpa using this
        obtain ⟨f2, rfl⟩ : ∃ f2, f = f2 + 1 := by
          cases f with
          | zero =>
            have : rest.length ≠ 0 := by simpa using hrnil
            omega
          | succ f2 => exact ⟨f2, rfl⟩
        rw [if_neg hlast, he, hr, read_line_none _ _ _ _ _ (fgets_at_end BUFSIZ hbuf _),
          htake, hdrop, ← hrest]
        simp

/-- The lines of a text: the part in front of the first newline, then the
lines of what follows that newline, if there is one. -/
theorem file_lines_unfold (rest : CStr) :
    file_lines rest
      = rest.takeWhile (fun c => c ≠ '\n')
        :: (if rest.dropWhile (fun c => c ≠ '\n') = [] then []
            else file_lines (rest.dropWhile (fun c => c ≠ '\n')).tail) := by
  have hsplit := List.takeWhile_append_dropWhile (fun c => decide (c ≠ '\n')) rest
  have hfree : ∀ x ∈ rest.takeWhile (fun c => c ≠ '\n'), ¬ (x == '\n') = true := by
    intro x hx
    have := List.mem_takeWhile_imp hx
    simpa using this
  cases hd : rest.dropWhile (fun c => c ≠ '\n') with
  | nil =>
    rw [hd, List.append_nil] at hsplit
    simp only [if_true]
    unfold file_lines
    conv_lhs => rw [← hsplit]
    exact List.splitOnP_eq_single _ _ hfree
  | cons d ds =>
    have hhead := List.head?_dropWhile_not (fun c => decide (c ≠ '\n')) rest
    rw [hd] at hhead hsplit
    simp only [List.head?_cons, decide_eq_false_iff_not, ne_eq, not_not] at hhead
    subst hhead
    have hne : ('\n' :: ds) ≠ [] := by simp
    simp only [hne, if_false, List.tail_cons]
    unfold file_lines
    conv_lhs => rw [← hsplit]
    exact List.splitOnP_first _ _ hfree '\n' (by decide) ds

/-- The loop of `parse_file_for` hands the line parser the lines of the
stream, one after the other, and stops at the first error. -/
theorem parse_file_loop_lines {σ : Type} (parse_line : CStr → CStr → σ → Option (Ret σ))
    (allow_comments : Bool) (BUFSIZ : Nat) (hbuf : 2 ≤ BUFSIZ) (name : CStr) (fuel : Nat)
    (rest : CStr) (data : σ) (hnul : '\x00' ∉ rest) (hfuel : rest.length < fuel) :
    parse_file_loop parse_line allow_comments BUFSIZ name fuel { rest := rest, eof := false } data
      = run_lines (parse_line name) ((file_lines rest).map (handed allow_comments)) data := by
  induction fuel generalizing rest data with
  | zero => exact absurd hfuel (Nat.not_lt_zero _)
  | succ f ih =>
    have hline_nul : '\x00' ∉ rest.takeWhile (fun c => c ≠ '\n') :=
      fun hm => hnul ((List.takeWhile_prefix _).subset hm)
    have hstr : (if allow_comments = true then
          (c_str (rest.takeWhile (fun c => c ≠ '\n'))).takeWhile (fun c => c ≠ '#')
        else c_str (rest.takeWhile (fun c => c ≠ '\n')))
        = handed allow_comments (rest.takeWhile (fun c => c ≠ '\n')) := by
      rw [c_str_no_nul hline_nul]
      rfl
    rw [parse_file_loop, read_line_spec BUFSIZ hbuf _ rest [] hnul (Nat.lt_succ_self _)]
    simp only [List.nil_append, hstr]
    rw [file_lines_unfold rest, List.map_cons, run_lines]
    cases hlp : parse_line name (handed allow_comments (rest.takeWhile (fun c => c ≠ '\n')))
        data with
    | none => rfl
    | some r =>
      simp only
      by_cases herr : r.error.isSome = true
      · simp only [herr, if_true]
      · simp only [herr, if_false, Bool.false_eq_true]
        by_cases hd : rest.dropWhile (fun c => c ≠ '\n') = []
        · simp only [hd, decide_True, if_true, List.map_nil, run_lines]
        · have htail_nul : '\x00' ∉ (rest.dropWhile (fun c => c ≠ '\n')).tail :=
            fun hm => hnul ((List.dropWhile_suffix _).subset (List.mem_of_mem_tail hm))
          have hlen : (rest.dropWhile (fun c => c ≠ '\n')).tail.length < f := by
            have h1 := (List.dropWhile_suffix (l := rest) (fun c => decide (c ≠ '\n'))).length_le
            have h2 : (rest.dropWhile (fun c => c ≠ '\n')).length ≠ 0 := by simpa using hd
            simp only [List.length_tail]
            omega
          simp only [hd, decide_False, if_false, Bool.false_eq_true]
          exact ih _ r.state htail_nul hlen

/-- The callback `parse_file_for` on a file that opens: the line parser is
applied to the lines of the content, each cut at its first '#' when comments
are allowed, and the call returns true. -/
theorem parse_file_for_lines {σ : Type} (parse_line : CStr → CStr → σ → Option (Ret σ))
    (allow_comments : Bool) (BUFSIZ : Nat) (hbuf : 2 ≤ BUFSIZ) (fopen : CStr → Option CStr)
    (stdin name arg content : CStr) (data : σ)
    (hopen : (if arg ≠ "-".toList then fopen arg else some stdin) = some content)
    (hnul : '\x00' ∉ content) :
    parse_file_for parse_line allow_comments BUFSIZ fopen stdin name arg data
      = run_lines (parse_line name) ((file_lines content).map (handed allow_comments)) data := by
  unfold parse_file_for
  rw [hopen]
  exact parse_file_loop_lines parse_line allow_comments BUFSIZ hbuf name _ content data hnul
    (Nat.lt_succ_self _)

theorem run_lines_record (name : CStr) (lines log : List CStr) :
    run_lines (record_line name) lines log
      = some { ret := true, error := none, state := log ++ lines } := by
  induction lines generalizing log with
  | nil => simp [run_lines]
  | cons l ls ih =>
    simp only [run_lines, record_line, Option.isSome_none, Bool.false_eq_true, if_false]
    rw [ih]
    simp

theorem handed_false (lines : List CStr) : lines.map (handed false) = lines := by
  induction lines with
  | nil => rfl
  | cons l ls ih =>
    rw [List.map_cons, ih]
    rfl

/-- C19: line reassembly is independent of the read-chunk size.  For every
file content without NUL bytes and all buffer capacities of at least 2,
`parse_file_for` gives the same result with either capacity, for every line
parser; the lines it hands to the line parser, recorded before any comment
stripping, are the content split at every newline, each line in one piece
however many chunks it took; the empty content gives one empty line and a
content that ends in a newline gives a last line that is empty. -/
theorem file_lines_independent_of_chunk {σ : Type}
    (parse_line : CStr → CStr → σ → Option (Ret σ)) (allow_comments : Bool)
    (c1 c2 : Nat) (h1 : 2 ≤ c1) (h2 : 2 ≤ c2) (fopen : CStr → Option CStr)
    (stdin name arg content : CStr) (data : σ) (log : List CStr)
    (hopen : (if arg ≠ "-".toList then fopen arg else some stdin) = some content)
    (hnul : '\x00' ∉ content) :
    parse_file_for parse_line allow_comments c1 fopen stdin name arg data
        = parse_file_for parse_line allow_comments c2 fopen stdin name arg data
      ∧ parse_file_for record_line false c1 fopen stdin name arg log
        = some { ret := true, error := none, state := log ++ file_lines content }
      ∧ file_lines [] = [[]]
      ∧ ∀ pre : CStr, file_lines (pre ++ ['\n']) = file_lines pre ++ [[]] := by
  refine ⟨?_, ?_, rfl, fun pre => ?_⟩
  · rw [parse_file_for_lines parse_line allow_comments c1 h1 fopen stdin name arg content data
        hopen hnul,
      parse_file_for_lines parse_line allow_comments c2 h2 fopen stdin name arg content data
        hopen hnul]
  · rw [parse_file_for_lines record_line false c1 h1 fopen stdin name arg content log hopen hnul,
      handed_false, run_lines_record]
  · unfold file_lines
    rw [splitOnP_append_delim _ pre [] '\n' (by decide)]
    rfl

/-- Witness of C19: the content "abcdefg\nxy\n" read with capacities 3 and
8192; the lines are "abcdefg", "xy" and the empty line. -/
theorem file_lines_independent_of_chunk_witness :
    2 ≤ 3 ∧ 2 ≤ 8192
      ∧ (if "f.txt".toList ≠ "-".toList then (fun _ => some "abcdefg\nxy\n".toList) "f.txt".toList
          else some []) = some "abcdefg\nxy\n".toList
      ∧ '\x00' ∉ "abcdefg\nxy\n".toList
      ∧ file_lines "abcdefg\nxy\n".toList = ["abcdefg".toList, "xy".toList, []]
      ∧ parse_file_for parse_gids true 3 (fun _ => some "abcdefg\nxy\n".toList) []
            "gids-file".toList "f.txt".toList blank_main
          = parse_file_for parse_gids true 8192 (fun _ => some "abcdefg\nxy\n".toList) []
            "gids-file".toList "f.txt".toList blank_main
      ∧ parse_file_for record_line false 3 (fun _ => some "abcdefg\nxy\n".toList) []
            "text-file".toList "f.txt".toList []
          = some { ret := true, error := none,
                   state := [] ++ file_lines "abcdefg\nxy\n".toList } :=
  ⟨by decide, by decide, by decide, by decide, by decide,
    (file_lines_independent_of_chunk parse_gids true 3 8192 (by decide) (by decide)
      (fun _ => some "abcdefg\nxy\n".toList) [] "gids-file".toList "f.txt".toList
      "abcdefg\nxy\n".toList blank_main [] (by decide) (by decide)).1,
    (file_lines_independent_of_chunk parse_gids true 3 8192 (by decide) (by decide)
      (fun _ => some "abcdefg\nxy\n".toList) [] "text-file".toList "f.txt".toList
      "abcdefg\nxy\n".toList blank_main [] (by decide) (by decide)).2.1⟩

/-- C16 at its failing input: a batch file whose second line is "50-10".
The line parser stores the invalid-range error, the third line is not
processed, and `parse_file_for` returns true to its caller all the same. -/
theorem parse_file_for_returns_true_on_error :
    ∃ r ∈ parse_file_for parse_gids true 8192 (fun _ => some "10\n50-10\n7\n".toList) []
        "gids-file".toList "ids.txt".toList blank_main,
      r.ret = true ∧ r.error = some (.invalid_gid_range 50 10) ∧ r.state.input.glyphs = {10} := by
  decide

/-! ## Glyph-ID batch files -/

theorem joined_append (a b : List (CStr × CStr)) : joined (a ++ b) = joined a ++ joined b := by
  induction a with
  | nil => rfl
  | cons p ps ih =>
    obtain ⟨sep, text⟩ := p
    show sep ++ text ++ joined (ps ++ b) = sep ++ text ++ joined ps ++ joined b
    rw [ih]
    simp only [List.append_assoc]

theorem denote_all_append (a b : List GidItem) :
    denote_all (a ++ b) = denote_all a ∪ denote_all b := by
  induction a with
  | nil => simp [denote_all]
  | cons x xs ih =>
    show x.denote ∪ denote_all (xs ++ b) = x.denote ∪ denote_all xs ∪ denote_all b
    rw [ih, Finset.union_assoc]

theorem delim_run_comma (trail sep : CStr) (h1 : delim_run trail) (h2 : delim_run sep) :
    delim_run (trail ++ ',' :: sep) := by
  intro c hc
  rcases List.mem_append.1 hc with h | h
  · exact h1 c h
  · rcases List.mem_cons.1 h with h | h
    · exact Or.inl h
    · exact h2 c h

theorem separators_ok_append (a b : List CStr) (sep : CStr) (ha : separators_ok a)
    (hsep : delim_run sep) (hne : sep ≠ []) (hb : ∀ s ∈ b, delim_run s ∧ s ≠ []) :
    separators_ok (a ++ sep :: b) := by
  obtain ⟨ha1, ha2⟩ := ha
  constructor
  · intro s hs
    rcases List.mem_append.1 hs with h | h
    · exact ha1 s h
    · rcases List.mem_cons.1 h with h | h
      · exact h ▸ hsep
      · exact (hb s h).1
  · intro s hs
    cases a with
    | nil =>
      simp only [List.nil_append, List.tail_cons] at hs
      exact (hb s hs).2
    | cons x xs =>
      simp only [List.cons_append, List.tail_cons] at hs ha2
      rcases List.mem_append.1 hs with h | h
      · exact ha2 s h
      · rcases List.mem_cons.1 h with h | h
        · exact h ▸ hne
        · exact (hb s h).2

/-- Two valid glyph-index lists with a comma between them are a valid list,
which denotes the union. -/
theorem denotes_gids_comma (s1 s2 : CStr) (V1 V2 : Finset Nat) (h1 : denotes_gids s1 V1)
    (h2 : denotes_gids s2 V2) : denotes_gids (s1 ++ ',' :: s2) (V1 ∪ V2) := by
  obtain ⟨parts1, trail1, rfl, hsep1, htrail1, hvalid1, rfl⟩ := h1
  obtain ⟨parts2, trail2, rfl, hsep2, htrail2, hvalid2, rfl⟩ := h2
  cases parts2 with
  | nil =>
    refine ⟨parts1, trail1 ++ ',' :: trail2, ?_, hsep1,
      delim_run_comma _ _ htrail1 htrail2, hvalid1, ?_⟩
    · simp [gid_parts, joined]
    · simp [denote_all]
  | cons p ps =>
    obtain ⟨sep0, item⟩ := p
    obtain ⟨hsep_ps, hne_ps⟩ := separators_ok_tail hsep2
    refine ⟨parts1 ++ (trail1 ++ ',' :: sep0, item) :: ps, trail2, ?_, ?_, htrail2, ?_, ?_⟩
    · simp [gid_parts, joined_append, joined]
    · rw [List.map_append, List.map_cons]
      exact separators_ok_append _ _ _ hsep1
        (delim_run_comma _ _ htrail1 (hsep2.1 sep0 (List.mem_cons_self _ _))) (by simp)
        (fun s hs => ⟨hsep_ps.1 s hs, hne_ps s hs⟩)
    · intro q hq
      rcases List.mem_append.1 hq with h | h
      · exact hvalid1 q h
      · rcases List.mem_cons.1 h with h | h
        · rw [h]
          exact hvalid2 (sep0, item) (List.mem_cons_self _ _)
        · exact hvalid2 q (List.mem_cons_of_mem _ h)
    · rw [List.map_append, denote_all_append]
      rfl

theorem parse_gids_denotes (name s : CStr) (V : Finset Nat) (m : subset_main_t)
    (h : denotes_gids s V) :
    parse_gids name s m
      = some { ret := true, error := none, state := put_glyphs m (m.input.glyphs ∪ V) } := by
  obtain ⟨parts, trail, rfl, hsep, htrail, hvalid, rfl⟩ := h
  exact parse_gids_joined name parts trail m hsep htrail hvalid

theorem intercalate_comma_cons (v w : CStr) (rest : List CStr) :
    List.intercalate [','] (v :: w :: rest) = v ++ ',' :: List.intercalate [','] (w :: rest) := by
  simp [List.intercalate, List.intersperse]

/-- Valid glyph-index lists handed to `parse_gids` line by line leave what
`parse_gids` leaves on the lines joined by commas. -/
theorem run_lines_parse_gids (name name2 : CStr) (lines : List CStr) (hne : lines ≠ [])
    (hlines : ∀ l ∈ lines, is_gid_list l) :
    ∃ V, denotes_gids (List.intercalate [','] lines) V
      ∧ ∀ m : subset_main_t,
          run_lines (parse_gids name) lines m
            = some { ret := true, error := none, state := put_glyphs m (m.input.glyphs ∪ V) }
          ∧ parse_gids name2 (List.intercalate [','] lines) m
            = some { ret := true, error := none,
                     state := put_glyphs m (m.input.glyphs ∪ V) } := by
  induction lines with
  | nil => exact absurd rfl hne
  | cons l ls ih =>
    obtain ⟨V1, hV1⟩ := hlines l (List.mem_cons_self _ _)
    cases ls with
    | nil =>
      have hint : List.intercalate [','] [l] = l := by simp [List.intercalate]
      rw [hint]
      refine ⟨V1, hV1, fun m => ⟨?_, parse_gids_denotes name2 l V1 m hV1⟩⟩
      simp only [run_lines, parse_gids_denotes name l V1 m hV1, Option.isSome_none,
        Bool.false_eq_true, if_false]
    | cons l2 ls2 =>
      obtain ⟨V2, hV2, hrun⟩ := ih (by simp) (fun x hx => hlines x (List.mem_cons_of_mem _ hx))
      have hden := denotes_gids_comma l _ V1 V2 hV1 hV2
      rw [intercalate_comma_cons]
      refine ⟨V1 ∪ V2, hden, fun m => ⟨?_, parse_gids_denotes name2 _ _ m hden⟩⟩
      rw [run_lines]
      simp only [parse_gids_denotes name l V1 m hV1, Option.isSome_none, Bool.false_eq_true,
        if_false]
      rw [(hrun _).1]
      simp [put_glyphs, Finset.union_assoc]

theorem file_lines_ne_nil (content : CStr) : file_lines content ≠ [] :=
  List.splitOnP_ne_nil _ _

/-- C14: a glyph-ID batch file is equivalent to the inline directive.  For
every file content without NUL bytes whose lines, each cut at its first '#',
are valid glyph-index lists, `parse_file_for <parse_gids>` returns true with
no error and leaves exactly the state that `parse_gids` leaves when applied
once to those comment-stripped lines joined by ','. -/
theorem gids_file_same_as_inline (BUFSIZ : Nat) (hbuf : 2 ≤ BUFSIZ) (fopen : CStr → Option CStr)
    (stdin name name2 arg content : CStr) (m : subset_main_t)
    (hopen : (if arg ≠ "-".toList then fopen arg else some stdin) = some content)
    (hnul : '\x00' ∉ content)
    (hlines : ∀ l ∈ file_lines content, is_gid_list (strip_comment l)) :
    ∃ r, parse_file_for parse_gids true BUFSIZ fopen stdin name arg m = some r
      ∧ r.ret = true ∧ r.error = none
      ∧ parse_gids name2 (List.intercalate [','] ((file_lines content).map strip_comment)) m
          = some r := by
  have hne : (file_lines content).map strip_comment ≠ [] := by
    intro h
    exact file_lines_ne_nil content (List.map_eq_nil_iff.1 h)
  obtain ⟨V, -, hrun⟩ := run_lines_parse_gids name name2 _ hne (by
    intro l hl
    obtain ⟨l0, hl0, rfl⟩ := List.mem_map.1 hl
    exact hlines l0 hl0)
  refine ⟨_, ?_, rfl, rfl, (hrun m).2⟩
  rw [parse_file_for_lines parse_gids true BUFSIZ hbuf fopen stdin name arg content m hopen hnul]
  exact (hrun m).1

/-- The lines of the example file are valid glyph-index lists once their
comments are cut off. -/
theorem sample_gids_file_lines :
    ∀ l ∈ file_lines sample_gids_file, is_gid_list (strip_comment l) := by
  have hl : file_lines sample_gids_file
      = ["10,20".toList, "# comment".toList, "30-31".toList, []] := by decide
  intro l hmem
  rw [hl] at hmem
  simp only [List.mem_cons, List.mem_singleton, List.not_mem_nil, or_false] at hmem
  rcases hmem with rfl | rfl | rfl | rfl
  · exact ⟨_, [("".toList, GidItem.single "10".toList), (",".toList, GidItem.single "20".toList)],
      [], by decide, by decide, by decide, by decide, rfl⟩
  · exact ⟨_, [], [], by decide, by decide, by decide, by decide, rfl⟩
  · exact ⟨_, [("".toList, GidItem.range "30".toList "31".toList)], [], by decide, by decide,
      by decide, by decide, rfl⟩
  · exact ⟨_, [], [], by decide, by decide, by decide, by decide, rfl⟩

/-- Witness of C14: the file "10,20\n# comment\n30-31\n" on a glyph-ID set that
holds 3; file and inline value "10,20,30-31" both add 10, 20, 30 and 31. -/
theorem gids_file_same_as_inline_witness :
    2 ≤ 8192
      ∧ (if "ids.txt".toList ≠ "-".toList then (fun _ => some sample_gids_file) "ids.txt".toList
          else some []) = some sample_gids_file
      ∧ '\x00' ∉ sample_gids_file
      ∧ (∃ r ∈ parse_file_for parse_gids true 8192 (fun _ => some sample_gids_file) []
            "gids-file".toList "ids.txt".toList (put_glyphs blank_main {3}),
          r.state.input.glyphs = {3, 10, 20, 30, 31})
      ∧ (∃ r ∈ parse_gids "gids".toList "10,20,30-31".toList (put_glyphs blank_main {3}),
          r.state.input.glyphs = {3, 10, 20, 30, 31})
      ∧ ∃ r, parse_file_for parse_gids true 8192 (fun _ => some sample_gids_file) []
            "gids-file".toList "ids.txt".toList (put_glyphs blank_main {3}) = some r
          ∧ r.ret = true ∧ r.error = none
          ∧ parse_gids "gids".toList
              (List.intercalate [','] ((file_lines sample_gids_file).map strip_comment))
              (put_glyphs blank_main {3}) = some r :=
  ⟨by decide, by decide, by decide, by decide, by decide,
    gids_file_same_as_inline 8192 (by decide) (fun _ => some sample_gids_file) []
      "gids-file".toList "gids".toList "ids.txt".toList sample_gids_file
      (put_glyphs blank_main {3}) (by decide) (by decide) sample_gids_file_lines⟩

/-! ## UTF-8 decoding -/

theorem toNat_ofNat_byte (b : Nat) (h : b < 256) : (Char.ofNat b).toNat = b := by
  have hv : b.isValidChar := Or.inl (by omega)
  simp only [Char.ofNat, hv, dif_pos, Char.ofNatAux, Char.toNat]
  rfl

theorem toNat_lt (c : Char) : c.toNat < 0x110000 := by
  rcases c.valid with h | ⟨_, h⟩
  · have : c.val.toNat < 0xd800 := h
    show c.val.toNat < _
    omega
  · exact h

theorem utf8_lead2 : ∀ k, k < 32 →
    UTF8_COMPUTE (0xC0 + k) = some (0x1f, 2) ∧ (0xC0 + k) &&& 0x1f = k := by decide

theorem utf8_lead3 : ∀ k, k < 16 →
    UTF8_COMPUTE (0xE0 + k) = some (0x0f, 3) ∧ (0xE0 + k) &&& 0x0f = k := by decide

theorem utf8_lead4 : ∀ k, k < 8 →
    UTF8_COMPUTE (0xF0 + k) = some (0x07, 4) ∧ (0xF0 + k) &&& 0x07 = k := by decide

theorem utf8_continuation : ∀ j, j < 64 →
    (0x80 + j) &&& 0xc0 = 0x80 ∧ (0x80 + j) &&& 0x3f = j := by decide

theorem utf8_lead_high : ∀ k, k < 64 → (0xC0 + k) &&& 0xc0 ≠ 0x80 := by decide

theorem utf8_ascii (n : Nat) (h : n < 128) : n &&& 0x7f = n ∧ n &&& 0xc0 ≠ 0x80 := by
  constructor
  · have := Nat.and_pow_two_sub_one_eq_mod n 7
    simp only [Nat.reducePow, Nat.add_one_sub_one] at this
    rw [this]
    exact Nat.mod_eq_of_lt h
  · intro h2
    have h3 := congrArg (fun v => v.testBit 7) h2
    simp only [Nat.testBit_land] at h3
    have : n.testBit 7 = false := Nat.testBit_eq_false_of_lt (by simpa using h)
    rw [this] at h3
    revert h3
    decide

theorem shift_or (a b : Nat) (h : b < 64) : (a <<< 6) ||| b = a * 64 + b := by
  rw [Nat.shiftLeft_eq, Nat.mul_comm, ← Nat.mul_add_lt_is_or (show b < 2 ^ 6 from h) a]

/-- One round of `UTF8_GET` on a continuation byte. -/
theorem UTF8_GET_step (p : CStr) (todo count result j : Nat) (hj : j < 64)
    (hb : byte_at p count = 0x80 + j) :
    UTF8_GET p (todo + 1) count result = UTF8_GET p todo (count + 1) (result * 64 + j) := by
  rw [UTF8_GET, hb, if_neg (by rw [(utf8_continuation _ hj).1]; simp),
    (utf8_continuation _ hj).2, shift_or _ _ hj]

theorem byte_at_ofNat (b : Nat) (h : b < 256) (p : CStr) : byte_at (Char.ofNat b :: p) 0 = b := by
  show (Char.ofNat b).toNat % 256 = b
  rw [toNat_ofNat_byte b h]
  omega

theorem byte_at_zero (c : Char) (p : CStr) : byte_at (c :: p) 0 = c.toNat % 256 := rfl

theorem byte_at_succ (c : Char) (p : CStr) (i : Nat) : byte_at (c :: p) (i + 1) = byte_at p i :=
  rfl

/-- Decoding the encoding of a scalar value gives the value back. -/
theorem g_utf8_get_char_encode (c : Char) (rest : CStr) :
    g_utf8_get_char (utf8_encode_char c ++ rest) = c.toNat := by
  have hlt := toNat_lt c
  unfold utf8_encode_char
  by_cases h1 : c.toNat < 0x80
  · rw [if_pos h1]
    have hb : byte_at ([c] ++ rest) 0 = c.toNat := by
      show c.toNat % 256 = c.toNat
      omega
    unfold g_utf8_get_char
    rw [hb]
    have hc : UTF8_COMPUTE c.toNat = some (0x7f, 1) := by
      unfold UTF8_COMPUTE
      rw [if_pos h1]
    rw [hc]
    show c.toNat &&& 0x7f = c.toNat
    exact (utf8_ascii _ h1).1
  · rw [if_neg h1]
    by_cases h2 : c.toNat < 0x800
    · rw [if_pos h2]
      have hk : c.toNat / 64 < 32 := by omega
      have hj : c.toNat % 64 < 64 := by omega
      have hb0 : byte_at ([Char.ofNat (0xC0 + c.toNat / 64), Char.ofNat (0x80 + c.toNat % 64)]
          ++ rest) 0 = 0xC0 + c.toNat / 64 := by
        show (Char.ofNat _).toNat % 256 = _
        rw [toNat_ofNat_byte _ (by omega)]
        omega
      have hb1 : byte_at ([Char.ofNat (0xC0 + c.toNat / 64), Char.ofNat (0x80 + c.toNat % 64)]
          ++ rest) 1 = 0x80 + c.toNat % 64 := by
        show (Char.ofNat _).toNat % 256 = _
        rw [toNat_ofNat_byte _ (by omega)]
        omega
      unfold g_utf8_get_char
      rw [hb0, (utf8_lead2 _ hk).1]
      show UTF8_GET _ 1 1 _ = _
      rw [(utf8_lead2 _ hk).2]
      unfold UTF8_GET
      rw [hb1, if_neg (by rw [(utf8_continuation _ hj).1]; simp), (utf8_continuation _ hj).2,
        shift_or _ _ hj]
      unfold UTF8_GET
      omega
    · rw [if_neg h2]
      have hj0 : c.toNat % 64 < 64 := by omega
      have hj1 : c.toNat / 64 % 64 < 64 := by omega
      have hj2 : c.toNat / 4096 % 64 < 64 := by omega
      by_cases h3 : c.toNat < 0x10000
      · rw [if_pos h3]
        have hk : c.toNat / 4096 < 16 := by omega
        unfold g_utf8_get_char
        rw [List.cons_append, byte_at_ofNat _ (by omega), (utf8_lead3 _ hk).1]
        show UTF8_GET _ 2 1 _ = _
        rw [(utf8_lead3 _ hk).2, UTF8_GET_step _ _ _ _ _ hj1 (by
            show (Char.ofNat _).toNat % 256 = _
            rw [toNat_ofNat_byte _ (by omega)]
            omega),
          UTF8_GET_step _ _ _ _ _ hj0 (by
            show (Char.ofNat _).toNat % 256 = _
            rw [toNat_ofNat_byte _ (by omega)]
            omega)]
        unfold UTF8_GET
        omega
      · rw [if_neg h3]
        have hk : c.toNat / 262144 < 8 := by omega
        unfold g_utf8_get_char
        rw [List.cons_append, byte_at_ofNat _ (by omega), (utf8_lead4 _ hk).1]
        show UTF8_GET _ 3 1 _ = _
        rw [(utf8_lead4 _ hk).2, UTF8_GET_step _ _ _ _ _ hj2 (by
            show (Char.ofNat _).toNat % 256 = _
            rw [toNat_ofNat_byte _ (by omega)]
            omega),
          UTF8_GET_step _ _ _ _ _ hj1 (by
            show (Char.ofNat _).toNat % 256 = _
            rw [toNat_ofNat_byte _ (by omega)]
            omega),
          UTF8_GET_step _ _ _ _ _ hj0 (by
            show (Char.ofNat _).toNat % 256 = _
            rw [toNat_ofNat_byte _ (by omega)]
            omega)]
        unfold UTF8_GET
        omega

/-- The encoding of a scalar value is a byte that is not a continuation byte,
then continuation bytes only; a byte below 128 in it is the value itself. -/
theorem utf8_encode_char_shape (c : Char) :
    ∃ lead conts, utf8_encode_char c = lead :: conts
      ∧ ¬ (lead.toNat % 256 &&& 0xc0 = 0x80)
      ∧ (∀ x ∈ conts, x.toNat % 256 &&& 0xc0 = 0x80)
      ∧ (∀ x ∈ lead :: conts, x.toNat < 128 → x = c)
      ∧ (c.toNat < 128 → conts = []) := by
  have hlt := toNat_lt c
  have hcont : ∀ j, j < 64 → (Char.ofNat (0x80 + j)).toNat % 256 &&& 0xc0 = 0x80
      ∧ ¬ (Char.ofNat (0x80 + j)).toNat < 128 := by
    intro j hj
    rw [toNat_ofNat_byte _ (by omega), Nat.mod_eq_of_lt (by omega)]
    exact ⟨(utf8_continuation j hj).1, by omega⟩
  have hlead : ∀ k, k < 64 → ¬ ((Char.ofNat (0xC0 + k)).toNat % 256 &&& 0xc0 = 0x80)
      ∧ ¬ (Char.ofNat (0xC0 + k)).toNat < 128 := by
    intro k hk
    rw [toNat_ofNat_byte _ (by omega), Nat.mod_eq_of_lt (by omega)]
    exact ⟨utf8_lead_high k hk, by omega⟩
  unfold utf8_encode_char
  by_cases h1 : c.toNat < 0x80
  · rw [if_pos h1]
    refine ⟨c, [], rfl, ?_, by simp, by simp, fun _ => rfl⟩
    rw [Nat.mod_eq_of_lt (by omega)]
    exact (utf8_ascii _ h1).2
  · rw [if_neg h1]
    have hj0 := hcont (c.toNat % 64) (by omega)
    have hj1 := hcont (c.toNat / 64 % 64) (by omega)
    have hj2 := hcont (c.toNat / 4096 % 64) (by omega)
    by_cases h2 : c.toNat < 0x800
    · rw [if_pos h2]
      have hl := hlead (c.toNat / 64) (by omega)
      refine ⟨_, _, rfl, hl.1, ?_, ?_, fun h => absurd h h1⟩
      · intro x hx
        simp only [List.mem_singleton] at hx
        rw [hx]
        exact hj0.1
      · intro x hx hx2
        simp only [List.mem_cons, List.mem_singleton, List.not_mem_nil, or_false] at hx
        rcases hx with rfl | rfl
        · exact absurd hx2 hl.2
        · exact absurd hx2 hj0.2
    · rw [if_neg h2]
      by_cases h3 : c.toNat < 0x10000
      · rw [if_pos h3]
        have hl := hlead (32 + c.toNat / 4096) (by omega)
        rw [← Nat.add_assoc] at hl
        refine ⟨_, _, rfl, hl.1, ?_, ?_, fun h => absurd h h1⟩
        · intro x hx
          simp only [List.mem_cons, List.mem_singleton, List.not_mem_nil, or_false] at hx
          rcases hx with rfl | rfl
          · exact hj1.1
          · exact hj0.1
        · intro x hx hx2
          simp only [List.mem_cons, List.mem_singleton, List.not_mem_nil, or_false] at hx
          rcases hx with rfl | rfl | rfl
          · exact absurd hx2 hl.2
          · exact absurd hx2 hj1.2
          · exact absurd hx2 hj0.2
      · rw [if_neg h3]
        have hl := hlead (48 + c.toNat / 262144) (by omega)
        rw [← Nat.add_assoc] at hl
        refine ⟨_, _, rfl, hl.1, ?_, ?_, fun h => absurd h h1⟩
        · intro x hx
          simp only [List.mem_cons, List.mem_singleton, List.not_mem_nil, or_false] at hx
          rcases hx with rfl | rfl | rfl
          · exact hj2.1
          · exact hj1.1
          · exact hj0.1
        · intro x hx hx2
          simp only [List.mem_cons, List.mem_singleton, List.not_mem_nil, or_false] at hx
          rcases hx with rfl | rfl | rfl | rfl
          · exact absurd hx2 hl.2
          · exact absurd hx2 hj2.2
          · exact absurd hx2 hj1.2
          · exact absurd hx2 hj0.2

theorem dropWhile_continuation (conts rest : CStr)
    (hconts : ∀ x ∈ conts, x.toNat % 256 &&& 0xc0 = 0x80)
    (hrest : ∀ x ∈ rest.head?, ¬ (x.toNat % 256 &&& 0xc0 = 0x80)) :
    (conts ++ rest).dropWhile (fun c => c.toNat % 256 &&& 0xc0 = 0x80) = rest := by
  induction conts with
  | nil =>
    cases rest with
    | nil => rfl
    | cons x xs =>
      have := hrest x rfl
      simp only [List.nil_append]
      rw [List.dropWhile_cons_of_neg (by simpa using this)]
  | cons y ys ih =>
    rw [List.cons_append, List.dropWhile_cons_of_pos (by simpa using hconts y (List.mem_cons_self _ _))]
    exact ih (fun x hx => hconts x (List.mem_cons_of_mem _ hx))

/-- From the encoding of a scalar value `g_utf8_find_next_char` steps to what
follows it, when that does not start with a continuation byte. -/
theorem g_utf8_find_next_char_encode (c : Char) (rest : CStr)
    (hrest : ∀ x ∈ rest.head?, ¬ (x.toNat % 256 &&& 0xc0 = 0x80)) :
    g_utf8_find_next_char (utf8_encode_char c ++ rest) = rest := by
  obtain ⟨lead, conts, henc, -, hconts, -, -⟩ := utf8_encode_char_shape c
  rw [henc]
  exact dropWhile_continuation conts rest hconts hrest

theorem utf8_encode_cons (c : Char) (text : List Char) :
    utf8_encode (c :: text) = utf8_encode_char c ++ utf8_encode text := rfl

theorem utf8_encode_head (text : List Char) :
    ∀ x ∈ (utf8_encode text).head?, ¬ (x.toNat % 256 &&& 0xc0 = 0x80) := by
  cases text with
  | nil => intro x hx; cases hx
  | cons c cs =>
    obtain ⟨lead, conts, henc, hlead, -, -, -⟩ := utf8_encode_char_shape c
    intro x hx
    rw [utf8_encode_cons, henc] at hx
    cases hx
    exact hlead

/-- On the encoding of a text the loop of `parse_text` adds the scalar values
of the text, and nothing else. -/
theorem parse_text_loop_encode (text : List Char) (fuel : Nat) (codepoints : hb_set_t)
    (hfuel : (utf8_encode text).length < fuel) :
    parse_text_loop fuel (utf8_encode text) codepoints = some (codepoints ∪ scalars text) := by
  induction text generalizing fuel codepoints with
  | nil =>
    cases fuel with
    | zero => exact absurd hfuel (Nat.not_lt_zero _)
    | succ f => simp [parse_text_loop, utf8_encode, scalars]
  | cons c cs ih =>
    cases fuel with
    | zero => exact absurd hfuel (Nat.not_lt_zero _)
    | succ f =>
      obtain ⟨lead, conts, henc, -, -, -, -⟩ := utf8_encode_char_shape c
      have hne : utf8_encode (c :: cs) ≠ [] := by
        rw [utf8_encode_cons, henc]
        exact List.cons_ne_nil _ _
      have hlen : (utf8_encode cs).length < f := by
        rw [utf8_encode_cons, henc] at hfuel
        simp only [List.cons_append, List.length_cons, List.length_append] at hfuel
        omega
      rw [parse_text_loop, if_neg hne, utf8_encode_cons,
        g_utf8_find_next_char_encode c _ (utf8_encode_head cs), g_utf8_get_char_encode,
        ih f _ hlen]
      have hcp : to_codepoint c.toNat = c.toNat :=
        Nat.mod_eq_of_lt (lt_trans (toNat_lt c) (by norm_num))
      rw [hcp]
      congr 1
      ext v
      simp only [hb_set_add, scalars, List.map_cons, List.toFinset_cons, Finset.mem_union,
        Finset.mem_insert]
      tauto

/-! ## `parse_text` on any bytes and on UTF-8 -/

theorem g_utf8_find_next_char_length (c : CStr) (h : c ≠ []) :
    (g_utf8_find_next_char c).length < c.length := by
  cases c with
  | nil => exact absurd rfl h
  | cons x xs =>
    have := (List.dropWhile_suffix (fun c : Char => decide (c.toNat % 256 &&& 0xc0 = 0x80))
      (l := xs)).length_le
    simp only [g_utf8_find_next_char, List.tail_cons, List.length_cons]
    omega

/-- The loop of `parse_text` ends on every byte string, and takes nothing
out of the set. -/
theorem parse_text_loop_total (fuel : Nat) (c : CStr) (codepoints : hb_set_t)
    (hfuel : c.length < fuel) :
    ∃ out, parse_text_loop fuel c codepoints = some out ∧ codepoints ⊆ out := by
  induction fuel generalizing c codepoints with
  | zero => exact absurd hfuel (Nat.not_lt_zero _)
  | succ f ih =>
    by_cases hc : c = []
    · exact ⟨codepoints, by rw [parse_text_loop, if_pos hc], Finset.Subset.refl _⟩
    · have hlen := g_utf8_find_next_char_length c hc
      obtain ⟨out, hout, hsub⟩ := ih (g_utf8_find_next_char c)
        (hb_set_add codepoints (to_codepoint (g_utf8_get_char c))) (by omega)
      refine ⟨out, by rw [parse_text_loop, if_neg hc, hout], ?_⟩
      exact fun v hv => hsub (Finset.mem_insert_of_mem hv)

/-- The callback `parse_text` on "*": the face-bound wildcard is armed. -/
theorem parse_text_star (name : CStr) (m : subset_main_t) :
    parse_text name "*".toList m
      = some { ret := true, error := none, state := { m with all_unicodes := true } } := by
  simp [parse_text]

/-- The callback `parse_text` on the encoding of a text other than "*": the
scalar values of the text are added to the Unicode set. -/
theorem parse_text_encode (name : CStr) (text : List Char) (m : subset_main_t)
    (hstar : utf8_encode text ≠ "*".toList) :
    parse_text name (utf8_encode text) m
      = some { ret := true, error := none,
               state := put_unicodes m (m.input.unicodes ∪ scalars text) } := by
  rw [parse_text, if_neg hstar, parse_text_loop_encode text _ _ (Nat.lt_succ_self _)]
  rfl

/-- The callback `parse_text` returns true on every value, sets no error,
leaves the font path alone and takes nothing out of the Unicode set. -/
theorem parse_text_total (name arg : CStr) (m : subset_main_t) :
    ∃ r, parse_text name arg m = some r ∧ r.ret = true ∧ r.error = none
      ∧ r.state.font_file = m.font_file ∧ m.input.unicodes ⊆ r.state.input.unicodes := by
  by_cases hstar : arg = "*".toList
  · exact ⟨_, by rw [parse_text, if_pos hstar], rfl, rfl, rfl, Finset.Subset.refl _⟩
  · obtain ⟨out, hout, hsub⟩ :=
      parse_text_loop_total (arg.length + 1) arg m.input.unicodes (Nat.lt_succ_self _)
    exact ⟨_, by rw [parse_text, if_neg hstar, hout]; rfl, rfl, rfl, rfl, hsub⟩

/-- Values handed to `parse_text` one after the other: every call returns,
the font path stays, the Unicode set only grows, and it holds the scalar
values of every value that encodes a text and is not "*". -/
theorem apply_each_parse_text (name : CStr) (lines : List CStr) (m : subset_main_t) :
    ∃ m', apply_each (parse_text name) lines m = some m'
      ∧ run_lines (parse_text name) lines m = some { ret := true, error := none, state := m' }
      ∧ m'.font_file = m.font_file ∧ m.input.unicodes ⊆ m'.input.unicodes
      ∧ ∀ text, utf8_encode text ∈ lines → utf8_encode text ≠ "*".toList →
          scalars text ⊆ m'.input.unicodes := by
  induction lines generalizing m with
  | nil =>
    exact ⟨m, rfl, rfl, rfl, Finset.Subset.refl _, fun _ h => absurd h (List.not_mem_nil _)⟩
  | cons l ls ih =>
    obtain ⟨r, hr, -, herr, hfont, hsub⟩ := parse_text_total name l m
    obtain ⟨m', hm', hrun, hfont2, hsub2, hall⟩ := ih r.state
    refine ⟨m', ?_, ?_, hfont2.trans hfont, hsub.trans hsub2, ?_⟩
    · simp only [apply_each, hr, hm']
    · simp only [run_lines, hr, herr, Option.isSome_none, Bool.false_eq_true, if_false, hrun]
    · intro text hmem hstar
      rcases List.mem_cons.1 hmem with h | h
      · rw [← h, parse_text_encode name text m hstar] at hr
        have hst : r.state = put_unicodes m (m.input.unicodes ∪ scalars text) := by
          rw [← Option.some.inj hr]
        refine Finset.Subset.trans ?_ hsub2
        rw [hst]
        exact Finset.subset_union_right
      · exact hall text h hstar

/-- Once the font path is stored, `collect_rest` does what `parse_text` does. -/
theorem collect_rest_text (name arg font : CStr) (m : subset_main_t)
    (hfont : m.font_file = some font) : collect_rest name arg m = parse_text name arg m := by
  obtain ⟨r, hr, hret, herr, -, -⟩ := parse_text_total name arg m
  simp only [collect_rest, hfont, hr, Option.map_some']
  rw [← hret]

theorem apply_each_collect_rest (name font : CStr) (tokens : List CStr) (m : subset_main_t)
    (hfont : m.font_file = some font) :
    apply_each (collect_rest name) tokens m = apply_each (parse_text name) tokens m := by
  induction tokens generalizing m with
  | nil => rfl
  | cons t ts ih =>
    obtain ⟨r, hr, -, -, hf, -⟩ := parse_text_total name t m
    simp only [apply_each, collect_rest_text name t font m hfont, hr]
    exact ih r.state (hf.trans hfont)

/-! ## Lines of a UTF-8 text -/

theorem splitOnP_free (p : Char → Bool) (s : CStr) :
    ∀ t ∈ s.splitOnP p, ∀ c ∈ t, ¬ p c = true := by
  induction s with
  | nil =>
    intro t ht c hc
    simp only [List.splitOnP_nil, List.mem_singleton] at ht
    rw [ht] at hc
    exact absurd hc (List.not_mem_nil _)
  | cons x s ih =>
    intro t ht c hc
    rw [List.splitOnP_cons] at ht
    by_cases hx : p x = true
    · simp only [hx, if_true, List.mem_cons] at ht
      rcases ht with ht | ht
      · rw [ht] at hc
        exact absurd hc (List.not_mem_nil _)
      · exact ih t ht c hc
    · rw [if_neg hx] at ht
      cases hsp : s.splitOnP p with
      | nil => exact absurd hsp (List.splitOnP_ne_nil p s)
      | cons h tl =>
        rw [hsp] at ht ih
        rw [List.modifyHead_cons, List.mem_cons] at ht
        rcases ht with ht | ht
        · rw [ht, List.mem_cons] at hc
          rcases hc with hcx | hc
          · rw [hcx]
            exact hx
          · exact ih h (List.mem_cons_self _ _) c hc
        · exact ih t (List.mem_cons_of_mem _ ht) c hc

/-- A byte below 128 in the encoding of a text is a character of the text. -/
theorem utf8_encode_mem_low (text : List Char) (x : Char) (hx : x ∈ utf8_encode text)
    (hlow : x.toNat < 128) : x ∈ text := by
  induction text with
  | nil => exact absurd hx (List.not_mem_nil _)
  | cons c cs ih =>
    rw [utf8_encode_cons] at hx
    rcases List.mem_append.1 hx with h | h
    · obtain ⟨lead, conts, henc, -, -, hself, -⟩ := utf8_encode_char_shape c
      rw [henc] at h
      rw [hself x h hlow]
      exact List.mem_cons_self _ _
    · exact List.mem_cons_of_mem _ (ih h)

/-- A character below 128 of a text is a byte of its encoding. -/
theorem mem_utf8_encode_low (text : List Char) (c : Char) (hc : c ∈ text)
    (hlow : c.toNat < 128) : c ∈ utf8_encode text := by
  induction text with
  | nil => exact absurd hc (List.not_mem_nil _)
  | cons d ds ih =>
    rw [utf8_encode_cons]
    rcases List.mem_cons.1 hc with h | h
    · refine List.mem_append_left _ ?_
      rw [← h, utf8_encode_char, if_pos hlow]
      exact List.mem_singleton_self _
    · exact List.mem_append_right _ (ih h)

theorem utf8_encode_append (a b : List Char) :
    utf8_encode (a ++ b) = utf8_encode a ++ utf8_encode b :=
  List.flatMap_append a b utf8_encode_char

theorem utf8_encode_intercalate (lines : List (List Char)) :
    utf8_encode (List.intercalate ['\n'] lines)
      = List.intercalate ['\n'] (lines.map utf8_encode) := by
  induction lines with
  | nil => rfl
  | cons l ls ih =>
    cases ls with
    | nil => simp [List.intercalate]
    | cons l2 ls2 =>
      have h1 : List.intercalate ['\n'] (l :: l2 :: ls2)
          = l ++ '\n' :: List.intercalate ['\n'] (l2 :: ls2) := by
        simp [List.intercalate, List.intersperse]
      have h2 : List.intercalate ['\n'] ((l :: l2 :: ls2).map utf8_encode)
          = utf8_encode l ++ '\n' :: List.intercalate ['\n'] ((l2 :: ls2).map utf8_encode) := by
        simp [List.intercalate, List.intersperse]
      rw [h1, h2, utf8_encode_append, utf8_encode_cons, ih]
      rfl

/-- The lines of the encoding of a text are the encodings of its lines. -/
theorem file_lines_utf8 (text : List Char) :
    file_lines (utf8_encode text) = (text.splitOn '\n').map utf8_encode := by
  have hfree : ∀ l ∈ (text.splitOn '\n').map utf8_encode, '\n' ∉ l := by
    intro l hl hmem
    obtain ⟨l0, hl0, rfl⟩ := List.mem_map.1 hl
    have := utf8_encode_mem_low l0 '\n' hmem (by decide)
    exact splitOnP_free _ text l0 hl0 '\n' this (by decide)
  have hne : (text.splitOn '\n').map utf8_encode ≠ [] := by
    intro h
    exact List.splitOnP_ne_nil _ text (List.map_eq_nil_iff.1 h)
  have h := List.splitOn_intercalate _ '\n' hfree hne
  rw [← utf8_encode_intercalate, List.intercalate_splitOn] at h
  exact h

theorem utf8_encode_no_nul (text : List Char) (h : '\x00' ∉ text) :
    '\x00' ∉ utf8_encode text :=
  fun hmem => h (utf8_encode_mem_low text '\x00' hmem (by decide))

/-- C15: the text-file variant strips no comments.  For every text without
NUL, read as a UTF-8 file, `parse_file_for <parse_text, false>` returns true
with no error and leaves the state that `parse_text` leaves when applied in
turn to every newline-delimited line of the file, unmodified; every character
of a line that holds a '#' (the '#' itself and what follows it as well) is in
the Unicode set afterwards.  The comment-enabled variant hands every line
parser only what stands in front of the first '#' of each line. -/
theorem text_file_keeps_comments (BUFSIZ : Nat) (hbuf : 2 ≤ BUFSIZ)
    (fopen : CStr → Option CStr) (stdin name arg : CStr) (text : List Char) (m : subset_main_t)
    (hopen : (if arg ≠ "-".toList then fopen arg else some stdin) = some (utf8_encode text))
    (hnul : '\x00' ∉ text) :
    (∃ r, parse_file_for parse_text false BUFSIZ fopen stdin name arg m = some r
      ∧ r.ret = true ∧ r.error = none
      ∧ apply_each (parse_text name) ((text.splitOn '\n').map utf8_encode) m = some r.state
      ∧ ∀ line ∈ text.splitOn '\n', '#' ∈ line → ∀ c ∈ line, c.toNat ∈ r.state.input.unicodes)
    ∧ ∀ (σ : Type) (parse_line : CStr → CStr → σ → Option (Ret σ)) (data : σ),
        parse_file_for parse_line true BUFSIZ fopen stdin name arg data
          = run_lines (parse_line name)
              ((text.splitOn '\n').map (fun line => strip_comment (utf8_encode line))) data := by
  have hnul2 := utf8_encode_no_nul text hnul
  constructor
  · obtain ⟨m', happly, hrun, -, -, hall⟩ :=
      apply_each_parse_text name ((text.splitOn '\n').map utf8_encode) m
    refine ⟨{ ret := true, error := none, state := m' }, ?_, rfl, rfl, happly, ?_⟩
    · rw [parse_file_for_lines parse_text false BUFSIZ hbuf fopen stdin name arg _ m hopen hnul2,
        handed_false, file_lines_utf8]
      exact hrun
    · intro line hline hhash c hc
      have hstar : utf8_encode line ≠ "*".toList := by
        intro h
        have := mem_utf8_encode_low line '#' hhash (by decide)
        rw [h] at this
        revert this
        decide
      have hsub := hall line (List.mem_map_of_mem _ hline) hstar
      exact hsub (by
        simp only [scalars, List.mem_toFinset, List.mem_map]
        exact ⟨c, hc, rfl⟩)
  · intro σ parse_line data
    rw [parse_file_for_lines parse_line true BUFSIZ hbuf fopen stdin name arg _ data hopen hnul2,
      file_lines_utf8, List.map_map]
    rfl

/-- Witness of C15: the two lines "é#b" and "*c" on the blank state; the
Unicode set ends up with é, '#', 'b', '*' and 'c'. -/
theorem text_file_keeps_comments_witness :
    2 ≤ 8192
      ∧ (if "t.txt".toList ≠ "-".toList then (fun _ => some (utf8_encode sample_text))
            "t.txt".toList else some []) = some (utf8_encode sample_text)
      ∧ '\x00' ∉ sample_text
      ∧ (∃ r ∈ parse_file_for parse_text false 8192 (fun _ => some (utf8_encode sample_text)) []
            "text-file".toList "t.txt".toList blank_main,
          r.state.input.unicodes = {0xE9, 0x23, 0x62, 0x2A, 0x63})
      ∧ (∃ r, parse_file_for parse_text false 8192 (fun _ => some (utf8_encode sample_text)) []
            "text-file".toList "t.txt".toList blank_main = some r
          ∧ r.ret = true ∧ r.error = none
          ∧ apply_each (parse_text "text-file".toList)
              ((sample_text.splitOn '\n').map utf8_encode) blank_main = some r.state
          ∧ ∀ line ∈ sample_text.splitOn '\n', '#' ∈ line →
              ∀ c ∈ line, c.toNat ∈ r.state.input.unicodes)
      ∧ ∀ (σ : Type) (parse_line : CStr → CStr → σ → Option (Ret σ)) (data : σ),
          parse_file_for parse_line true 8192 (fun _ => some (utf8_encode sample_text)) []
              "text-file".toList "t.txt".toList data
            = run_lines (parse_line "text-file".toList)
                ((sample_text.splitOn '\n').map (fun line => strip_comment (utf8_encode line)))
                data :=
  ⟨by decide, by decide, by decide, by decide,
    text_file_keeps_comments 8192 (by decide) (fun _ => some (utf8_encode sample_text)) []
      "text-file".toList "t.txt".toList sample_text blank_main (by decide) (by decide)⟩

/-- C17: positional tokens split into font path and text.  From a state
with no font path, `collect_rest` on the first token `t1` returns true and
only stores `t1` as the font path: the Unicode set and the face-bound
wildcard stay as they were, also when `t1` is "*".  The tokens after it are
all processed, and leave the state that `parse_text` applied to each of them
in turn leaves, the font path still `t1`.  On such a later token
`collect_rest` arms the face-bound wildcard when the token is "*", and
otherwise adds the scalar values of the text the token encodes to the Unicode
set. -/
theorem collect_rest_positional (name t1 : CStr) (ts : List CStr) (m : subset_main_t)
    (hfont : m.font_file = none) :
    collect_rest name t1 m
        = some { ret := true, error := none, state := { m with font_file := some t1 } }
      ∧ apply_each (collect_rest name) (t1 :: ts) m
          = apply_each (parse_text name) ts { m with font_file := some t1 }
      ∧ (∃ m', apply_each (collect_rest name) (t1 :: ts) m = some m'
          ∧ m'.font_file = some t1)
      ∧ (∀ (m' : subset_main_t) (font : CStr), m'.font_file = some font →
          collect_rest name "*".toList m'
            = some { ret := true, error := none, state := { m' with all_unicodes := true } })
      ∧ ∀ (m' : subset_main_t) (font : CStr) (text : List Char), m'.font_file = some font →
          '\x00' ∉ text → utf8_encode text ≠ "*".toList →
          collect_rest name (utf8_encode text) m'
            = some { ret := true, error := none,
                     state := put_unicodes m' (m'.input.unicodes ∪ scalars text) } := by
  have h1 : collect_rest name t1 m
      = some { ret := true, error := none, state := { m with font_file := some t1 } } := by
    simp only [collect_rest, hfont]
  have h2 : apply_each (collect_rest name) (t1 :: ts) m
      = apply_each (parse_text name) ts { m with font_file := some t1 } := by
    simp only [apply_each, h1]
    exact apply_each_collect_rest name t1 ts _ rfl
  refine ⟨h1, h2, ?_, ?_, ?_⟩
  · obtain ⟨m', hm', -, hf, -, -⟩ :=
      apply_each_parse_text name ts { m with font_file := some t1 }
    exact ⟨m', h2.trans hm', hf⟩
  · intro m' font hf
    rw [collect_rest_text name _ font m' hf, parse_text_star]
  · intro m' font text hf _ hstar
    rw [collect_rest_text name _ font m' hf, parse_text_encode name text m' hstar]

/-- Witness of C17: the tokens "*", "é#" and "*" on the blank state: the
first "*" becomes the font path, "é#" adds U+00E9 and U+0023, and only the
second "*" arms the wildcard. -/
theorem collect_rest_positional_witness :
    blank_main.font_file = none
      ∧ (∃ r ∈ collect_rest "rest".toList "*".toList blank_main,
          r.ret = true ∧ r.state.font_file = some "*".toList ∧ r.state.input.unicodes = ∅
            ∧ r.state.all_unicodes = false)
      ∧ (∃ m' ∈ apply_each (collect_rest "rest".toList)
            ["*".toList, utf8_encode "é#".toList] blank_main,
          m'.font_file = some "*".toList ∧ m'.input.unicodes = {0xE9, 0x23}
            ∧ m'.all_unicodes = false)
      ∧ (∃ m' ∈ apply_each (collect_rest "rest".toList)
            ["*".toList, utf8_encode "é#".toList, "*".toList] blank_main,
          m'.font_file = some "*".toList ∧ m'.input.unicodes = {0xE9, 0x23}
            ∧ m'.all_unicodes = true)
      ∧ apply_each (collect_rest "rest".toList)
            ["*".toList, utf8_encode "é#".toList, "*".toList] blank_main
          = apply_each (parse_text "rest".toList) [utf8_encode "é#".toList, "*".toList]
              { blank_main with font_file := some "*".toList } :=
  ⟨by decide, by decide, by decide, by decide,
    (collect_rest_positional "rest".toList "*".toList [utf8_encode "é#".toList, "*".toList]
      blank_main (by decide)).2.1⟩

/-! ## Glyph indices beyond 32 bits -/

theorem lt_ulong {v : Nat} (h : v < 2 ^ 64) : v ≤ ULONG_MAX := by
  unfold ULONG_MAX
  omega

/-- The function `strtoul` on a decimal numeral above `ULONG_MAX`: the value
is `ULONG_MAX`, all digits are taken and `ERANGE` is set. -/
theorem strtoul_numeral_overflow (ds rest : CStr) (hds : numeral ds)
    (hv : ULONG_MAX < dec_value ds) (hrest : stops_numeral rest) :
    strtoul (ds ++ rest) 10 = { value := ULONG_MAX, endptr := rest, erange := true } := by
  obtain ⟨hne, hall⟩ := hds
  cases ds with
  | nil => exact absurd rfl hne
  | cons d ds =>
    have hd := hall d (by simp)
    have hsp := digit_not_space hd
    have hm := digit_ne hd (d := '-') (by decide)
    have hp := digit_ne hd (d := '+') (by decide)
    have hdig := digit_in_ten hd
    have hrun := strtoul_digits_append (d :: ds) rest 0 hall hrest
    simp only [List.cons_append] at hrun
    simp [strtoul, List.dropWhile, hsp, strtoul_sign, hm, hp, strtoul_radix_ten, hdig, hrun,
      dec_value]
    simpa [dec_value] using hv

theorem GidItem.fits_text_head {item : GidItem} (h : item.fits) :
    ∃ d t, item.text = d :: t ∧ is_digit d := by
  cases item with
  | single a =>
    exact numeral_head h.1
  | range b c =>
    obtain ⟨d, t, rfl, hd⟩ := numeral_head h.1
    exact ⟨d, t ++ '-' :: c, by simp [GidItem.text], hd⟩

/-- One turn of the `parse_gids` loop over an item whose numbers are below
`2 ^ 64`: what is added is reduced modulo `2 ^ 32`. -/
theorem parse_gids_loop_fits (fuel : Nat) (sep rest : CStr) (item : GidItem) (gids : hb_set_t)
    (hsep : delim_run sep) (hitem : item.fits) (hrest : at_delim rest) :
    parse_gids_loop (fuel + 1) (sep ++ (item.text ++ rest)) gids
      = parse_gids_loop fuel rest (gids ∪ item.wrapped) := by
  obtain ⟨d, t, htext, hd⟩ := GidItem.fits_text_head hitem
  have hskip : (sep ++ (item.text ++ rest)).dropWhile (strchr ", ".toList) = item.text ++ rest :=
    dropWhile_delim_run sep _ hsep (by
      intro c hc
      simp [htext] at hc
      subst hc
      exact digit_not_delim hd)
  have hne : sep ++ (item.text ++ rest) ≠ [] := by simp [htext]
  have hne2 : item.text ++ rest ≠ [] := by simp [htext]
  rw [parse_gids_loop]
  simp only [hne, hskip, hne2, if_false]
  cases item with
  | single a =>
    obtain ⟨ha, hv⟩ := hitem
    have hs := strtoul_numeral a rest ha (lt_ulong hv) (at_delim_stops hrest)
    simp only [GidItem.text] at hs ⊢
    have hlen : ¬ (a ++ rest).length = rest.length := by
      have : a.length ≠ 0 := by simpa using ha.1
      simp [this]
    have hden : gids ∪ {dec_value a % 2 ^ 32} = insert (dec_value a % 2 ^ 32) gids := by
      rw [Finset.union_comm]
      rfl
    have hhead : (a ++ rest).head? ≠ some '-' := by
      obtain ⟨d2, t2, ha2, hd2⟩ := numeral_head ha
      simp only [ha2, List.cons_append, List.head?_cons, ne_eq, Option.some.injEq]
      exact digit_ne hd2 (by decide)
    rw [hs]
    simp only [hhead, hlen, at_delim_not_minus hrest, Bool.false_eq_true, or_self, if_false,
      to_codepoint, hb_set_add, GidItem.wrapped, hden]
  | range b c =>
    obtain ⟨hb, hc, hvb, hvc, hle⟩ := hitem
    have hstop : stops_numeral ('-' :: (c ++ rest)) := fun x hx => by
      simp at hx
      subst hx
      decide
    have hs1 := strtoul_numeral b ('-' :: (c ++ rest)) hb (lt_ulong hvb) hstop
    have hs2 := strtoul_numeral c rest hc (lt_ulong hvc) (at_delim_stops hrest)
    have htext2 : (GidItem.range b c).text ++ rest = b ++ '-' :: (c ++ rest) := by
      simp [GidItem.text]
    rw [htext2]
    obtain ⟨d1, t1, hb1, hd1⟩ := numeral_head hb
    obtain ⟨d2, t2, hc2, hd2⟩ := numeral_head hc
    have hhead1 : (b ++ '-' :: (c ++ rest)).head? ≠ some '-' := by
      simp only [hb1, List.cons_append, List.head?_cons, ne_eq, Option.some.injEq]
      exact digit_ne hd1 (by decide)
    have hhead2 : (c ++ rest).head? ≠ some '-' := by
      simp only [hc2, List.cons_append, List.head?_cons, ne_eq, Option.some.injEq]
      exact digit_ne hd2 (by decide)
    have hlen1 : ¬ (b ++ '-' :: (c ++ rest)).length = ('-' :: (c ++ rest)).length := by
      have : b.length ≠ 0 := by simpa using hb.1
      simp [this]
    have hlen2 : ¬ (c ++ rest).length = rest.length := by
      have : c.length ≠ 0 := by simpa using hc.1
      simp [this]
    rw [hs1]
    simp only [hhead1, hlen1, Bool.false_eq_true, or_self, if_false, List.head?_cons, if_true,
      List.tail_cons, hs2, hhead2, hlen2, Bool.or_self, to_codepoint, Nat.not_lt.2 hle,
      hb_set_add_range, GidItem.wrapped]

theorem minus_stops (t : CStr) : stops_numeral ('-' :: t) := fun x hx => by
  simp only [List.head?_cons, Option.mem_def, Option.some.injEq] at hx
  subst hx
  decide

theorem numeral_skip (sep ds rest : CStr) (hsep : delim_run sep) (hds : numeral ds) :
    (sep ++ (ds ++ rest)).dropWhile (strchr ", ".toList) = ds ++ rest
      ∧ sep ++ (ds ++ rest) ≠ [] ∧ ds ++ rest ≠ [] ∧ (ds ++ rest).head? ≠ some '-'
      ∧ ¬ (ds ++ rest).length = rest.length := by
  obtain ⟨d, t, hdt, hd⟩ := numeral_head hds
  refine ⟨dropWhile_delim_run sep _ hsep ?_, by simp [hdt], by simp [hdt], ?_, ?_⟩
  · intro x hx
    simp only [hdt, List.cons_append, List.head?_cons, Option.mem_def,
      Option.some.injEq] at hx
    subst hx
    exact digit_not_delim hd
  · simp only [hdt, List.cons_append, List.head?_cons, ne_eq, Option.some.injEq]
    exact digit_ne hd (by decide)
  · simp only [hdt, List.cons_append, List.length_cons, List.length_append]
    omega

/-- The `parse_gids` loop on a numeral of `2 ^ 64` or more: `strtoul` sets
`ERANGE` and the item is refused. -/
theorem parse_gids_loop_too_big (fuel : Nat) (sep big rest : CStr) (gids : hb_set_t)
    (hsep : delim_run sep) (hbig : numeral big) (hv : 2 ^ 64 ≤ dec_value big)
    (hrest : ∀ x ∈ rest.head?, ¬ is_digit x) :
    parse_gids_loop (fuel + 1) (sep ++ (big ++ rest)) gids
      = some { ret := false, error := some (.glyph_index_at (big ++ rest)), state := gids } := by
  obtain ⟨hskip, hne, hne2, -, -⟩ := numeral_skip sep big rest hsep hbig
  have hs := strtoul_numeral_overflow big rest hbig (by unfold ULONG_MAX; omega)
    (not_digit_stops hrest)
  rw [parse_gids_loop]
  simp only [hne, hskip, hne2, if_false]
  rw [hs]
  simp

/-- The `parse_gids` loop on a range whose end is a numeral of `2 ^ 64` or
more. -/
theorem parse_gids_loop_end_too_big (fuel : Nat) (sep b big rest : CStr) (gids : hb_set_t)
    (hsep : delim_run sep) (hb : numeral b) (hvb : dec_value b < 2 ^ 64) (hbig : numeral big)
    (hv : 2 ^ 64 ≤ dec_value big) (hrest : ∀ x ∈ rest.head?, ¬ is_digit x) :
    parse_gids_loop (fuel + 1) (sep ++ (b ++ '-' :: (big ++ rest))) gids
      = some { ret := false, error := some (.glyph_index_at (big ++ rest)), state := gids } := by
  obtain ⟨hskip, hne, hne2, hhead, hlen⟩ := numeral_skip sep b ('-' :: (big ++ rest)) hsep hb
  have hs1 := strtoul_numeral b ('-' :: (big ++ rest)) hb (lt_ulong hvb) (minus_stops _)
  have hs2 := strtoul_numeral_overflow big rest hbig (by unfold ULONG_MAX; omega)
    (not_digit_stops hrest)
  rw [parse_gids_loop]
  simp only [hne, hskip, hne2, if_false]
  rw [hs1]
  simp only [hhead, hlen, Bool.false_eq_true, or_self, if_false, List.head?_cons, if_true,
    List.tail_cons, hs2]
  simp

/-- The `parse_gids` loop on a range of numerals below `2 ^ 64` whose end,
reduced modulo `2 ^ 32`, is below its reduced start. -/
theorem parse_gids_loop_wrapped_bad_range (fuel : Nat) (sep b c suffix : CStr) (gids : hb_set_t)
    (hsep : delim_run sep) (hb : numeral b) (hc : numeral c) (hvb : dec_value b < 2 ^ 64)
    (hvc : dec_value c < 2 ^ 64) (hlt : dec_value c % 2 ^ 32 < dec_value b % 2 ^ 32)
    (hsuffix : ∀ x ∈ suffix.head?, ¬ is_digit x) :
    parse_gids_loop (fuel + 1) (sep ++ (b ++ '-' :: (c ++ suffix))) gids
      = some { ret := false,
               error := some (.invalid_gid_range (dec_value b % 2 ^ 32) (dec_value c % 2 ^ 32)),
               state := gids } := by
  obtain ⟨hskip, hne, hne2, hhead, hlen⟩ := numeral_skip sep b ('-' :: (c ++ suffix)) hsep hb
  obtain ⟨-, -, -, hhead2, hlen2⟩ := numeral_skip [] c suffix (fun _ h => absurd h (by simp)) hc
  have hs1 := strtoul_numeral b ('-' :: (c ++ suffix)) hb (lt_ulong hvb) (minus_stops _)
  have hs2 := strtoul_numeral c suffix hc (lt_ulong hvc) (not_digit_stops hsuffix)
  rw [parse_gids_loop]
  simp only [hne, hskip, hne2, if_false]
  rw [hs1]
  simp only [hhead, hlen, Bool.false_eq_true, or_self, if_false, List.head?_cons, if_true,
    List.tail_cons, hs2, hhead2, hlen2, Bool.or_self, to_codepoint, hlt]

theorem separators_ok_cons {sep : CStr} {seps : List CStr} (h : separators_ok (sep :: seps)) :
    delim_run sep ∧ (∀ s ∈ seps, delim_run s) ∧ ∀ s ∈ seps, s ≠ [] :=
  ⟨h.1 sep (List.mem_cons_self _ _), fun s hs => h.1 s (List.mem_cons_of_mem _ hs),
    fun s hs => h.2 s hs⟩

/-- The `parse_gids` loop over a run of items whose numbers are below
`2 ^ 64`. -/
theorem parse_gids_loop_fits_items (parts : List (CStr × GidItem)) (fuel : Nat) (tail : CStr)
    (gids : hb_set_t) (hsep : separators_ok (parts.map Prod.fst))
    (hfits : ∀ p ∈ parts, p.2.fits) (htail : at_delim tail) :
    parse_gids_loop (parts.length + fuel) (joined (gid_parts parts) ++ tail) gids
      = parse_gids_loop fuel tail (gids ∪ wrapped_all (parts.map Prod.snd)) := by
  induction parts generalizing gids with
  | nil => simp [gid_parts, joined, wrapped_all]
  | cons p ps ih =>
    obtain ⟨sep, item⟩ := p
    obtain ⟨hrun0, hrun, hne⟩ := separators_ok_cons hsep
    have hsep_ps := (separators_ok_tail hsep)
    have hrest : at_delim (joined (gid_parts ps) ++ tail) :=
      joined_at_delim _ _
        (fun q hq => by
          simp only [gid_parts, List.mem_map] at hq
          obtain ⟨q0, hq0, rfl⟩ := hq
          exact hrun q0.1 (List.mem_map_of_mem Prod.fst hq0))
        (fun q hq => by
          simp only [gid_parts, List.mem_map] at hq
          obtain ⟨q0, hq0, rfl⟩ := hq
          exact hne q0.1 (List.mem_map_of_mem Prod.fst hq0))
        htail
    have htext : joined (gid_parts ((sep, item) :: ps)) ++ tail
        = sep ++ (item.text ++ (joined (gid_parts ps) ++ tail)) := by
      simp [gid_parts, joined]
    have hfuel : ((sep, item) :: ps).length + fuel = (ps.length + fuel) + 1 := by
      simp only [List.length_cons]
      omega
    rw [htext, hfuel,
      parse_gids_loop_fits _ sep _ item gids hrun0
        (hfits (sep, item) (List.mem_cons_self _ _)) hrest,
      ih _ hsep_ps.1 (fun q hq => hfits q (List.mem_cons_of_mem _ hq))]
    simp [wrapped_all, Finset.union_assoc]

theorem fits_fuel_split (parts : List (CStr × GidItem)) (tail : CStr)
    (hfits : ∀ p ∈ parts, p.2.fits) :
    ∃ k, (joined (gid_parts parts) ++ tail).length + 1 = parts.length + (k + 1) := by
  have hlen : parts.length ≤ (joined (gid_parts parts)).length :=
    le_trans (by simp [gid_parts])
      (joined_length_le (gid_parts parts) (fun p hp => by
        simp only [gid_parts, List.mem_map] at hp
        obtain ⟨q, hq, rfl⟩ := hp
        obtain ⟨d, t, htext, -⟩ := GidItem.fits_text_head (hfits q hq)
        simp [htext]))
  exact ⟨(joined (gid_parts parts) ++ tail).length - parts.length, by
    simp only [List.length_append]
    omega⟩

/-- The `parse_gids` loop over items whose numbers are below `2 ^ 64`,
followed by any text that is set off by a separator. -/
theorem parse_gids_loop_fits_leading (parts : List (CStr × GidItem)) (fuel : Nat)
    (sep rest : CStr) (gids : hb_set_t) (hseps : separators_ok (parts.map Prod.fst))
    (hfits : ∀ p ∈ parts, p.2.fits) (hsep : delim_run sep) (hne : parts = [] ∨ sep ≠ []) :
    parse_gids_loop (parts.length + fuel) (joined (gid_parts parts) ++ (sep ++ rest)) gids
      = parse_gids_loop fuel (sep ++ rest) (gids ∪ wrapped_all (parts.map Prod.snd)) := by
  by_cases hparts : parts = []
  · subst hparts
    simp [gid_parts, joined, wrapped_all]
  · exact parse_gids_loop_fits_items parts fuel _ gids hseps hfits
      (at_delim_after parts sep rest hsep hne hparts)

/-- C21: oversized glyph indices wrap instead of failing, `unsigned long` being
64 bits wide.  For every list of items whose numbers are decimal numerals
below `2 ^ 64` (those of `2 ^ 32` and more among them), the ranges in order
once both ends are reduced modulo `2 ^ 32`, `parse_gids` succeeds and adds
every number reduced modulo `2 ^ 32`: the value `v % 2 ^ 32` for a single `v`,
the interval between the reduced ends for a range.  After such a list, a range
whose reduced end is below its reduced start fails with the invalid-range
error that shows the reduced values, even when the end as written is the
larger number; and a numeral of `2 ^ 64` or more, alone or as the end of a
range, fails with the malformed-number error.  The failures leave the items
in front of them applied. -/
theorem parse_gids_oversized_wrap (name : CStr) (parts : List (CStr × GidItem)) (sep : CStr)
    (m : subset_main_t) (hseps : separators_ok (parts.map Prod.fst))
    (hfits : ∀ p ∈ parts, p.2.fits) (hsep : delim_run sep) (hne : parts = [] ∨ sep ≠ []) :
    (∀ trail : CStr, delim_run trail →
        parse_gids name (joined (gid_parts parts) ++ trail) m
          = some { ret := true, error := none,
                   state := put_glyphs m
                     (m.input.glyphs ∪ wrapped_all (parts.map Prod.snd)) })
      ∧ (∀ b c suffix : CStr, numeral b → numeral c → dec_value b < 2 ^ 64 →
          dec_value c < 2 ^ 64 → dec_value c % 2 ^ 32 < dec_value b % 2 ^ 32 →
          (∀ x ∈ suffix.head?, ¬ is_digit x) →
          parse_gids name (joined (gid_parts parts) ++ (sep ++ (b ++ '-' :: (c ++ suffix)))) m
            = some { ret := false,
                     error := some (.invalid_gid_range (dec_value b % 2 ^ 32)
                       (dec_value c % 2 ^ 32)),
                     state := put_glyphs m
                       (m.input.glyphs ∪ wrapped_all (parts.map Prod.snd)) })
      ∧ (∀ big rest : CStr, numeral big → 2 ^ 64 ≤ dec_value big →
          (∀ x ∈ rest.head?, ¬ is_digit x) →
          parse_gids name (joined (gid_parts parts) ++ (sep ++ (big ++ rest))) m
            = some { ret := false, error := some (.glyph_index_at (big ++ rest)),
                     state := put_glyphs m
                       (m.input.glyphs ∪ wrapped_all (parts.map Prod.snd)) })
      ∧ ∀ b big rest : CStr, numeral b → dec_value b < 2 ^ 64 → numeral big →
          2 ^ 64 ≤ dec_value big → (∀ x ∈ rest.head?, ¬ is_digit x) →
          parse_gids name (joined (gid_parts parts) ++ (sep ++ (b ++ '-' :: (big ++ rest)))) m
            = some { ret := false, error := some (.glyph_index_at (big ++ rest)),
                     state := put_glyphs m
                       (m.input.glyphs ∪ wrapped_all (parts.map Prod.snd)) } := by
  refine ⟨?_, ?_, ?_, ?_⟩
  · intro trail htrail
    obtain ⟨k, hk⟩ := fits_fuel_split parts trail hfits
    unfold parse_gids
    rw [hk, parse_gids_loop_fits_items parts (k + 1) trail _ hseps hfits
        (delim_run_at_delim htrail),
      parse_gids_loop_trail k trail _ htrail]
    rfl
  · intro b c suffix hb hc hvb hvc hlt hsuffix
    obtain ⟨k, hk⟩ := fits_fuel_split parts (sep ++ (b ++ '-' :: (c ++ suffix))) hfits
    unfold parse_gids
    rw [hk, parse_gids_loop_fits_leading parts (k + 1) sep _ _ hseps hfits hsep hne,
      parse_gids_loop_wrapped_bad_range k sep b c suffix _ hsep hb hc hvb hvc hlt hsuffix]
    rfl
  · intro big rest hbig hv hrest
    obtain ⟨k, hk⟩ := fits_fuel_split parts (sep ++ (big ++ rest)) hfits
    unfold parse_gids
    rw [hk, parse_gids_loop_fits_leading parts (k + 1) sep _ _ hseps hfits hsep hne,
      parse_gids_loop_too_big k sep big rest _ hsep hbig hv hrest]
    rfl
  · intro b big rest hb hvb hbig hv hrest
    obtain ⟨k, hk⟩ := fits_fuel_split parts (sep ++ (b ++ '-' :: (big ++ rest))) hfits
    unfold parse_gids
    rw [hk, parse_gids_loop_fits_leading parts (k + 1) sep _ _ hseps hfits hsep hne,
      parse_gids_loop_end_too_big k sep b big rest _ hsep hb hvb hbig hv hrest]
    rfl

/-- Witness of C21: "4294967297,4294967296-5" on a set that holds 9 adds 1 and
the interval from 0 to 5; after it "5-4294967296" is the invalid range 5-0,
and "18446744073709551616", alone or as the end of a range, is refused, while
"18446744073709551615" is accepted. -/
theorem parse_gids_oversized_wrap_witness :
    separators_ok ([("".toList, GidItem.single "4294967297".toList),
        (",".toList, GidItem.range "4294967296".toList "5".toList)].map Prod.fst)
      ∧ (∀ p ∈ [("".toList, GidItem.single "4294967297".toList),
          (",".toList, GidItem.range "4294967296".toList "5".toList)], p.2.fits)
      ∧ delim_run ",".toList
      ∧ ([("".toList, GidItem.single "4294967297".toList),
          (",".toList, GidItem.range "4294967296".toList "5".toList)] = [] ∨ ",".toList ≠ [])
      ∧ (∃ r ∈ parse_gids "gids".toList "4294967297,4294967296-5".toList
            (put_glyphs blank_main {9}),
          r.ret = true ∧ r.error = none ∧ r.state.input.glyphs = {0, 1, 2, 3, 4, 5, 9})
      ∧ (∃ r ∈ parse_gids "gids".toList "18446744073709551615".toList blank_main,
          r.ret = true ∧ r.error = none)
      ∧ parse_gids "gids".toList "4294967297,4294967296-5".toList (put_glyphs blank_main {9})
          = some { ret := true, error := none,
                   state := put_glyphs (put_glyphs blank_main {9})
                     ({9} ∪ ({1} ∪ (Finset.Icc 0 5 ∪ ∅))) }
      ∧ parse_gids "gids".toList "4294967297,4294967296-5,5-4294967296 7".toList
            (put_glyphs blank_main {9})
          = some { ret := false, error := some (.invalid_gid_range 5 0),
                   state := put_glyphs (put_glyphs blank_main {9})
                     ({9} ∪ ({1} ∪ (Finset.Icc 0 5 ∪ ∅))) }
      ∧ parse_gids "gids".toList "4294967297,4294967296-5,18446744073709551616 7".toList
            (put_glyphs blank_main {9})
          = some { ret := false,
                   error := some (.glyph_index_at "18446744073709551616 7".toList),
                   state := put_glyphs (put_glyphs blank_main {9})
                     ({9} ∪ ({1} ∪ (Finset.Icc 0 5 ∪ ∅))) }
      ∧ parse_gids "gids".toList "4294967297,4294967296-5,1-18446744073709551616".toList
            (put_glyphs blank_main {9})
          = some { ret := false,
                   error := some (.glyph_index_at "18446744073709551616".toList),
                   state := put_glyphs (put_glyphs blank_main {9})
                     ({9} ∪ ({1} ∪ (Finset.Icc 0 5 ∪ ∅))) } :=
  ⟨by decide, by decide, by decide, by decide, by decide, by decide,
    (parse_gids_oversized_wrap "gids".toList
      [("".toList, GidItem.single "4294967297".toList),
        (",".toList, GidItem.range "4294967296".toList "5".toList)] ",".toList
      (put_glyphs blank_main {9}) (by decide) (by decide) (by decide) (by decide)).1
      "".toList (by decide),
    (parse_gids_oversized_wrap "gids".toList
      [("".toList, GidItem.single "4294967297".toList),
        (",".toList, GidItem.range "4294967296".toList "5".toList)] ",".toList
      (put_glyphs blank_main {9}) (by decide) (by decide) (by decide) (by decide)).2.1
      "5".toList "4294967296".toList " 7".toList (by decide) (by decide) (by decide) (by decide)
      (by decide) (by decide),
    (parse_gids_oversized_wrap "gids".toList
      [("".toList, GidItem.single "4294967297".toList),
        (",".toList, GidItem.range "4294967296".toList "5".toList)] ",".toList
      (put_glyphs blank_main {9}) (by decide) (by decide) (by decide) (by decide)).2.2.1
      "18446744073709551616".toList " 7".toList (by decide) (by decide) (by decide),
    (parse_gids_oversized_wrap "gids".toList
      [("".toList, GidItem.single "4294967297".toList),
        (",".toList, GidItem.range "4294967296".toList "5".toList)] ",".toList
      (put_glyphs blank_main {9}) (by decide) (by decide) (by decide) (by decide)).2.2.2
      "1".toList "18446744073709551616".toList "".toList (by decide) (by decide) (by decide)
      (by decide) (by decide)⟩

end HbSubset
